import Mathlib

/-! Othello: board engine and negamax search.

A shallow embedding of `Board.h` and `Computer_player.h`.

* `vector<vector<Piece>>` is a list of lists; indexing outside a vector is a
  `Fault.bounds`, a failed `assert` is a `Fault.assertion`.
* `unsigned char` coordinates are naturals reduced modulo 256 after every
  addition of an offset.
* `int` values are integers; the negations and the depth increment performed
  by `search` are reduced to 32-bit two's complement (`wrap32`), the sums of
  `evaluate` stay far inside the 32-bit range.
* recursive functions carry an explicit recursion budget; exhausting it is a
  `Fault.budget`.  The line walks get the budget 8, which is never exhausted
  from a position of the grid; `search` returns the same result for every
  budget above the one that first lets it return.
* `std::sort` is an ascending sort that keeps candidates of equal value in
  their order.
-/

namespace Othello

/-! ## Outcomes -/

/-- Ways in which a call fails to return a value. -/
inductive Fault where
  | assertion
  | bounds
  | budget
deriving DecidableEq, Repr

deriving instance DecidableEq for Except

/-! ## Data model (Board.h) -/

/-- The C++ enum `Piece`. -/
inductive Piece where
  | EMPTY
  | P1
  | P2
deriving DecidableEq, Repr

/-- The C++ function `get_opponent`. -/
def get_opponent : Piece → Piece
  | Piece.P1 => Piece.P2
  | Piece.P2 => Piece.P1
  | Piece.EMPTY => Piece.EMPTY

/-- The C++ struct `Position`: two `unsigned char` coordinates. -/
structure Position where
  row : Nat
  col : Nat
deriving DecidableEq, Repr

/-- The default-constructed `Position`: both fields are `(unsigned char)-1`. -/
def Position.none : Position := ⟨255, 255⟩

/-- The constructor `Position(other, offset)`: each coordinate is incremented by
the signed offset and stored back into an `unsigned char`. -/
def Position.shift (other : Position) (offset : Int × Int) : Position :=
  ⟨(((other.row : Int) + offset.1) % 256).toNat, (((other.col : Int) + offset.2) % 256).toNat⟩

/-- The C++ typedef `Board_vec`. -/
abbrev Board_vec := List (List Piece)

/-- Reading `board[row][col]`. -/
def cell (board : Board_vec) (row col : Nat) : Except Fault Piece :=
  match board.get? row with
  | Option.none => Except.error Fault.bounds
  | some cells =>
    match cells.get? col with
    | Option.none => Except.error Fault.bounds
    | some p => Except.ok p

/-- Writing `board[row][col] = p`. -/
def set_cell (board : Board_vec) (row col : Nat) (p : Piece) : Except Fault Board_vec :=
  match board.get? row with
  | Option.none => Except.error Fault.bounds
  | some cells =>
    if col < cells.length then Except.ok (board.set row (cells.set col p))
    else Except.error Fault.bounds

/-- A board of exactly 8 rows of exactly 8 cells. -/
def Board_vec.wf (board : Board_vec) : Prop :=
  board.length = 8 ∧ ∀ cells ∈ board, cells.length = 8

instance (board : Board_vec) : Decidable board.wf := by
  unfold Board_vec.wf; exact inferInstance

/-- The offsets tried by one pass of the loop `for(int off = -1; off <= 1; off++)`. -/
def offsets : List Int := [-1, 0, 1]

/-- Recursion budget given to the line walks: seven cells inside the grid and
the step that leaves it. -/
def LINE_BUDGET : Nat := 8

/-! ## Board engine (Board.h) -/

/-- The C++ function `Board::count_move_line`. -/
def count_move_line : Nat → Board_vec → Piece → Position → Int × Int → Except Fault Int
  | 0, _, _, _, _ => Except.error Fault.budget
  | budget + 1, board, piece, pos, offset => do
    let next := Position.shift pos offset
    if next.row > 7 ∨ next.col > 7 then
      return -1
    else
      let here ← cell board next.row next.col
      if here = Piece.EMPTY then
        return -1
      else if here = piece then
        return 0
      else
        let next_flips ← count_move_line budget board piece next offset
        if next_flips = -1 then
          return -1
        else
          return next_flips + 1

/-- The body of the two nested offset loops shared by `count_move` and `play`:
`step` is run for every `(row_off, col_off)` other than `(0, 0)`, in the order
of the loops, threading the loop state. -/
def for_each_offset {σ : Type} (step : σ → Int × Int → Except Fault σ) (init : σ) :
    Except Fault σ :=
  offsets.foldlM (fun s row_off =>
    offsets.foldlM (fun s col_off =>
      if ¬ (row_off = 0 ∧ col_off = 0) then step s (row_off, col_off) else pure s) s) init

/-- The body of the direction loop of `Board::count_move`: the running total
after looking along `offset`. -/
def count_step (board : Board_vec) (piece : Piece) (pos : Position) (total : Int)
    (offset : Int × Int) : Except Fault Int := do
  let line_flips ← count_move_line LINE_BUDGET board piece pos offset
  if line_flips > 0 then
    return total + line_flips
  else
    return total

/-- The C++ function `Board::count_move`. -/
def count_move (board : Board_vec) (piece : Piece) (pos : Position) : Except Fault Int := do
  if piece = Piece.EMPTY then
    throw Fault.assertion
  else
    let target ← cell board pos.row pos.col
    if target ≠ Piece.EMPTY then
      return 0
    else
      for_each_offset (count_step board piece pos) 0

/-- The C++ function `Board::flip_line`; the board is passed through. -/
def flip_line : Nat → Board_vec → Piece → Position → Int × Int → Except Fault (Board_vec × Int)
  | 0, _, _, _, _ => Except.error Fault.budget
  | budget + 1, board, piece, pos, offset => do
    let next := Position.shift pos offset
    if next.row > 7 ∨ next.col > 7 then
      return (board, -1)
    else
      let here ← cell board next.row next.col
      if here = Piece.EMPTY then
        return (board, -1)
      else if here = piece then
        return (board, 0)
      else
        let (board, next_flips) ← flip_line budget board piece next offset
        if next_flips = -1 then
          return (board, -1)
        else
          let board ← set_cell board next.row next.col piece
          return (board, next_flips + 1)

/-- The body of the direction loop of `Board::play`: the board and the running
total after flipping along `offset`. -/
def play_step (piece : Piece) (pos : Position) (state : Board_vec × Int)
    (offset : Int × Int) : Except Fault (Board_vec × Int) := do
  let (board, line_flips) ← flip_line LINE_BUDGET state.1 piece pos offset
  if line_flips > 0 then
    return (board, state.2 + line_flips)
  else
    return (board, state.2)

/-- The C++ function `Board::play` (static overload): the board after the call
and the number of flipped discs. -/
def play (board : Board_vec) (piece : Piece) (pos : Position) :
    Except Fault (Board_vec × Int) := do
  if piece = Piece.EMPTY then
    throw Fault.assertion
  else
    let target ← cell board pos.row pos.col
    if target ≠ Piece.EMPTY then
      return (board, 0)
    else
      let board ← set_cell board pos.row pos.col piece
      for_each_offset (play_step piece pos) (board, 0)

/-- The C++ function `Board::count_pieces` (static overload). -/
def count_pieces (board : Board_vec) (piece : Piece) : Int :=
  board.foldl (fun count cells =>
    cells.foldl (fun count element => if element = piece then count + 1 else count) count) 0

/-- The positions visited by `for(row = 0; row < 8; row++) for(col = 0; col < 8; col++)`. -/
def all_positions : List Position :=
  (List.range 8).flatMap (fun row => (List.range 8).map (fun col => (⟨row, col⟩ : Position)))

/-- The C++ function `Board::get_legal_positions`. -/
def get_legal_positions (board : Board_vec) (piece : Piece) : Except Fault (List Position) :=
  all_positions.foldlM (fun out pos => do
    let flips ← count_move board piece pos
    if flips ≠ 0 then return out ++ [pos] else return out) []

/-- The C++ function `Board::count_legal_positions` (static overload); the
`unsigned char` counter never exceeds 64. -/
def count_legal_positions (board : Board_vec) (piece : Piece) : Except Fault Int :=
  all_positions.foldlM (fun total pos => do
    let flips ← count_move board piece pos
    if flips ≠ 0 then return total + 1 else return total) 0

/-- The C++ function `Board::can_move` (static overload). -/
def can_move (board : Board_vec) (piece : Piece) : Except Fault Bool := do
  let n ← count_legal_positions board piece
  return decide (n > 0)

/-- The C++ function `Board::game_over` (static overload); `&&` evaluates its
right operand only when the left one is true. -/
def game_over (board : Board_vec) : Except Fault Bool := do
  let first ← can_move board Piece.P1
  if first then
    return false
  else
    let second ← can_move board Piece.P2
    return !second

/-- The C++ function `Board::get_winner`. -/
def get_winner (board : Board_vec) : Piece :=
  let p1_pieces := count_pieces board Piece.P1
  let p2_pieces := count_pieces board Piece.P2
  if p1_pieces > p2_pieces then Piece.P1
  else if p1_pieces < p2_pieces then Piece.P2
  else Piece.EMPTY

/-- The board left by `Board::reset`. -/
def reset_board : Board_vec :=
  [[Piece.EMPTY, Piece.EMPTY, Piece.EMPTY, Piece.EMPTY,
    Piece.EMPTY, Piece.EMPTY, Piece.EMPTY, Piece.EMPTY],
   [Piece.EMPTY, Piece.EMPTY, Piece.EMPTY, Piece.EMPTY,
    Piece.EMPTY, Piece.EMPTY, Piece.EMPTY, Piece.EMPTY],
   [Piece.EMPTY, Piece.EMPTY, Piece.EMPTY, Piece.EMPTY,
    Piece.EMPTY, Piece.EMPTY, Piece.EMPTY, Piece.EMPTY],
   [Piece.EMPTY, Piece.EMPTY, Piece.EMPTY, Piece.P2,
    Piece.P1, Piece.EMPTY, Piece.EMPTY, Piece.EMPTY],
   [Piece.EMPTY, Piece.EMPTY, Piece.EMPTY, Piece.P1,
    Piece.P2, Piece.EMPTY, Piece.EMPTY, Piece.EMPTY],
   [Piece.EMPTY, Piece.EMPTY, Piece.EMPTY, Piece.EMPTY,
    Piece.EMPTY, Piece.EMPTY, Piece.EMPTY, Piece.EMPTY],
   [Piece.EMPTY, Piece.EMPTY, Piece.EMPTY, Piece.EMPTY,
    Piece.EMPTY, Piece.EMPTY, Piece.EMPTY, Piece.EMPTY],
   [Piece.EMPTY, Piece.EMPTY, Piece.EMPTY, Piece.EMPTY,
    Piece.EMPTY, Piece.EMPTY, Piece.EMPTY, Piece.EMPTY]]

/-! ## Computer player (Computer_player.h) -/

/-- The C++ constant `INT_MAX` of a 32-bit `int`. -/
def INT_MAX : Int := 2147483647

/-- The C++ constant `INT_MIN` of a 32-bit `int`. -/
def INT_MIN : Int := -2147483648

/-- The value of a 32-bit `int` operation whose mathematical result is `x`
(two's complement). -/
def wrap32 (x : Int) : Int := (x + 2147483648) % 4294967296 - 2147483648

/-- The C++ struct `Possibility`. -/
structure Possibility where
  pos : Position
  board : Board_vec
  value : Int
deriving DecidableEq, Repr

/-- The converting constructor `Possibility(int value)`: the position and the
board are default-constructed. -/
def Possibility.of_value (value : Int) : Possibility := ⟨Position.none, [], value⟩

/-- The members of the C++ class `Computer_player` read by `move`, `search` and
`evaluate`. -/
structure Computer_player where
  piece : Piece
  max_depth : Int
  end_game_depth : Int
  search_to_end : Bool
deriving DecidableEq, Repr

/-- The C++ table `Computer_player::WEIGHTS`. -/
def WEIGHTS : List (List Int) :=
  [[99, -8, 8, 6],
   [-8, -24, -4, -3],
   [8, -4, 7, 4],
   [6, -3, 4, 0]]

/-- Reading `WEIGHTS[weight_row][weight_col]`. -/
def weight_at (weight_row weight_col : Nat) : Except Fault Int :=
  match WEIGHTS.get? weight_row with
  | Option.none => Except.error Fault.bounds
  | some ws =>
    match ws.get? weight_col with
    | Option.none => Except.error Fault.bounds
    | some w => Except.ok w

/-- The body of the two loops of the positional part of `evaluate`: the pair
`(active_weight, opponent_weight)` after the cell `(row, col)`. -/
def weigh_cell (board_vec : Board_vec) (piece : Piece) (acc : Int × Int) (at_cell : Position) :
    Except Fault (Int × Int) := do
  let row := at_cell.row
  let col := at_cell.col
  let weight_row := if row < 4 then row else 7 - row
  let weight_col := if col < 4 then col else 7 - col
  let weight ← weight_at weight_row weight_col
  let corner ←
    if row < 4 ∧ col < 4 then cell board_vec 0 0
    else if row < 4 ∧ col ≥ 4 then cell board_vec 0 7
    else if row ≥ 4 ∧ col < 4 then cell board_vec 7 0
    else cell board_vec 7 7
  let corner_empty := decide (corner = Piece.EMPTY)
  let weight := if !corner_empty then max 1 weight else weight
  let here ← cell board_vec row col
  let active_weight := if here = piece then acc.1 + weight else acc.1
  let opponent_weight := if here = get_opponent piece then acc.2 + weight else acc.2
  return (active_weight, opponent_weight)

/-- The positional part of `Computer_player::evaluate` (the code after the
game-over block). -/
def evaluate_weights (board_vec : Board_vec) (piece : Piece) : Except Fault Int := do
  let (active_weight, opponent_weight) ← all_positions.foldlM (weigh_cell board_vec piece) (0, 0)
  return active_weight - opponent_weight

/-- The C++ function `Computer_player::evaluate`; integer division truncates. -/
def evaluate (board_vec : Board_vec) (piece : Piece) : Except Fault Int := do
  if (← game_over board_vec) then
    let winner := get_winner board_vec
    if winner = Piece.EMPTY then
      return Int.tdiv INT_MIN 4
    else
      let active_pieces := count_pieces board_vec piece
      let opponent_pieces := count_pieces board_vec (get_opponent piece)
      let modifier := active_pieces - opponent_pieces
      if winner = piece then
        return Int.tdiv INT_MAX 2 + modifier
      else if winner = get_opponent piece then
        return Int.tdiv INT_MIN 2 + modifier
      else
        evaluate_weights board_vec piece
  else
    evaluate_weights board_vec piece

/-- The order in which `search` explores the candidates after
`std::sort(..., a.value < b.value)`: ascending by `value`.  The C++ standard
leaves the relative order of candidates of equal value unspecified; here they
keep their order. -/
def sort_by_value (possibilities : List Possibility) : List Possibility :=
  possibilities.insertionSort (fun a b => a.value ≤ b.value)

/-- The loop `for(Possibility poss: possibilities)` of `search`, started with
the current `alpha` and `max_poss`; `recurse` is the recursive call of `search`. -/
def explore (recurse : Board_vec → Piece → Int → Int → Int → Except Fault Possibility)
    (piece : Piece) (beta depth : Int) :
    List Possibility → Int → Possibility → Except Fault Possibility
  | [], _, max_poss => pure max_poss
  | poss :: rest, alpha, max_poss => do
    let child ← recurse poss.board (get_opponent piece) (wrap32 (-alpha)) (wrap32 (-beta))
      (wrap32 (depth + 1))
    let value := wrap32 (-1 * child.value)
    if value > max_poss.value then
      let alpha := max alpha value
      if alpha ≥ beta then
        return { poss with value := value }
      else
        explore recurse piece beta depth rest alpha { poss with value := value }
    else
      explore recurse piece beta depth rest alpha max_poss

/-- The C++ function `Computer_player::search`; the parameters keep the order
`beta, alpha, depth` of the source, and `-alpha`, `-beta`, `-1 * value` and
`depth + 1` are 32-bit operations. -/
def search (self : Computer_player) :
    Nat → Board_vec → Piece → Int → Int → Int → Except Fault Possibility
  | 0, _, _, _, _, _ => Except.error Fault.budget
  | budget + 1, board_state, piece, beta, alpha, depth => do
    let stop ← (if self.search_to_end then game_over board_state
      else pure (decide (depth = self.max_depth)))
    if stop then
      return Possibility.of_value (← evaluate board_state piece)
    else if !(← can_move board_state piece) then
      let child ← search self budget board_state (get_opponent piece) (wrap32 (-alpha))
        (wrap32 (-beta)) (wrap32 (depth + 1))
      return Possibility.of_value (wrap32 (-1 * child.value))
    else
      let possible_positions ← get_legal_positions board_state piece
      let possibilities ← possible_positions.mapM (fun pos => do
        let played ← play board_state piece pos
        return (⟨pos, played.1, 0⟩ : Possibility))
      let possibilities ←
        (if depth ≤ Int.tdiv self.max_depth 2 then do
          let valued ← possibilities.mapM (fun poss => do
            let value ← count_legal_positions poss.board piece
            return ({ poss with value := value } : Possibility))
          pure (sort_by_value valued)
        else
          pure possibilities)
      explore (search self budget) piece beta depth possibilities alpha
        (Possibility.of_value INT_MIN)

/-- The C++ function `to_string(Position)`: the column letter followed by the
row digit, each computed in `char` arithmetic. -/
def to_string (pos : Position) : String :=
  String.mk [Char.ofNat ((65 + pos.col) % 256), Char.ofNat ((49 + pos.row) % 256)]

/-- The C++ function `Computer_player::move` without the console prompt: `board`
is the board the player points to. -/
def Computer_player.move (self : Computer_player) (board : Board_vec) (budget : Nat) :
    Except Fault String := do
  if !(← can_move board self.piece) then
    return ""
  else
    let searching :=
      if count_pieces board Piece.EMPTY ≤ self.end_game_depth then
        { self with search_to_end := true }
      else self
    let poss ← search searching budget board self.piece INT_MAX INT_MIN 1
    return to_string poss.pos

/-! ## Reference recursion for the refinement property -/

/-- The un-pruned negamax recursion with the cutoff, pass and evaluate rules of
`search`: the maximum over all legal moves of the negated value of the child. -/
def negamax (self : Computer_player) : Nat → Board_vec → Piece → Int → Except Fault Int
  | 0, _, _, _ => Except.error Fault.budget
  | budget + 1, board_state, piece, depth => do
    let stop ← (if self.search_to_end then game_over board_state
      else pure (decide (depth = self.max_depth)))
    if stop then
      evaluate board_state piece
    else if !(← can_move board_state piece) then
      let child ← negamax self budget board_state (get_opponent piece) (wrap32 (depth + 1))
      return -child
    else
      let possible_positions ← get_legal_positions board_state piece
      let values ← possible_positions.mapM (fun pos => do
        let played ← play board_state piece pos
        let child ← negamax self budget played.1 (get_opponent piece) (wrap32 (depth + 1))
        return -child)
      match values with
      | [] => Except.error Fault.assertion
      | v :: vs => return vs.foldl max v

/-! ## Auxiliary notions used to state and prove the properties -/

/-- The eight compass offsets, in the order in which the nested loops of
`count_move` and `play` visit them. -/
def directions : List (Int × Int) :=
  [(-1, -1), (-1, 0), (-1, 1), (0, -1), (0, 1), (1, -1), (1, 0), (1, 1)]

/-- A position of the 8x8 grid. -/
def Position.in_range (pos : Position) : Prop := pos.row ≤ 7 ∧ pos.col ≤ 7

instance (pos : Position) : Decidable pos.in_range := by
  unfold Position.in_range; exact inferInstance

/-- The content of a cell, read as `EMPTY` where the board has no such cell. -/
def peek (board : Board_vec) (row col : Nat) : Piece :=
  match cell board row col with
  | Except.ok p => p
  | Except.error _ => Piece.EMPTY

/-- The cell at signed coordinates, `none` off the 8x8 grid. -/
def grid_cell (board : Board_vec) (row col : Int) : Option Piece :=
  if 0 ≤ row ∧ row ≤ 7 ∧ 0 ≤ col ∧ col ≤ 7 then
    match cell board row.toNat col.toNat with
    | Except.ok p => some p
    | Except.error _ => Option.none
  else Option.none

/-- The cell `i` steps away from `pos` along `d`. -/
def ray_cell (board : Board_vec) (pos : Position) (d : Int × Int) (i : Nat) : Option Piece :=
  grid_cell board ((pos.row : Int) + (i : Int) * d.1) ((pos.col : Int) + (i : Int) * d.2)

/-- Along `d`, the `k` cells next to `pos` are on the grid and owned by the
opponent of `mover`, and the cell after them is on the grid and owned by `mover`. -/
def sandwich (board : Board_vec) (mover : Piece) (pos : Position) (d : Int × Int) (k : Nat) :
    Prop :=
  (∀ i : Nat, 1 ≤ i → i ≤ k → ray_cell board pos d i = some (get_opponent mover)) ∧
    ray_cell board pos d (k + 1) = some mover

/-- The cell `(row, col)` lies `i` steps from `pos` along `d` for some `1 ≤ i ≤ k`. -/
def on_segment (pos : Position) (d : Int × Int) (k : Int) (row col : Nat) : Prop :=
  ∃ i : Nat, 1 ≤ i ∧ (i : Int) ≤ k ∧ (row : Int) = (pos.row : Int) + (i : Int) * d.1 ∧
    (col : Int) = (pos.col : Int) + (i : Int) * d.2

/-- How far `pos` already lies along `d`; a step inside the grid adds one. -/
def progress (pos : Position) (d : Int × Int) : Int :=
  if d.1 = 1 then pos.row else if d.1 = -1 then 7 - pos.row
  else if d.2 = 1 then pos.col else 7 - pos.col

/-- The cell `(r, c)` is one of those sandwiched along some direction of `ds`. -/
def flipped_by (board : Board_vec) (mover : Piece) (pos : Position) (ds : List (Int × Int))
    (r c : Nat) : Prop :=
  ∃ d ∈ ds, ∃ v, count_move_line LINE_BUDGET board mover pos d = Except.ok v ∧ on_segment pos d v r c

/-- Whether `count_move` returns a positive count. -/
def legal (board : Board_vec) (mover : Piece) (pos : Position) : Bool :=
  match count_move board mover pos with
  | Except.ok n => decide (0 < n)
  | Except.error _ => false

/-- The legal positions of `mover` in row-major order. -/
def legal_list (board : Board_vec) (mover : Piece) : List Position :=
  all_positions.filter (legal board mover)

/-- A budget that lets `search` return: in to-completion mode two calls per
Empty cell (a move and possibly a pass), otherwise one call per remaining ply. -/
def enough (self : Computer_player) (budget : Nat) (board : Board_vec) (piece : Piece)
    (depth : Int) : Prop :=
  if self.search_to_end then
    2 * count_pieces board Piece.EMPTY + (if legal_list board piece = [] then 2 else 1)
      ≤ (budget : Int)
  else
    -INT_MAX ≤ depth ∧ depth ≤ self.max_depth ∧ self.max_depth ≤ INT_MAX ∧
      self.max_depth - depth + 1 ≤ (budget : Int)

/-- A candidate built by `search` at `board` for `piece`. -/
def good (board : Board_vec) (piece : Piece) (poss : Possibility) : Prop :=
  poss.board.wf ∧ count_pieces poss.board Piece.EMPTY = count_pieces board Piece.EMPTY - 1 ∧
    poss.pos ∈ legal_list board piece

/-- A board on which P1 has the single legal position `(2, 1)` and P2 then has
four replies. -/
def narrow_board : Board_vec :=
  [[Piece.EMPTY, Piece.P1, Piece.EMPTY, Piece.EMPTY,
    Piece.EMPTY, Piece.EMPTY, Piece.EMPTY, Piece.EMPTY],
   [Piece.P2, Piece.P2, Piece.EMPTY, Piece.EMPTY,
    Piece.EMPTY, Piece.EMPTY, Piece.EMPTY, Piece.EMPTY],
   [Piece.P2, Piece.EMPTY, Piece.EMPTY, Piece.EMPTY,
    Piece.EMPTY, Piece.EMPTY, Piece.EMPTY, Piece.EMPTY],
   [Piece.EMPTY, Piece.EMPTY, Piece.EMPTY, Piece.EMPTY,
    Piece.EMPTY, Piece.EMPTY, Piece.EMPTY, Piece.EMPTY],
   [Piece.EMPTY, Piece.EMPTY, Piece.EMPTY, Piece.EMPTY,
    Piece.EMPTY, Piece.EMPTY, Piece.EMPTY, Piece.EMPTY],
   [Piece.EMPTY, Piece.EMPTY, Piece.EMPTY, Piece.EMPTY,
    Piece.EMPTY, Piece.EMPTY, Piece.EMPTY, Piece.EMPTY],
   [Piece.EMPTY, Piece.EMPTY, Piece.EMPTY, Piece.EMPTY,
    Piece.EMPTY, Piece.EMPTY, Piece.EMPTY, Piece.EMPTY],
   [Piece.EMPTY, Piece.EMPTY, Piece.EMPTY, Piece.EMPTY,
    Piece.EMPTY, Piece.EMPTY, Piece.EMPTY, Piece.EMPTY]]

/-- The board reached from `reset_board` by the moves `(2, 3)` of P1, `(4, 2)` of
P2 and `(5, 2)` of P1; P2 is to move. -/
def after_three_moves : Board_vec :=
  [[Piece.EMPTY, Piece.EMPTY, Piece.EMPTY, Piece.EMPTY,
    Piece.EMPTY, Piece.EMPTY, Piece.EMPTY, Piece.EMPTY],
   [Piece.EMPTY, Piece.EMPTY, Piece.EMPTY, Piece.EMPTY,
    Piece.EMPTY, Piece.EMPTY, Piece.EMPTY, Piece.EMPTY],
   [Piece.EMPTY, Piece.EMPTY, Piece.EMPTY, Piece.P1,
    Piece.EMPTY, Piece.EMPTY, Piece.EMPTY, Piece.EMPTY],
   [Piece.EMPTY, Piece.EMPTY, Piece.EMPTY, Piece.P1,
    Piece.P1, Piece.EMPTY, Piece.EMPTY, Piece.EMPTY],
   [Piece.EMPTY, Piece.EMPTY, Piece.P2, Piece.P1,
    Piece.P2, Piece.EMPTY, Piece.EMPTY, Piece.EMPTY],
   [Piece.EMPTY, Piece.EMPTY, Piece.P1, Piece.EMPTY,
    Piece.EMPTY, Piece.EMPTY, Piece.EMPTY, Piece.EMPTY],
   [Piece.EMPTY, Piece.EMPTY, Piece.EMPTY, Piece.EMPTY,
    Piece.EMPTY, Piece.EMPTY, Piece.EMPTY, Piece.EMPTY],
   [Piece.EMPTY, Piece.EMPTY, Piece.EMPTY, Piece.EMPTY,
    Piece.EMPTY, Piece.EMPTY, Piece.EMPTY, Piece.EMPTY]]

/-- The board whose 64 cells are owned by P1. -/
def full_board : Board_vec := List.replicate 8 (List.replicate 8 Piece.P1)

/-- A full board with P1 on the seven upper rows and P2 on the last row. -/
def won_board : Board_vec :=
  List.replicate 7 (List.replicate 8 Piece.P1) ++ [List.replicate 8 Piece.P2]

/-- A full board with P1 on the four upper rows and P2 on the four lower rows. -/
def tied_board : Board_vec :=
  List.replicate 4 (List.replicate 8 Piece.P1) ++ List.replicate 4 (List.replicate 8 Piece.P2)

/-- The corner cell of the quadrant of the cell `(row, col)`. -/
def quadrant_corner (row col : Nat) : Position :=
  ⟨if row < 4 then 0 else 7, if col < 4 then 0 else 7⟩

/-- The weight `w(row, col)` in the words of the specification:
`WEIGHTS[min(row, 7-row)][min(col, 7-col)]` if the corner cell of the quadrant
is Empty and `max(1, that weight)` if that corner is owned. -/
def cell_weight (board : Board_vec) (row col : Nat) : Int :=
  if peek board (quadrant_corner row col).row (quadrant_corner row col).col = Piece.EMPTY then
    (WEIGHTS.getD (min row (7 - row)) []).getD (min col (7 - col)) 0
  else
    max 1 ((WEIGHTS.getD (min row (7 - row)) []).getD (min col (7 - col)) 0)

/-- The sum of `w(row, col)` over the cells owned by `owner`. -/
def weighted_sum (board : Board_vec) (owner : Piece) : Int :=
  ((all_positions.filter (fun p => decide (peek board p.row p.col = owner))).map
    (fun p => cell_weight board p.row p.col)).sum

/-- The C++ function `Board::reset`, on the member `_board`. -/
def reset (board : Board_vec) : Except Fault Board_vec := do
  let board := board.map (fun row => row.map (fun _ => Piece.EMPTY))
  let board ← set_cell board 3 4 Piece.P1
  let board ← set_cell board 4 3 Piece.P1
  let board ← set_cell board 3 3 Piece.P2
  set_cell board 4 4 Piece.P2

/-- The C++ function `Board::flip_line` as a transition on the board it is
given by reference: the board at the return or at the fault, and the outcome. -/
def flip_line_in_place :
    Nat → Board_vec → Piece → Position → Int × Int → Board_vec × Except Fault Int
  | 0, board, _, _, _ => (board, Except.error Fault.budget)
  | budget + 1, board, piece, pos, offset =>
    let next := Position.shift pos offset
    if next.row > 7 ∨ next.col > 7 then
      (board, Except.ok (-1))
    else
      match cell board next.row next.col with
      | Except.error e => (board, Except.error e)
      | Except.ok here =>
        if here = Piece.EMPTY then
          (board, Except.ok (-1))
        else if here = piece then
          (board, Except.ok 0)
        else
          match flip_line_in_place budget board piece next offset with
          | (board, Except.error e) => (board, Except.error e)
          | (board, Except.ok next_flips) =>
            if next_flips = -1 then
              (board, Except.ok (-1))
            else
              match set_cell board next.row next.col piece with
              | Except.error e => (board, Except.error e)
              | Except.ok board => (board, Except.ok (next_flips + 1))

/-- The two nested offset loops of `Board::play` as a transition on the board,
over the offsets still to be visited. -/
def play_loop_in_place (piece : Piece) (pos : Position) :
    List (Int × Int) → Board_vec → Int → Board_vec × Except Fault Int
  | [], board, total => (board, Except.ok total)
  | offset :: rest, board, total =>
    match flip_line_in_place LINE_BUDGET board piece pos offset with
    | (board, Except.error e) => (board, Except.error e)
    | (board, Except.ok line_flips) =>
      play_loop_in_place piece pos rest board
        (if line_flips > 0 then total + line_flips else total)

/-- The C++ function `Board::play` (static overload) as a transition on the
board it is given by reference: the board at the return or at the fault, and
the returned count or the fault. -/
def play_in_place (board : Board_vec) (piece : Piece) (pos : Position) :
    Board_vec × Except Fault Int :=
  if piece = Piece.EMPTY then
    (board, Except.error Fault.assertion)
  else
    match cell board pos.row pos.col with
    | Except.error e => (board, Except.error e)
    | Except.ok target =>
      if target ≠ Piece.EMPTY then
        (board, Except.ok 0)
      else
        match set_cell board pos.row pos.col piece with
        | Except.error e => (board, Except.error e)
        | Except.ok board =>
          play_loop_in_place piece pos
            (offsets.flatMap (fun row_off => (offsets.filter
              (fun col_off => decide (¬ (row_off = 0 ∧ col_off = 0)))).map
                (fun col_off => (row_off, col_off)))) board 0

/-- The outcome of an in-place transition once the board at a fault is dropped. -/
def settle (r : Board_vec × Except Fault Int) : Except Fault (Board_vec × Int) :=
  match r.2 with
  | Except.ok v => Except.ok (r.1, v)
  | Except.error e => Except.error e

/-- A full board with P1 on the first row and P2 on the seven other rows. -/
def lost_board : Board_vec :=
  List.replicate 1 (List.replicate 8 Piece.P1) ++ List.replicate 7 (List.replicate 8 Piece.P2)

/-- A board with P1 on the four upper rows and the four lower rows Empty. -/
def half_board : Board_vec :=
  List.replicate 4 (List.replicate 8 Piece.P1) ++ List.replicate 4 (List.replicate 8 Piece.EMPTY)

/-- The largest absolute value that the weight of a cell can take, whatever
the state of the corner of its quadrant. -/
def weight_bound (pos : Position) : Int :=
  max 1 |(WEIGHTS.getD (min pos.row (7 - pos.row)) []).getD (min pos.col (7 - pos.col)) 0|

/-- The C library function `toupper` in the "C" locale, on a character code. -/
def toupper (c : Nat) : Nat := if 97 ≤ c ∧ c ≤ 122 then c - 32 else c

/-- The C library function `isdigit`, on a character code. -/
def isdigit (c : Nat) : Bool := decide (48 ≤ c ∧ c ≤ 57)

/-- The C library function `isalpha` in the "C" locale, on a character code. -/
def isalpha (c : Nat) : Bool := decide ((65 ≤ c ∧ c ≤ 90) ∨ (97 ≤ c ∧ c ≤ 122))

/-- The range check `row >= 0 && row <= 7 && col >= 0 && col <= 7` of `Game::play`
and `Game::play_silent`, followed by `Position pos(row, col)`. -/
def checked_position (row col : Int) : Option Position :=
  if row ≥ 0 ∧ row ≤ 7 ∧ col ≥ 0 ∧ col ≤ 7 then some ⟨row.toNat % 256, col.toNat % 256⟩
  else Option.none

/-- The command handling of `Game::play` for a player who can move: the position
handed to `is_legal`, or `none` when the command goes to the host or is
reported out of range. -/
def Game_play_position (command : String) : Option Position :=
  match command.data.map (fun c => toupper c.toNat) with
  | [c0, c1] =>
    if isdigit c0 && isalpha c1 then
      checked_position ((c0 : Int) - 49) ((c1 : Int) - 65)
    else if isalpha c0 && isdigit c1 then
      checked_position ((c1 : Int) - 49) ((c0 : Int) - 65)
    else Option.none
  | _ => Option.none

/-- The command handling of `Game::play_silent`: the position handed to
`is_legal`, or `none` when the command is reported as an error. -/
def Game_play_silent_position (command : String) : Option Position :=
  match command.data.map (fun c => toupper c.toNat) with
  | [c0, c1] =>
    if isalpha c0 && isdigit c1 then
      checked_position ((c1 : Int) - 49) ((c0 : Int) - 65)
    else Option.none
  | _ => Option.none

/-- The part of `Computer_player::search` between the pass and the exploration
loop: the candidates, in the order in which the loop explores them. -/
def ordered_candidates (self : Computer_player) (board_state : Board_vec) (piece : Piece)
    (depth : Int) : Except Fault (List Possibility) := do
  let possible_positions ← get_legal_positions board_state piece
  let possibilities ← possible_positions.mapM (fun pos => do
    let played ← play board_state piece pos
    return (⟨pos, played.1, 0⟩ : Possibility))
  (if depth ≤ Int.tdiv self.max_depth 2 then do
    let valued ← possibilities.mapM (fun poss => do
      let value ← count_legal_positions poss.board piece
      return ({ poss with value := value } : Possibility))
    pure (sort_by_value valued)
  else
    pure possibilities)

/-- The value `v` is, up to sign, what `evaluate` returns on some game-over
8x8 board for one of the two owners. -/
def terminal_score (v : Int) : Prop :=
  ∃ (b : Board_vec) (q : Piece), b.wf ∧ (q = Piece.P1 ∨ q = Piece.P2) ∧
    game_over b = Except.ok true ∧ (evaluate b q = Except.ok v ∨ evaluate b q = Except.ok (-v))

/-- Outcomes of a call in which signed arithmetic is watched: a fault of the
plain embedding, or a 32-bit signed overflow (undefined behaviour in C++). -/
inductive Trap where
  | fault (f : Fault)
  | overflow
deriving DecidableEq, Repr

/-- A 32-bit `int` operation whose mathematical result is `x`: the result when
it is representable, the overflow outcome otherwise. -/
def checked32 (x : Int) : Except Trap Int :=
  if INT_MIN ≤ x ∧ x ≤ INT_MAX then Except.ok x else Except.error Trap.overflow

/-- A call of the plain embedding inside a watched computation. -/
def watch {α : Type} (r : Except Fault α) : Except Trap α :=
  match r with
  | Except.ok a => Except.ok a
  | Except.error f => Except.error (Trap.fault f)

/-- The loop `for(Possibility poss: possibilities)` of `search` with every
negation and the increment of `depth` watched for overflow. -/
def explore_checked (recurse : Board_vec → Piece → Int → Int → Int → Except Trap Possibility)
    (piece : Piece) (beta depth : Int) :
    List Possibility → Int → Possibility → Except Trap Possibility
  | [], _, max_poss => pure max_poss
  | poss :: rest, alpha, max_poss => do
    let neg_alpha ← checked32 (-alpha)
    let neg_beta ← checked32 (-beta)
    let next_depth ← checked32 (depth + 1)
    let child ← recurse poss.board (get_opponent piece) neg_alpha neg_beta next_depth
    let value ← checked32 (-1 * child.value)
    if value > max_poss.value then
      let alpha := max alpha value
      if alpha ≥ beta then
        return { poss with value := value }
      else
        explore_checked recurse piece beta depth rest alpha { poss with value := value }
    else
      explore_checked recurse piece beta depth rest alpha max_poss

/-- The C++ function `Computer_player::search` with every negation and the
increment of `depth` watched for overflow. -/
def search_checked (self : Computer_player) :
    Nat → Board_vec → Piece → Int → Int → Int → Except Trap Possibility
  | 0, _, _, _, _, _ => Except.error (Trap.fault Fault.budget)
  | budget + 1, board_state, piece, beta, alpha, depth => do
    let stop ← watch (if self.search_to_end then game_over board_state
      else pure (decide (depth = self.max_depth)))
    if stop then
      return Possibility.of_value (← watch (evaluate board_state piece))
    else if !(← watch (can_move board_state piece)) then
      let neg_alpha ← checked32 (-alpha)
      let neg_beta ← checked32 (-beta)
      let next_depth ← checked32 (depth + 1)
      let child ← search_checked self budget board_state (get_opponent piece) neg_alpha
        neg_beta next_depth
      let value ← checked32 (-1 * child.value)
      return Possibility.of_value value
    else
      let possibilities ← watch (ordered_candidates self board_state piece depth)
      explore_checked (search_checked self budget) piece beta depth possibilities alpha
        (Possibility.of_value INT_MIN)

/-! ## Basic facts -/

@[simp] theorem bind_ok {α β : Type} (a : α) (f : α → Except Fault β) :
    (Except.ok a >>= f) = f a := rfl

@[simp] theorem bind_error {α β : Type} (e : Fault) (f : α → Except Fault β) :
    (Except.error e >>= f) = Except.error e := rfl

@[simp] theorem pure_eq_ok {α : Type} (a : α) : (pure a : Except Fault α) = Except.ok a := rfl

@[simp] theorem throw_eq_error {α : Type} (e : Fault) :
    (throw e : Except Fault α) = Except.error e := rfl

theorem for_each_offset_eq {σ : Type} (step : σ → Int × Int → Except Fault σ) (init : σ) :
    for_each_offset step init = directions.foldlM step init := by
  simp [for_each_offset, offsets, directions, List.foldlM, bind_assoc]

theorem cell_of_wf {board : Board_vec} (hwf : board.wf) {row col : Nat} (hr : row ≤ 7)
    (hc : col ≤ 7) : cell board row col = Except.ok (peek board row col) := by
  obtain ⟨hlen, hrows⟩ := hwf
  have h1 : row < board.length := by omega
  have h2 : (board[row]).length = 8 := hrows _ (List.getElem_mem _)
  have h3 : col < (board[row]).length := by omega
  simp [peek, cell, List.get?_eq_getElem?, List.getElem?_eq_getElem h1,
    List.getElem?_eq_getElem h3]

theorem set_cell_of_wf {board : Board_vec} (hwf : board.wf) {row col : Nat} (hr : row ≤ 7)
    (hc : col ≤ 7) (p : Piece) :
    ∃ b', set_cell board row col p = Except.ok b' ∧ b'.wf ∧
      ∀ r c, peek b' r c = if r = row ∧ c = col then p else peek board r c := by
  obtain ⟨hlen, hrows⟩ := hwf
  have h1 : row < board.length := by omega
  have h2 : (board[row]).length = 8 := hrows _ (List.getElem_mem _)
  have h3 : col < (board[row]).length := by omega
  refine ⟨board.set row ((board[row]).set col p), ?_, ?_, ?_⟩
  · simp [set_cell, List.get?_eq_getElem?, List.getElem?_eq_getElem h1, h3]
  · refine ⟨by simp [hlen], ?_⟩
    intro cells hmem
    rcases List.mem_or_eq_of_mem_set hmem with h | h
    · exact hrows _ h
    · simp [h, h2]
  · intro r c
    simp only [peek, cell, List.get?_eq_getElem?, List.getElem?_set]
    by_cases hrr : row = r
    · subst hrr
      simp only [h1, if_true, true_and]
      by_cases hcc : col = c
      · subst hcc
        simp [h3]
      · have : ¬ c = col := fun h => hcc h.symm
        simp [hcc, this, List.getElem?_eq_getElem h1]
    · have : ¬ r = row := fun h => hrr h.symm
      simp [hrr, this]

/-! ## Counting pieces -/

theorem foldl_count_row (q : Piece) (cells : List Piece) (acc : Int) :
    cells.foldl (fun count element => if element = q then count + 1 else count) acc
      = acc + (cells.count q : Int) := by
  induction cells generalizing acc with
  | nil => simp
  | cons a t ih =>
    simp only [List.foldl_cons, ih, List.count_cons]
    by_cases h : a = q
    · simp [h]; ring
    · simp [h]

theorem foldl_count_board (q : Piece) (board : Board_vec) (acc : Int) :
    board.foldl (fun count cells =>
      cells.foldl (fun count element => if element = q then count + 1 else count) count) acc
      = acc + (board.flatten.count q : Int) := by
  induction board generalizing acc with
  | nil => simp
  | cons a t ih =>
    rw [List.foldl_cons, foldl_count_row, ih, List.flatten_cons, List.count_append]
    push_cast; ring

theorem count_pieces_eq (board : Board_vec) (q : Piece) :
    count_pieces board q = (board.flatten.count q : Int) := by
  simp [count_pieces, foldl_count_board]

theorem count_flatten_set (q : Piece) (board : Board_vec) (row : Nat) (h : row < board.length)
    (cells : List Piece) :
    (board.set row cells).flatten.count q + (board[row]).count q
      = board.flatten.count q + cells.count q := by
  induction board generalizing row with
  | nil => simp at h
  | cons a t ih =>
    cases row with
    | zero => simp [List.count_append]; omega
    | succ n =>
      simp only [List.length_cons, Nat.add_lt_add_iff_right] at h
      have := ih n h
      simp only [List.set_cons_succ, List.flatten_cons, List.count_append, List.getElem_cons_succ]
      omega

/-! ## Line walks -/

theorem mem_directions {d : Int × Int} (hd : d ∈ directions) :
    d = (-1, -1) ∨ d = (-1, 0) ∨ d = (-1, 1) ∨ d = (0, -1) ∨ d = (0, 1) ∨ d = (1, -1) ∨
      d = (1, 0) ∨ d = (1, 1) := by
  simpa [directions] using hd

theorem shift_spec {pos : Position} (hin : pos.in_range) {d : Int × Int} (hd : d ∈ directions) :
    ((pos.shift d).in_range ∧ ((pos.shift d).row : Int) = pos.row + d.1 ∧
        ((pos.shift d).col : Int) = pos.col + d.2 ∧ progress (pos.shift d) d = progress pos d + 1) ∨
      (¬ (pos.shift d).in_range ∧
        ¬ (0 ≤ (pos.row : Int) + d.1 ∧ (pos.row : Int) + d.1 ≤ 7 ∧ 0 ≤ (pos.col : Int) + d.2 ∧
          (pos.col : Int) + d.2 ≤ 7)) := by
  obtain ⟨h1, h2⟩ := hin
  rcases mem_directions hd with h | h | h | h | h | h | h | h <;> subst h <;>
    simp [Position.shift, Position.in_range, progress] <;> omega

theorem progress_le {pos : Position} (hin : pos.in_range) {d : Int × Int} (hd : d ∈ directions) :
    0 ≤ progress pos d ∧ progress pos d ≤ 7 := by
  obtain ⟨h1, h2⟩ := hin
  rcases mem_directions hd with h | h | h | h | h | h | h | h <;> subst h <;>
    simp [progress] <;> omega

theorem grid_cell_of_wf {board : Board_vec} (hwf : board.wf) {row col : Nat} (hr : row ≤ 7)
    (hc : col ≤ 7) : grid_cell board row col = some (peek board row col) := by
  have h : (0:Int) ≤ row ∧ (row:Int) ≤ 7 ∧ (0:Int) ≤ col ∧ (col:Int) ≤ 7 := by omega
  simp [grid_cell, h, cell_of_wf hwf hr hc]

theorem ray_cell_succ (board : Board_vec) {pos next : Position} {d : Int × Int}
    (hrow : (next.row : Int) = pos.row + d.1) (hcol : (next.col : Int) = pos.col + d.2) (i : Nat) :
    ray_cell board next d i = ray_cell board pos d (i + 1) := by
  unfold ray_cell
  have e1 : (next.row : Int) + (i : Int) * d.1 = (pos.row : Int) + ((i + 1 : Nat) : Int) * d.1 := by
    rw [hrow]; push_cast; ring
  have e2 : (next.col : Int) + (i : Int) * d.2 = (pos.col : Int) + ((i + 1 : Nat) : Int) * d.2 := by
    rw [hcol]; push_cast; ring
  rw [e1, e2]

theorem ray_cell_one_in {board : Board_vec} (hwf : board.wf) {pos next : Position} {d : Int × Int}
    (hin : next.in_range)
    (hrow : (next.row : Int) = pos.row + d.1) (hcol : (next.col : Int) = pos.col + d.2) :
    ray_cell board pos d 1 = some (peek board next.row next.col) := by
  unfold ray_cell
  have e1 : (pos.row : Int) + ((1 : Nat) : Int) * d.1 = (next.row : Int) := by rw [hrow]; simp
  have e2 : (pos.col : Int) + ((1 : Nat) : Int) * d.2 = (next.col : Int) := by rw [hcol]; simp
  rw [e1, e2]
  exact grid_cell_of_wf hwf hin.1 hin.2

theorem ray_cell_one_out (board : Board_vec) {pos : Position} {d : Int × Int}
    (hout : ¬ (0 ≤ (pos.row : Int) + d.1 ∧ (pos.row : Int) + d.1 ≤ 7 ∧ 0 ≤ (pos.col : Int) + d.2 ∧
          (pos.col : Int) + d.2 ≤ 7)) :
    ray_cell board pos d 1 = Option.none := by
  unfold ray_cell grid_cell
  simp only [Nat.cast_one, one_mul]
  rw [if_neg hout]

theorem opponent_ne {mover : Piece} (hm : mover ≠ Piece.EMPTY) :
    get_opponent mover ≠ mover ∧ get_opponent mover ≠ Piece.EMPTY := by
  cases mover <;> simp [get_opponent] at *

theorem eq_opponent {mover p : Piece} (hm : mover ≠ Piece.EMPTY) (h1 : p ≠ Piece.EMPTY)
    (h2 : p ≠ mover) : p = get_opponent mover := by
  cases mover <;> cases p <;> simp [get_opponent] at *

/-- No cell of the ray: the first step already fails. -/
theorem not_sandwich_of_first {board : Board_vec} {mover : Piece}
    {pos : Position} {d : Int × Int}
    (h : ray_cell board pos d 1 ≠ some mover ∧ ray_cell board pos d 1 ≠ some (get_opponent mover))
    (k : Nat) : ¬ sandwich board mover pos d k := by
  rintro ⟨hopp, hend⟩
  cases k with
  | zero => exact h.1 hend
  | succ j => exact h.2 (hopp 1 (le_refl _) (by omega))

theorem count_move_line_spec {board : Board_vec} (hwf : board.wf) {mover : Piece}
    (hm : mover ≠ Piece.EMPTY) {d : Int × Int} (hd : d ∈ directions) :
    ∀ (n : Nat) (pos : Position), pos.in_range → 8 ≤ (n : Int) + progress pos d →
      ∃ v, count_move_line n board mover pos d = Except.ok v ∧
        ((v = -1 ∧ ∀ k, ¬ sandwich board mover pos d k) ∨
          (0 ≤ v ∧ sandwich board mover pos d v.toNat)) := by
  intro n
  induction n with
  | zero =>
    intro pos hin hp
    have := progress_le hin hd
    omega
  | succ n ih =>
    intro pos hin hp
    have hon := opponent_ne hm
    rcases shift_spec hin hd with ⟨hnin, hrow, hcol, hprog⟩ | ⟨hnout, hoff⟩
    · -- the next cell is on the grid
      have hcell := cell_of_wf hwf hnin.1 hnin.2
      have hone := ray_cell_one_in hwf hnin hrow hcol
      have hnot : ¬ ((pos.shift d).row > 7 ∨ (pos.shift d).col > 7) := by
        have := hnin.1; have := hnin.2; omega
      simp only [count_move_line, hnot, if_false, hcell, bind_ok, pure_eq_ok]
      by_cases he : peek board (pos.shift d).row (pos.shift d).col = Piece.EMPTY
      · refine ⟨-1, by simp [he], Or.inl ⟨rfl, not_sandwich_of_first ?_⟩⟩
        rw [hone, he]
        exact ⟨fun h => hm (Option.some.inj h).symm, fun h => hon.2 (Option.some.inj h).symm⟩
      · by_cases hp2 : peek board (pos.shift d).row (pos.shift d).col = mover
        · refine ⟨0, by simp [he, hp2, hm], Or.inr ⟨le_refl _, ?_⟩⟩
          refine ⟨fun i h1 h2 => by simp at h2; omega, ?_⟩
          simpa [hp2] using hone
        · have hopp := eq_opponent hm he hp2
          have hn : 8 ≤ (n : Int) + progress (pos.shift d) d := by
            rw [hprog]; push_cast at hp; omega
          obtain ⟨v, hv, hspec⟩ := ih (pos.shift d) hnin hn
          simp only [he, hp2, if_false, hv, bind_ok]
          rcases hspec with ⟨hv1, hno⟩ | ⟨hv0, hsw⟩
          · refine ⟨-1, by simp [hv1], Or.inl ⟨rfl, ?_⟩⟩
            rintro k ⟨hk1, hk2⟩
            cases k with
            | zero =>
              rw [hone] at hk2
              exact hp2 (Option.some.inj hk2)
            | succ j =>
              refine hno j ⟨fun i h1 h2 => ?_, ?_⟩
              · rw [ray_cell_succ board hrow hcol]
                exact hk1 (i + 1) (by omega) (by omega)
              · rw [ray_cell_succ board hrow hcol]
                exact hk2
          · have hne : v ≠ -1 := by omega
            refine ⟨v + 1, by simp [hne], Or.inr ⟨by omega, ?_⟩⟩
            have htn : (v + 1).toNat = v.toNat + 1 := by omega
            rw [htn]
            refine ⟨fun i h1 h2 => ?_, ?_⟩
            · cases i with
              | zero => omega
              | succ j =>
                cases j with
                | zero => rw [hone, hopp]
                | succ l =>
                  rw [← ray_cell_succ board hrow hcol]
                  exact hsw.1 (l + 1) (by omega) (by omega)
            · rw [← ray_cell_succ board hrow hcol]
              exact hsw.2
    · -- the next cell is off the grid
      have hnot : (pos.shift d).row > 7 ∨ (pos.shift d).col > 7 := by
        unfold Position.in_range at hnout; omega
      refine ⟨-1, by simp [count_move_line, hnot], Or.inl ⟨rfl, not_sandwich_of_first ?_⟩⟩
      rw [ray_cell_one_out board hoff]
      simp

theorem count_set_row (q p : Piece) (cells : List Piece) (col : Nat) (h : col < cells.length) :
    (cells.set col p).count q + (if cells[col] = q then 1 else 0)
      = cells.count q + (if p = q then 1 else 0) := by
  induction cells generalizing col with
  | nil => simp at h
  | cons a t ih =>
    cases col with
    | zero =>
      simp only [List.set_cons_zero, List.count_cons, List.getElem_cons_zero, beq_iff_eq]
      omega
    | succ n =>
      simp only [List.length_cons, Nat.add_lt_add_iff_right] at h
      have := ih n h
      simp only [List.set_cons_succ, List.count_cons, List.getElem_cons_succ]
      omega

theorem set_cell_count {board b' : Board_vec} (hwf : board.wf) {row col : Nat} (hr : row ≤ 7)
    (hc : col ≤ 7) {p : Piece} (hset : set_cell board row col p = Except.ok b') (q : Piece) :
    count_pieces b' q = count_pieces board q - (if peek board row col = q then 1 else 0)
      + (if p = q then 1 else 0) := by
  obtain ⟨hlen, hrows⟩ := hwf
  have h1 : row < board.length := by omega
  have h2 : (board[row]).length = 8 := hrows _ (List.getElem_mem _)
  have h3 : col < (board[row]).length := by omega
  have hb : b' = board.set row ((board[row]).set col p) := by
    simp [set_cell, List.get?_eq_getElem?, List.getElem?_eq_getElem h1, h3] at hset
    exact hset.symm
  have hpk : peek board row col = (board[row])[col] := by
    simp [peek, cell, List.get?_eq_getElem?, List.getElem?_eq_getElem h1,
    List.getElem?_eq_getElem h3]
  have e1 := count_flatten_set q board row h1 ((board[row]).set col p)
  have e2 := count_set_row q p (board[row]) col h3
  rw [count_pieces_eq, count_pieces_eq, hb, hpk]
  split_ifs at e2 ⊢ <;> omega


theorem not_on_segment_of_lt {pos : Position} {d : Int × Int} {v : Int} (hv : v < 1) (r c : Nat) :
    ¬ on_segment pos d v r c := by
  rintro ⟨i, h1, h2, -, -⟩
  omega

theorem not_on_segment_self {pos : Position} {d : Int × Int} (hd : d ∈ directions) (v : Int) :
    ¬ on_segment pos d v pos.row pos.col := by
  rintro ⟨i, h1, h2, h3, h4⟩
  rcases mem_directions hd with h | h | h | h | h | h | h | h <;> subst h <;>
    simp at h3 h4 <;> omega

theorem on_segment_succ {pos next : Position} {d : Int × Int}
    (hrow : (next.row : Int) = pos.row + d.1) (hcol : (next.col : Int) = pos.col + d.2)
    {v : Int} (hv : 0 ≤ v) (r c : Nat) :
    on_segment pos d (v + 1) r c ↔ ((r = next.row ∧ c = next.col) ∨ on_segment next d v r c) := by
  constructor
  · rintro ⟨i, h1, h2, h3, h4⟩
    obtain ⟨j, rfl⟩ : ∃ j, i = j + 1 := ⟨i - 1, by omega⟩
    cases j with
    | zero =>
      left
      simp at h3 h4
      omega
    | succ l =>
      right
      refine ⟨l + 1, by omega, by omega, ?_, ?_⟩
      · rw [h3, hrow]; push_cast; ring
      · rw [h4, hcol]; push_cast; ring
  · rintro (⟨h1, h2⟩ | ⟨i, h1, h2, h3, h4⟩)
    · refine ⟨1, le_refl _, by omega, ?_, ?_⟩
      · rw [h1, hrow]; simp
      · rw [h2, hcol]; simp
    · refine ⟨i + 1, by omega, by omega, ?_, ?_⟩
      · rw [h3, hrow]; push_cast; ring
      · rw [h4, hcol]; push_cast; ring

theorem flip_line_spec {mover : Piece} (hm : mover ≠ Piece.EMPTY) {d : Int × Int}
    (hd : d ∈ directions) :
    ∀ (n : Nat) (pos : Position) (board : Board_vec), board.wf → pos.in_range →
      8 ≤ (n : Int) + progress pos d →
      ∃ b' v, flip_line n board mover pos d = Except.ok (b', v) ∧
        count_move_line n board mover pos d = Except.ok v ∧ b'.wf ∧ (v = -1 ∨ 0 ≤ v) ∧
        (∀ r c, on_segment pos d v r c → peek b' r c = mover) ∧
        (∀ r c, ¬ on_segment pos d v r c → peek b' r c = peek board r c) ∧
        (∀ r c, on_segment pos d v r c → peek board r c = get_opponent mover) ∧
        (∀ q, count_pieces b' q = count_pieces board q + (if q = mover then max v 0 else 0)
          - (if q = get_opponent mover then max v 0 else 0)) := by
  intro n
  induction n with
  | zero =>
    intro pos board _ hin hp
    have := progress_le hin hd
    omega
  | succ n ih =>
    intro pos board hwf hin hp
    have hon := opponent_ne hm
    rcases shift_spec hin hd with ⟨hnin, hrow, hcol, hprog⟩ | ⟨hnout, hoff⟩
    · have hcell := cell_of_wf hwf hnin.1 hnin.2
      have hnot : ¬ ((pos.shift d).row > 7 ∨ (pos.shift d).col > 7) := by
        have := hnin.1; have := hnin.2; omega
      simp only [flip_line, count_move_line, hnot, if_false, hcell, bind_ok, pure_eq_ok]
      by_cases he : peek board (pos.shift d).row (pos.shift d).col = Piece.EMPTY
      · refine ⟨board, -1, by simp [he], by simp [he], hwf, Or.inl rfl, ?_, fun _ _ _ => rfl, ?_, ?_⟩
        · intro r c h; exact absurd h (not_on_segment_of_lt (by norm_num) r c)
        · intro r c h; exact absurd h (not_on_segment_of_lt (by norm_num) r c)
        · intro q; simp
      · by_cases hp2 : peek board (pos.shift d).row (pos.shift d).col = mover
        · refine ⟨board, 0, by simp [he, hp2, hm], by simp [he, hp2, hm], hwf, Or.inr (le_refl _), ?_,
            fun _ _ _ => rfl, ?_, ?_⟩
          · intro r c h; exact absurd h (not_on_segment_of_lt (by norm_num) r c)
          · intro r c h; exact absurd h (not_on_segment_of_lt (by norm_num) r c)
          · intro q; simp
        · have hopp := eq_opponent hm he hp2
          have hn : 8 ≤ (n : Int) + progress (pos.shift d) d := by
            rw [hprog]; push_cast at hp; omega
          obtain ⟨b1, v, hf, hv, hwf1, hsign, hin1, hout1, hold1, hcnt1⟩ :=
            ih (pos.shift d) board hwf hnin hn
          simp only [he, hp2, if_false, hf, hv, bind_ok]
          rcases hsign with hv1 | hv0
          · subst hv1
            refine ⟨b1, -1, by simp, by simp, hwf1, Or.inl rfl, ?_, ?_, ?_, ?_⟩
            · intro r c h; exact absurd h (not_on_segment_of_lt (by norm_num) r c)
            · intro r c _; exact hout1 r c (not_on_segment_of_lt (by norm_num) r c)
            · intro r c h; exact absurd h (not_on_segment_of_lt (by norm_num) r c)
            · intro q; simpa using hcnt1 q
          · have hne : v ≠ -1 := by omega
            obtain ⟨b2, hset, hwf2, hpk2⟩ := set_cell_of_wf hwf1 hnin.1 hnin.2 mover
            have hself : peek b1 (pos.shift d).row (pos.shift d).col = get_opponent mover := by
              rw [hout1 _ _ (not_on_segment_self hd v), hopp]
            refine ⟨b2, v + 1, by simp [hne, hset], by simp [hne], hwf2, Or.inr (by omega),
              ?_, ?_, ?_, ?_⟩
            · intro r c h
              rw [hpk2]
              rcases (on_segment_succ hrow hcol hv0 r c).1 h with ⟨h1, h2⟩ | h'
              · simp [h1, h2]
              · split_ifs
                · rfl
                · exact hin1 r c h'
            · intro r c h
              rw [hpk2]
              have h' := mt (on_segment_succ hrow hcol hv0 r c).2 h
              push_neg at h'
              rw [if_neg (fun hh => h'.1 hh.1 hh.2)]
              exact hout1 r c h'.2
            · intro r c h
              rcases (on_segment_succ hrow hcol hv0 r c).1 h with ⟨h1, h2⟩ | h'
              · rw [h1, h2, hopp]
              · exact hold1 r c h'
            · intro q
              rw [set_cell_count hwf1 hnin.1 hnin.2 hset q, hcnt1 q, hself]
              have e1 : max v 0 = v := max_eq_left hv0
              have e2 : max (v + 1) 0 = v + 1 := max_eq_left (by omega)
              rw [e1, e2]
              by_cases hq1 : q = mover
              · subst hq1
                have : ¬ (q = get_opponent q) := fun h => hon.1 h.symm
                simp [this, hon.1]
                ring
              · by_cases hq2 : q = get_opponent mover
                · subst hq2
                  have h5 : ¬ (mover = get_opponent mover) := fun h => hq1 h.symm
                  simp [hq1, h5]
                  ring
                · have h3 : ¬ (get_opponent mover = q) := fun h => hq2 h.symm
                  have h4 : ¬ (mover = q) := fun h => hq1 h.symm
                  simp [hq1, hq2, h3, h4]
    · have hnot : (pos.shift d).row > 7 ∨ (pos.shift d).col > 7 := by
        unfold Position.in_range at hnout; omega
      refine ⟨board, -1, by simp [flip_line, hnot], by simp [count_move_line, hnot], hwf,
        Or.inl rfl, ?_, fun _ _ _ => rfl, ?_, ?_⟩
      · intro r c h; exact absurd h (not_on_segment_of_lt (by norm_num) r c)
      · intro r c h; exact absurd h (not_on_segment_of_lt (by norm_num) r c)
      · intro q; simp

theorem count_move_line_congr {mover : Piece} {d : Int × Int} (hd : d ∈ directions)
    {b1 b2 : Board_vec} (hwf1 : b1.wf) (hwf2 : b2.wf) :
    ∀ (n : Nat) (pos : Position), pos.in_range →
      (∀ v r c, on_segment pos d v r c → peek b1 r c = peek b2 r c) →
      count_move_line n b1 mover pos d = count_move_line n b2 mover pos d := by
  intro n
  induction n with
  | zero => intro pos _ _; rfl
  | succ n ih =>
    intro pos hin hag
    rcases shift_spec hin hd with ⟨hnin, hrow, hcol, -⟩ | ⟨hnout, -⟩
    · have hnot : ¬ ((pos.shift d).row > 7 ∨ (pos.shift d).col > 7) := by
        have := hnin.1; have := hnin.2; omega
      have hsame : peek b1 (pos.shift d).row (pos.shift d).col
          = peek b2 (pos.shift d).row (pos.shift d).col :=
        hag 1 _ _ ⟨1, le_refl _, by norm_num, by rw [hrow]; simp, by rw [hcol]; simp⟩
      have hrec : count_move_line n b1 mover (pos.shift d) d
          = count_move_line n b2 mover (pos.shift d) d := by
        refine ih (pos.shift d) hnin (fun v r c h => ?_)
        obtain ⟨i, h1, h2, h3, h4⟩ := h
        refine hag (v + 1) r c ⟨i + 1, by omega, by push_cast; omega, ?_, ?_⟩
        · rw [h3, hrow]; push_cast; ring
        · rw [h4, hcol]; push_cast; ring
      simp only [count_move_line, hnot, if_false, cell_of_wf hwf1 hnin.1 hnin.2,
        cell_of_wf hwf2 hnin.1 hnin.2, bind_ok, hsame, hrec]
    · have hnot : (pos.shift d).row > 7 ∨ (pos.shift d).col > 7 := by
        unfold Position.in_range at hnout; omega
      simp [count_move_line, hnot]

theorem on_segment_disjoint {pos : Position} {d e : Int × Int} (hd : d ∈ directions)
    (he : e ∈ directions) (hne : d ≠ e) {v w : Int} {r c : Nat}
    (h1 : on_segment pos d v r c) (h2 : on_segment pos e w r c) : False := by
  obtain ⟨i, hi1, -, hi3, hi4⟩ := h1
  obtain ⟨j, hj1, -, hj3, hj4⟩ := h2
  rcases mem_directions hd with h | h | h | h | h | h | h | h <;> subst h <;>
    rcases mem_directions he with h | h | h | h | h | h | h | h <;> subst h <;>
    first
      | exact hne rfl
      | (simp at hi3 hi4 hj3 hj4; omega)


/-! ## The direction loops of `count_move` and `play` -/

theorem progress_budget {pos : Position} (hin : pos.in_range) {d : Int × Int}
    (hd : d ∈ directions) : 8 ≤ ((LINE_BUDGET : Nat) : Int) + progress pos d := by
  have := progress_le hin hd
  simp only [LINE_BUDGET]; omega

theorem count_fold {board : Board_vec} (hwf : board.wf) {mover : Piece}
    (hm : mover ≠ Piece.EMPTY) {pos : Position} (hin : pos.in_range) :
    ∀ (ds : List (Int × Int)), (∀ d ∈ ds, d ∈ directions) → ∀ t : Int,
      ∃ s, ds.foldlM (count_step board mover pos) t = Except.ok (t + s) ∧ 0 ≤ s ∧
        (0 < s ↔ ∃ d ∈ ds, ∃ v, count_move_line LINE_BUDGET board mover pos d = Except.ok v ∧
          0 < v) := by
  intro ds
  induction ds with
  | nil => intro _ t; exact ⟨0, by simp, le_refl _, by simp⟩
  | cons d ds ih =>
    intro hds t
    have hd : d ∈ directions := hds d (List.mem_cons_self _ _)
    obtain ⟨v, hv, -⟩ := count_move_line_spec hwf hm hd LINE_BUDGET pos hin (progress_budget hin hd)
    by_cases hpos : 0 < v
    · obtain ⟨s, hs, hs0, hiff⟩ := ih (fun e he => hds e (List.mem_cons_of_mem _ he)) (t + v)
      refine ⟨v + s, ?_, by omega, ?_⟩
      · simp only [List.foldlM_cons, count_step, hv, bind_ok, hpos, if_true, pure_eq_ok, hs]
        congr 1; ring
      · constructor
        · intro _; exact ⟨d, List.mem_cons_self _ _, v, hv, hpos⟩
        · intro _; omega
    · obtain ⟨s, hs, hs0, hiff⟩ := ih (fun e he => hds e (List.mem_cons_of_mem _ he)) t
      refine ⟨s, ?_, hs0, ?_⟩
      · simp only [List.foldlM_cons, count_step, hv, bind_ok, hpos, if_false, pure_eq_ok, hs]
      · rw [hiff]
        constructor
        · rintro ⟨e, he, w, hw, hw0⟩
          exact ⟨e, List.mem_cons_of_mem _ he, w, hw, hw0⟩
        · rintro ⟨e, he, w, hw, hw0⟩
          rcases List.mem_cons.1 he with rfl | he'
          · rw [hv] at hw
            cases hw
            exact absurd hw0 hpos
          · exact ⟨e, he', w, hw, hw0⟩

theorem play_fold {orig : Board_vec} (hwf : orig.wf) {mover : Piece}
    (hm : mover ≠ Piece.EMPTY) {pos : Position} (hin : pos.in_range) :
    ∀ (ds : List (Int × Int)), ds.Nodup → (∀ d ∈ ds, d ∈ directions) →
      ∀ (bs : Board_vec) (t : Int), bs.wf →
      (∀ d ∈ ds, ∀ v r c, on_segment pos d v r c → peek bs r c = peek orig r c) →
      ∃ b' t', ds.foldlM (play_step mover pos) (bs, t) = Except.ok (b', t') ∧
        ds.foldlM (count_step orig mover pos) t = Except.ok t' ∧ b'.wf ∧ t ≤ t' ∧
        (∀ r c, flipped_by orig mover pos ds r c → peek b' r c = mover) ∧
        (∀ r c, ¬ flipped_by orig mover pos ds r c → peek b' r c = peek bs r c) ∧
        (∀ r c, flipped_by orig mover pos ds r c → peek orig r c = get_opponent mover) ∧
        (∀ q, count_pieces b' q = count_pieces bs q + (if q = mover then t' - t else 0)
          - (if q = get_opponent mover then t' - t else 0)) := by
  intro ds
  induction ds with
  | nil =>
    intro _ _ bs t hbs _
    refine ⟨bs, t, by simp, by simp, hbs, le_refl _, ?_, fun _ _ _ => rfl, ?_, by simp⟩
    · rintro r c ⟨d, hd, -⟩; simp at hd
    · rintro r c ⟨d, hd, -⟩; simp at hd
  | cons d ds ih =>
    intro hnd hds bs t hbs hag
    have hd : d ∈ directions := hds d (List.mem_cons_self _ _)
    have hds' : ∀ e ∈ ds, e ∈ directions := fun e he => hds e (List.mem_cons_of_mem _ he)
    obtain ⟨hdn, hnd'⟩ := List.nodup_cons.1 hnd
    obtain ⟨b1, v, hf, hv, hwf1, hsign, hin1, hout1, hold1, hcnt1⟩ :=
      flip_line_spec hm hd LINE_BUDGET pos bs hbs hin (progress_budget hin hd)
    have hvo : count_move_line LINE_BUDGET orig mover pos d = Except.ok v := by
      rw [← hv]
      exact (count_move_line_congr hd hbs hwf LINE_BUDGET pos hin
        (hag d (List.mem_cons_self _ _))).symm
    have hag1 : ∀ e ∈ ds, ∀ w r c, on_segment pos e w r c → peek b1 r c = peek orig r c := by
      intro e he w r c hseg
      have hne : d ≠ e := fun h => hdn (h ▸ he)
      rw [hout1 r c (fun h => on_segment_disjoint hd (hds' e he) hne h hseg)]
      exact hag e (List.mem_cons_of_mem _ he) w r c hseg
    have hmax : (if v > 0 then t + v else t) = t + max v 0 := by
      split_ifs with h
      · rw [max_eq_left (le_of_lt h)]
      · rw [max_eq_right (by omega)]; simp
    obtain ⟨b', t', hfold, hcfold, hwf', hle, hin', hout', hold', hcnt'⟩ :=
      ih hnd' hds' b1 (t + max v 0) hwf1 hag1
    have hstep : play_step mover pos (bs, t) d = Except.ok (b1, t + max v 0) := by
      simp only [play_step, hf, bind_ok, pure_eq_ok]
      split_ifs with h
      · rw [max_eq_left (le_of_lt h)]
      · rw [max_eq_right (by omega)]; simp
    have hcstep : count_step orig mover pos t d = Except.ok (t + max v 0) := by
      simp only [count_step, hvo, bind_ok, pure_eq_ok]
      split_ifs with h
      · rw [max_eq_left (le_of_lt h)]
      · rw [max_eq_right (by omega)]; simp
    have hsplit : ∀ r c, flipped_by orig mover pos (d :: ds) r c ↔
        (on_segment pos d v r c ∨ flipped_by orig mover pos ds r c) := by
      intro r c
      constructor
      · rintro ⟨e, he, w, hw, hseg⟩
        rcases List.mem_cons.1 he with rfl | he'
        · rw [hvo] at hw; cases hw; exact Or.inl hseg
        · exact Or.inr ⟨e, he', w, hw, hseg⟩
      · rintro (hseg | ⟨e, he, w, hw, hseg⟩)
        · exact ⟨d, List.mem_cons_self _ _, v, hvo, hseg⟩
        · exact ⟨e, List.mem_cons_of_mem _ he, w, hw, hseg⟩
    refine ⟨b', t', ?_, ?_, hwf', by have := le_max_right v 0; omega, ?_, ?_, ?_, ?_⟩
    · simp only [List.foldlM_cons, hstep, bind_ok, hfold]
    · simp only [List.foldlM_cons, hcstep, bind_ok, hcfold]
    · intro r c h
      by_cases h2 : flipped_by orig mover pos ds r c
      · exact hin' r c h2
      · rw [hout' r c h2]
        rcases (hsplit r c).1 h with hseg | h3
        · exact hin1 r c hseg
        · exact absurd h3 h2
    · intro r c h
      have h' := mt (hsplit r c).2 h
      push_neg at h'
      rw [hout' r c h'.2, hout1 r c h'.1]
    · intro r c h
      rcases (hsplit r c).1 h with hseg | h3
      · rw [← hag d (List.mem_cons_self _ _) v r c hseg]
        exact hold1 r c hseg
      · exact hold' r c h3
    · intro q
      rw [hcnt' q, hcnt1 q]
      split_ifs <;> ring


theorem directions_nodup : directions.Nodup := by decide

theorem sandwich_unique {board : Board_vec} {mover : Piece} (hm : mover ≠ Piece.EMPTY)
    {pos : Position} {d : Int × Int} {k l : Nat} (hk : sandwich board mover pos d k)
    (hl : sandwich board mover pos d l) : k = l := by
  have hon := (opponent_ne hm).1
  rcases Nat.lt_trichotomy k l with h | h | h
  · have h1 := hl.1 (k + 1) (by omega) (by omega)
    rw [hk.2] at h1
    exact absurd (Option.some.inj h1).symm hon
  · exact h
  · have h1 := hk.1 (l + 1) (by omega) (by omega)
    rw [hl.2] at h1
    exact absurd (Option.some.inj h1).symm hon

/-- The value of `count_move_line` is positive exactly when a non-empty run is sandwiched. -/
theorem line_positive_iff {board : Board_vec} (hwf : board.wf) {mover : Piece}
    (hm : mover ≠ Piece.EMPTY) {pos : Position} (hin : pos.in_range) {d : Int × Int}
    (hd : d ∈ directions) :
    (∃ v, count_move_line LINE_BUDGET board mover pos d = Except.ok v ∧ 0 < v) ↔
      ∃ k : Nat, 1 ≤ k ∧ sandwich board mover pos d k := by
  obtain ⟨v, hv, hspec⟩ :=
    count_move_line_spec hwf hm hd LINE_BUDGET pos hin (progress_budget hin hd)
  constructor
  · rintro ⟨w, hw, hw0⟩
    rw [hv] at hw; cases hw
    rcases hspec with ⟨h1, -⟩ | ⟨-, hs⟩
    · omega
    · exact ⟨v.toNat, by omega, hs⟩
  · rintro ⟨k, hk1, hk⟩
    rcases hspec with ⟨-, hno⟩ | ⟨h0, hs⟩
    · exact absurd hk (hno k)
    · have := sandwich_unique hm hk hs
      exact ⟨v, hv, by omega⟩

/-- From a position of the grid the line walk returns the same value for every
budget of at least `LINE_BUDGET`. -/
theorem count_move_line_budget {board : Board_vec} (hwf : board.wf) {mover : Piece}
    (hm : mover ≠ Piece.EMPTY) {d : Int × Int} (hd : d ∈ directions) {pos : Position}
    (hin : pos.in_range) (n : Nat) (hn : LINE_BUDGET ≤ n) :
    count_move_line n board mover pos d = count_move_line LINE_BUDGET board mover pos d := by
  have hp := progress_le hin hd
  obtain ⟨v, hv, hs⟩ := count_move_line_spec hwf hm hd n pos hin
    (by simp only [LINE_BUDGET] at hn; omega)
  obtain ⟨w, hw, ht⟩ := count_move_line_spec hwf hm hd LINE_BUDGET pos hin
    (progress_budget hin hd)
  rw [hv, hw]
  congr 1
  rcases hs with ⟨hv1, hno⟩ | ⟨hv0, hsv⟩
  · rcases ht with ⟨hw1, -⟩ | ⟨-, hsw⟩
    · rw [hv1, hw1]
    · exact absurd hsw (hno _)
  · rcases ht with ⟨-, hno⟩ | ⟨hw0, hsw⟩
    · exact absurd hsv (hno _)
    · have := sandwich_unique hm hsv hsw
      omega

theorem play_spec {board : Board_vec} (hwf : board.wf) {mover : Piece}
    (hm : mover ≠ Piece.EMPTY) {pos : Position} (hin : pos.in_range)
    (hempty : peek board pos.row pos.col = Piece.EMPTY) :
    ∃ b' n, play board mover pos = Except.ok (b', n) ∧
      count_move board mover pos = Except.ok n ∧ b'.wf ∧ 0 ≤ n ∧
      (0 < n ↔ ∃ d ∈ directions, ∃ k : Nat, 1 ≤ k ∧ sandwich board mover pos d k) ∧
      peek b' pos.row pos.col = mover ∧
      (∀ r c, flipped_by board mover pos directions r c → peek b' r c = mover) ∧
      (∀ r c, ¬ (r = pos.row ∧ c = pos.col) → ¬ flipped_by board mover pos directions r c →
        peek b' r c = peek board r c) ∧
      (∀ r c, flipped_by board mover pos directions r c →
        peek board r c = get_opponent mover) ∧
      (∀ q, count_pieces b' q = count_pieces board q
        + (if q = mover then n + 1 else 0) - (if q = get_opponent mover then n else 0)
        - (if q = Piece.EMPTY then 1 else 0)) := by
  have hon := opponent_ne hm
  obtain ⟨b0, hset, hwf0, hpk0⟩ := set_cell_of_wf hwf hin.1 hin.2 mover
  have hcnt0 := set_cell_count hwf hin.1 hin.2 hset
  have hag : ∀ d ∈ directions, ∀ v r c, on_segment pos d v r c → peek b0 r c = peek board r c := by
    intro d hd v r c hseg
    rw [hpk0]
    have : ¬ (r = pos.row ∧ c = pos.col) := by
      rintro ⟨rfl, rfl⟩
      exact not_on_segment_self hd v hseg
    rw [if_neg this]
  obtain ⟨b', n, hfold, hcfold, hwf', hle, hin', hout', hold', hcnt'⟩ :=
    play_fold hwf hm hin directions directions_nodup (fun d hd => hd) b0 0 hwf0 hag
  obtain ⟨s, hs, -, hiff⟩ := count_fold hwf hm hin directions (fun d hd => hd) 0
  have hsn : s = n := by
    rw [hs] at hcfold
    have := Except.ok.inj hcfold
    omega
  have hnotself : ¬ flipped_by board mover pos directions pos.row pos.col := by
    rintro ⟨d, hd, v, -, hseg⟩
    exact not_on_segment_self hd v hseg
  refine ⟨b', n, ?_, ?_, hwf', hle, ?_, ?_, hin', ?_, hold', ?_⟩
  · simp [play, hm, cell_of_wf hwf hin.1 hin.2, hempty, hset, for_each_offset_eq, hfold]
  · simp [count_move, hm, cell_of_wf hwf hin.1 hin.2, hempty, for_each_offset_eq, hcfold]
  · rw [← hsn, hiff]
    constructor
    · rintro ⟨d, hd, hv⟩
      exact ⟨d, hd, (line_positive_iff hwf hm hin hd).1 hv⟩
    · rintro ⟨d, hd, hk⟩
      exact ⟨d, hd, (line_positive_iff hwf hm hin hd).2 hk⟩
  · rw [hout' _ _ hnotself, hpk0]; simp
  · intro r c h1 h2
    rw [hout' r c h2, hpk0, if_neg h1]
  · intro q
    rw [hcnt' q, hcnt0 q, hempty]
    clear hcnt' hcnt0 hin' hout' hold' hfold hcfold hs hiff hset hpk0 hon
    cases mover <;> cases q <;> simp [get_opponent] at hm ⊢ <;> ring


/-! ## Properties of `count_move` and `play` -/

theorem peek_eq_of_cell {board : Board_vec} {row col : Nat} {p : Piece}
    (h : cell board row col = Except.ok p) : peek board row col = p := by
  simp [peek, h]

theorem play_occupied {board : Board_vec} (hwf : board.wf) {mover : Piece}
    (hm : mover ≠ Piece.EMPTY) {pos : Position} (hin : pos.in_range)
    (hocc : peek board pos.row pos.col ≠ Piece.EMPTY) :
    count_move board mover pos = Except.ok 0 ∧ play board mover pos = Except.ok (board, 0) := by
  constructor
  · simp [count_move, hm, cell_of_wf hwf hin.1 hin.2, hocc]
  · simp [play, hm, cell_of_wf hwf hin.1 hin.2, hocc]

/-- C1: on an 8x8 board, for a mover in P1, P2 and an in-range position,
`count_move` returns a count, and the count is positive if and only if the
target cell is Empty and, along one of the eight directions, a run of `k ≥ 1`
opponent cells on the grid is followed by a cell on the grid owned by the mover. -/
theorem count_move_pos_iff_sandwich (board : Board_vec) (mover : Piece) (pos : Position)
    (hwf : board.wf) (hm : mover = Piece.P1 ∨ mover = Piece.P2) (hin : pos.in_range) :
    ∃ n, count_move board mover pos = Except.ok n ∧
      (0 < n ↔ (cell board pos.row pos.col = Except.ok Piece.EMPTY ∧
        ∃ d ∈ directions, ∃ k : Nat, 1 ≤ k ∧ sandwich board mover pos d k)) := by
  have hm' : mover ≠ Piece.EMPTY := by rcases hm with h | h <;> simp [h]
  by_cases he : peek board pos.row pos.col = Piece.EMPTY
  · obtain ⟨b', n, -, hc, -, -, hiff, -⟩ := play_spec hwf hm' hin he
    refine ⟨n, hc, ?_⟩
    rw [hiff, cell_of_wf hwf hin.1 hin.2, he]
    simp
  · refine ⟨0, (play_occupied hwf hm' hin he).1, ?_⟩
    constructor
    · intro h; omega
    · rintro ⟨h, -⟩
      exact absurd (peek_eq_of_cell h) he

theorem count_move_pos_iff_sandwich_witness :
    ∃ n, count_move reset_board Piece.P1 ⟨2, 3⟩ = Except.ok n ∧
      (0 < n ↔ (cell reset_board 2 3 = Except.ok Piece.EMPTY ∧
        ∃ d ∈ directions, ∃ k : Nat, 1 ≤ k ∧ sandwich reset_board Piece.P1 ⟨2, 3⟩ d k)) :=
  count_move_pos_iff_sandwich reset_board Piece.P1 ⟨2, 3⟩ (by decide) (by decide) (by decide)

/-- C2: on an 8x8 board, for a mover in P1, P2 and an in-range position, `play`
returns, and the count it returns is the value of `count_move` on the board as
it was before the call. -/
theorem play_returns_count_move (board : Board_vec) (mover : Piece) (pos : Position)
    (hwf : board.wf) (hm : mover = Piece.P1 ∨ mover = Piece.P2) (hin : pos.in_range) :
    ∃ b' n, play board mover pos = Except.ok (b', n) ∧
      count_move board mover pos = Except.ok n := by
  have hm' : mover ≠ Piece.EMPTY := by rcases hm with h | h <;> simp [h]
  by_cases he : peek board pos.row pos.col = Piece.EMPTY
  · obtain ⟨b', n, hp, hc, -⟩ := play_spec hwf hm' hin he
    exact ⟨b', n, hp, hc⟩
  · exact ⟨board, 0, (play_occupied hwf hm' hin he).2, (play_occupied hwf hm' hin he).1⟩

theorem play_returns_count_move_witness :
    ∃ b' n, play reset_board Piece.P1 ⟨2, 3⟩ = Except.ok (b', n) ∧
      count_move reset_board Piece.P1 ⟨2, 3⟩ = Except.ok n :=
  play_returns_count_move reset_board Piece.P1 ⟨2, 3⟩ (by decide) (by decide) (by decide)

/-- C3: on an 8x8 board, for a mover in P1, P2 and an in-range position whose
cell is Empty, `play` returns an 8x8 board in which the target cell holds the
mover, every cell at steps `1..k` along a direction whose `count_move_line`
value on the original board is `k > 0` held the opponent and now holds the
mover, and every other cell of the grid is unchanged. -/
theorem play_changes_exactly (board : Board_vec) (mover : Piece) (pos : Position)
    (hwf : board.wf) (hm : mover = Piece.P1 ∨ mover = Piece.P2) (hin : pos.in_range)
    (hempty : cell board pos.row pos.col = Except.ok Piece.EMPTY) :
    ∃ b' n, play board mover pos = Except.ok (b', n) ∧ b'.wf ∧
      cell b' pos.row pos.col = Except.ok mover ∧
      ∀ r c, r ≤ 7 → c ≤ 7 →
        ((∃ d ∈ directions, ∃ k, count_move_line LINE_BUDGET board mover pos d = Except.ok k ∧
            on_segment pos d k r c) →
          cell board r c = Except.ok (get_opponent mover) ∧ cell b' r c = Except.ok mover) ∧
        (¬ (r = pos.row ∧ c = pos.col) →
          ¬ (∃ d ∈ directions, ∃ k, count_move_line LINE_BUDGET board mover pos d = Except.ok k ∧
            on_segment pos d k r c) →
          cell b' r c = cell board r c) := by
  have hm' : mover ≠ Piece.EMPTY := by rcases hm with h | h <;> simp [h]
  obtain ⟨b', n, hp, -, hwf', -, -, hself, hfl, hfr, hold, -⟩ :=
    play_spec hwf hm' hin (peek_eq_of_cell hempty)
  refine ⟨b', n, hp, hwf', ?_, ?_⟩
  · rw [cell_of_wf hwf' hin.1 hin.2, hself]
  · intro r c hr hc
    rw [cell_of_wf hwf' hr hc, cell_of_wf hwf hr hc]
    refine ⟨fun h => ⟨?_, ?_⟩, fun h1 h2 => ?_⟩
    · rw [hold r c h]
    · rw [hfl r c h]
    · rw [hfr r c h1 h2]

theorem play_changes_exactly_witness :
    ∃ b' n, play reset_board Piece.P1 ⟨2, 3⟩ = Except.ok (b', n) ∧ b'.wf ∧
      cell b' 2 3 = Except.ok Piece.P1 ∧
      ∀ r c, r ≤ 7 → c ≤ 7 →
        ((∃ d ∈ directions, ∃ k,
            count_move_line LINE_BUDGET reset_board Piece.P1 ⟨2, 3⟩ d = Except.ok k ∧
            on_segment ⟨2, 3⟩ d k r c) →
          cell reset_board r c = Except.ok (get_opponent Piece.P1) ∧
            cell b' r c = Except.ok Piece.P1) ∧
        (¬ (r = 2 ∧ c = 3) →
          ¬ (∃ d ∈ directions, ∃ k,
            count_move_line LINE_BUDGET reset_board Piece.P1 ⟨2, 3⟩ d = Except.ok k ∧
            on_segment ⟨2, 3⟩ d k r c) →
          cell b' r c = cell reset_board r c) :=
  play_changes_exactly reset_board Piece.P1 ⟨2, 3⟩ (by decide) (by decide) (by decide)
    (by decide)

/-- C4: on an 8x8 board, for a mover in P1, P2 and a position that is legal for
the mover (`count_move > 0`), `play` returns a board on which
`count_pieces(P1) + count_pieces(P2)` is one more than before and
`count_pieces(EMPTY)` is one less. -/
theorem play_adds_one_disc (board : Board_vec) (mover : Piece) (pos : Position)
    (hwf : board.wf) (hm : mover = Piece.P1 ∨ mover = Piece.P2) (hin : pos.in_range)
    (n : Int) (hlegal : count_move board mover pos = Except.ok n) (hpos : 0 < n) :
    ∃ b', play board mover pos = Except.ok (b', n) ∧
      count_pieces b' Piece.P1 + count_pieces b' Piece.P2
        = count_pieces board Piece.P1 + count_pieces board Piece.P2 + 1 ∧
      count_pieces b' Piece.EMPTY = count_pieces board Piece.EMPTY - 1 := by
  have hm' : mover ≠ Piece.EMPTY := by rcases hm with h | h <;> simp [h]
  by_cases he : peek board pos.row pos.col = Piece.EMPTY
  · obtain ⟨b', n', hp, hc, -, -, -, -, -, -, -, hcnt⟩ := play_spec hwf hm' hin he
    rw [hlegal] at hc
    cases hc
    refine ⟨b', hp, ?_, ?_⟩
    · rw [hcnt Piece.P1, hcnt Piece.P2]
      rcases hm with h | h <;> subst h <;> simp [get_opponent] <;> ring
    · rw [hcnt Piece.EMPTY]
      rcases hm with h | h <;> subst h <;> simp [get_opponent]
  · have := (play_occupied hwf hm' hin he).1
    rw [hlegal] at this
    cases this
    omega

theorem play_adds_one_disc_witness :
    ∃ b', play reset_board Piece.P1 ⟨2, 3⟩ = Except.ok (b', 1) ∧
      count_pieces b' Piece.P1 + count_pieces b' Piece.P2
        = count_pieces reset_board Piece.P1 + count_pieces reset_board Piece.P2 + 1 ∧
      count_pieces b' Piece.EMPTY = count_pieces reset_board Piece.EMPTY - 1 :=
  play_adds_one_disc reset_board Piece.P1 ⟨2, 3⟩ (by decide) (by decide) (by decide) 1
    (by decide) (by decide)

/-- C5: on an 8x8 board, for a mover in P1, P2 and an in-range position whose
cell is not Empty, `count_move` returns 0 and `play` returns 0 and the board it
was given, unchanged. -/
theorem occupied_target_is_noop (board : Board_vec) (mover : Piece) (pos : Position)
    (hwf : board.wf) (hm : mover = Piece.P1 ∨ mover = Piece.P2) (hin : pos.in_range)
    (hocc : cell board pos.row pos.col ≠ Except.ok Piece.EMPTY) :
    count_move board mover pos = Except.ok 0 ∧ play board mover pos = Except.ok (board, 0) := by
  have hm' : mover ≠ Piece.EMPTY := by rcases hm with h | h <;> simp [h]
  refine play_occupied hwf hm' hin (fun h => hocc ?_)
  rw [cell_of_wf hwf hin.1 hin.2, h]

theorem occupied_target_is_noop_witness :
    count_move reset_board Piece.P1 ⟨3, 3⟩ = Except.ok 0 ∧
      play reset_board Piece.P1 ⟨3, 3⟩ = Except.ok (reset_board, 0) :=
  occupied_target_is_noop reset_board Piece.P1 ⟨3, 3⟩ (by decide) (by decide) (by decide)
    (by decide)


/-! ## Legal positions and game over -/

theorem count_move_total {board : Board_vec} (hwf : board.wf) {mover : Piece}
    (hm : mover ≠ Piece.EMPTY) {pos : Position} (hin : pos.in_range) :
    ∃ n, count_move board mover pos = Except.ok n ∧ 0 ≤ n := by
  by_cases he : peek board pos.row pos.col = Piece.EMPTY
  · obtain ⟨b', n, -, hc, -, h0, -⟩ := play_spec hwf hm hin he
    exact ⟨n, hc, h0⟩
  · exact ⟨0, (play_occupied hwf hm hin he).1, le_refl _⟩

theorem legal_iff {board : Board_vec} {mover : Piece} {pos : Position} :
    legal board mover pos = true ↔ ∃ n, count_move board mover pos = Except.ok n ∧ 0 < n := by
  unfold legal
  cases h : count_move board mover pos with
  | ok n => simp
  | error e => simp

theorem mem_all_positions (p : Position) : p ∈ all_positions ↔ p.in_range := by
  obtain ⟨r, c⟩ := p
  simp only [all_positions, List.mem_flatMap, List.mem_range, List.mem_map, Position.mk.injEq,
    Position.in_range]
  constructor
  · rintro ⟨a, ha, b, hb, rfl, rfl⟩; omega
  · rintro ⟨h1, h2⟩; exact ⟨r, by omega, c, by omega, rfl, rfl⟩

theorem all_positions_row_major :
    all_positions.Pairwise (fun p q => p.row < q.row ∨ (p.row = q.row ∧ p.col < q.col)) := by
  decide

theorem legal_positions_fold {board : Board_vec} (hwf : board.wf) {mover : Piece}
    (hm : mover ≠ Piece.EMPTY) :
    ∀ (ps : List Position), (∀ p ∈ ps, p.in_range) → ∀ out : List Position,
      ps.foldlM (fun out pos => do
        let flips ← count_move board mover pos
        if flips ≠ 0 then return out ++ [pos] else return out) out
        = Except.ok (out ++ ps.filter (legal board mover)) := by
  intro ps
  induction ps with
  | nil => intro _ out; simp
  | cons p ps ih =>
    intro hps out
    obtain ⟨n, hn, h0⟩ := count_move_total hwf hm (hps p (List.mem_cons_self _ _))
    have ih' := ih (fun q hq => hps q (List.mem_cons_of_mem _ hq))
    rw [List.foldlM_cons, hn, bind_ok]
    by_cases hz : n = 0
    · have hl : legal board mover p = false := by simp [legal, hn, hz]
      rw [if_neg (not_not.2 hz), pure_bind, ih']
      simp [List.filter_cons, hl]
    · have hl : legal board mover p = true := by simp [legal, hn]; omega
      rw [if_pos hz, pure_bind, ih']
      simp [List.filter_cons, hl]

theorem legal_count_fold {board : Board_vec} (hwf : board.wf) {mover : Piece}
    (hm : mover ≠ Piece.EMPTY) :
    ∀ (ps : List Position), (∀ p ∈ ps, p.in_range) → ∀ total : Int,
      ps.foldlM (fun total pos => do
        let flips ← count_move board mover pos
        if flips ≠ 0 then return total + 1 else return total) total
        = Except.ok (total + ((ps.filter (legal board mover)).length : Int)) := by
  intro ps
  induction ps with
  | nil => intro _ out; simp
  | cons p ps ih =>
    intro hps out
    obtain ⟨n, hn, h0⟩ := count_move_total hwf hm (hps p (List.mem_cons_self _ _))
    have ih' := ih (fun q hq => hps q (List.mem_cons_of_mem _ hq))
    rw [List.foldlM_cons, hn, bind_ok]
    by_cases hz : n = 0
    · have hl : legal board mover p = false := by simp [legal, hn, hz]
      rw [if_neg (not_not.2 hz), pure_bind, ih']
      simp [List.filter_cons, hl]
    · have hl : legal board mover p = true := by simp [legal, hn]; omega
      rw [if_pos hz, pure_bind, ih']
      simp [List.filter_cons, hl]
      ring

theorem get_legal_positions_eq {board : Board_vec} (hwf : board.wf) {mover : Piece}
    (hm : mover ≠ Piece.EMPTY) :
    get_legal_positions board mover = Except.ok (all_positions.filter (legal board mover)) := by
  have := legal_positions_fold hwf hm all_positions (fun p hp => (mem_all_positions p).1 hp) []
  simpa [get_legal_positions] using this

theorem count_legal_positions_eq {board : Board_vec} (hwf : board.wf) {mover : Piece}
    (hm : mover ≠ Piece.EMPTY) :
    count_legal_positions board mover
      = Except.ok (((all_positions.filter (legal board mover)).length : Nat) : Int) := by
  have := legal_count_fold hwf hm all_positions (fun p hp => (mem_all_positions p).1 hp) 0
  simpa [count_legal_positions] using this

theorem can_move_eq {board : Board_vec} (hwf : board.wf) {mover : Piece}
    (hm : mover ≠ Piece.EMPTY) :
    can_move board mover = Except.ok (decide (all_positions.filter (legal board mover) ≠ [])) := by
  simp only [can_move, count_legal_positions_eq hwf hm, bind_ok, pure_eq_ok]
  congr 1
  cases h : all_positions.filter (legal board mover) with
  | nil => simp
  | cons a t => simp


theorem game_over_eq {board : Board_vec} (hwf : board.wf) :
    game_over board = Except.ok (decide (all_positions.filter (legal board Piece.P1) = [] ∧
      all_positions.filter (legal board Piece.P2) = [])) := by
  have h1 := @can_move_eq board hwf Piece.P1 (by simp)
  have h2 := @can_move_eq board hwf Piece.P2 (by simp)
  simp only [game_over, h1, h2, bind_ok, pure_eq_ok]
  cases hl1 : all_positions.filter (legal board Piece.P1) with
  | nil =>
    cases hl2 : all_positions.filter (legal board Piece.P2) with
    | nil => simp
    | cons a t => simp
  | cons a t => simp

/-- C6: on an 8x8 board, `count_legal_positions` returns for both owners,
`game_over` returns, and its value is true if and only if both counts are 0;
in particular the game is over as soon as no Empty cell is a legal move for
either owner, whether or not Empty cells remain. -/
theorem game_over_iff_no_legal_position (board : Board_vec) (hwf : board.wf) :
    ∃ n1 n2 g, count_legal_positions board Piece.P1 = Except.ok n1 ∧
      count_legal_positions board Piece.P2 = Except.ok n2 ∧
      game_over board = Except.ok g ∧
      (g = true ↔ (n1 = 0 ∧ n2 = 0)) ∧
      ((∀ pos : Position, pos.in_range → cell board pos.row pos.col = Except.ok Piece.EMPTY →
          ∀ mover, mover = Piece.P1 ∨ mover = Piece.P2 →
            ¬ ∃ n, count_move board mover pos = Except.ok n ∧ 0 < n) → g = true) := by
  refine ⟨_, _, _, count_legal_positions_eq hwf (by simp), count_legal_positions_eq hwf (by simp),
    game_over_eq hwf, ?_, ?_⟩
  · simp
  · intro h
    have hnone : ∀ mover, mover = Piece.P1 ∨ mover = Piece.P2 →
        all_positions.filter (legal board mover) = [] := by
      intro mover hmv
      have hm' : mover ≠ Piece.EMPTY := by rcases hmv with h | h <;> simp [h]
      rw [List.filter_eq_nil_iff]
      intro p hp hl
      have hin := (mem_all_positions p).1 hp
      obtain ⟨n, hn, hn0⟩ := legal_iff.1 hl
      by_cases he : peek board p.row p.col = Piece.EMPTY
      · refine h p hin ?_ mover hmv ⟨n, hn, hn0⟩
        rw [cell_of_wf hwf hin.1 hin.2, he]
      · rw [(play_occupied hwf hm' hin he).1] at hn
        cases hn
        omega
    simp [hnone Piece.P1 (Or.inl rfl), hnone Piece.P2 (Or.inr rfl)]

/-- C7: on an 8x8 board and for a mover in P1, P2, `get_legal_positions` returns
a list that is in strict row-major order (hence without duplicates) and whose
members are exactly the in-range positions with `count_move > 0`;
`count_legal_positions` returns the length of that list, and `can_move` is true
exactly when the list is non-empty. -/
theorem legal_positions_enumeration (board : Board_vec) (mover : Piece) (hwf : board.wf)
    (hm : mover = Piece.P1 ∨ mover = Piece.P2) :
    ∃ l : List Position, get_legal_positions board mover = Except.ok l ∧
      l.Pairwise (fun p q => p.row < q.row ∨ (p.row = q.row ∧ p.col < q.col)) ∧
      (∀ p : Position, p ∈ l ↔
        (p.in_range ∧ ∃ n, count_move board mover p = Except.ok n ∧ 0 < n)) ∧
      count_legal_positions board mover = Except.ok (l.length : Int) ∧
      can_move board mover = Except.ok (decide (l ≠ [])) := by
  have hm' : mover ≠ Piece.EMPTY := by rcases hm with h | h <;> simp [h]
  refine ⟨_, get_legal_positions_eq hwf hm', ?_, ?_, count_legal_positions_eq hwf hm',
    can_move_eq hwf hm'⟩
  · exact List.Pairwise.sublist (List.filter_sublist _) all_positions_row_major
  · intro p
    rw [List.mem_filter, mem_all_positions, legal_iff]

theorem game_over_iff_no_legal_position_witness :
    ∃ n1 n2 g, count_legal_positions reset_board Piece.P1 = Except.ok n1 ∧
      count_legal_positions reset_board Piece.P2 = Except.ok n2 ∧
      game_over reset_board = Except.ok g ∧
      (g = true ↔ (n1 = 0 ∧ n2 = 0)) ∧
      ((∀ pos : Position, pos.in_range →
          cell reset_board pos.row pos.col = Except.ok Piece.EMPTY →
          ∀ mover, mover = Piece.P1 ∨ mover = Piece.P2 →
            ¬ ∃ n, count_move reset_board mover pos = Except.ok n ∧ 0 < n) → g = true) :=
  game_over_iff_no_legal_position reset_board (by decide)

theorem legal_positions_enumeration_witness :
    ∃ l : List Position, get_legal_positions reset_board Piece.P1 = Except.ok l ∧
      l.Pairwise (fun p q => p.row < q.row ∨ (p.row = q.row ∧ p.col < q.col)) ∧
      (∀ p : Position, p ∈ l ↔
        (p.in_range ∧ ∃ n, count_move reset_board Piece.P1 p = Except.ok n ∧ 0 < n)) ∧
      count_legal_positions reset_board Piece.P1 = Except.ok (l.length : Int) ∧
      can_move reset_board Piece.P1 = Except.ok (decide (l ≠ [])) :=
  legal_positions_enumeration reset_board Piece.P1 (by decide) (by decide)




/-! ## The evaluator returns a score within bounds -/

theorem flatten_length_of_rows (board : Board_vec) (h : ∀ cells ∈ board, cells.length = 8) :
    board.flatten.length = 8 * board.length := by
  induction board with
  | nil => simp
  | cons a t ih =>
    have h1 := h a (List.mem_cons_self _ _)
    have h2 := ih (fun c hc => h c (List.mem_cons_of_mem _ hc))
    simp only [List.flatten_cons, List.length_append, List.length_cons, h1, h2]
    omega

theorem count_pieces_bounds {board : Board_vec} (hwf : board.wf) (q : Piece) :
    0 ≤ count_pieces board q ∧ count_pieces board q ≤ 64 := by
  rw [count_pieces_eq]
  have h1 := List.count_le_length q board.flatten
  have h2 := flatten_length_of_rows board hwf.2
  rw [hwf.1] at h2
  omega

theorem weight_at_ok {wr wc : Nat} (h1 : wr < 4) (h2 : wc < 4) :
    ∃ w, weight_at wr wc = Except.ok w ∧ -24 ≤ w ∧ w ≤ 99 := by
  interval_cases wr <;> interval_cases wc <;> exact ⟨_, rfl, by decide, by decide⟩

theorem weigh_cell_ok {board : Board_vec} (hwf : board.wf) (piece : Piece) (acc : Int × Int)
    {p : Position} (hin : p.in_range) :
    ∃ acc', weigh_cell board piece acc p = Except.ok acc' ∧
      acc.1 - 24 ≤ acc'.1 ∧ acc'.1 ≤ acc.1 + 99 ∧ acc.2 - 24 ≤ acc'.2 ∧ acc'.2 ≤ acc.2 + 99 := by
  obtain ⟨hr, hc⟩ := hin
  have hwr : (if p.row < 4 then p.row else 7 - p.row) < 4 := by split_ifs <;> omega
  have hwc : (if p.col < 4 then p.col else 7 - p.col) < 4 := by split_ifs <;> omega
  obtain ⟨w, hw, hw1, hw2⟩ := weight_at_ok hwr hwc
  have k00 := @cell_of_wf board hwf 0 0 (by norm_num) (by norm_num)
  have k07 := @cell_of_wf board hwf 0 7 (by norm_num) (by norm_num)
  have k70 := @cell_of_wf board hwf 7 0 (by norm_num) (by norm_num)
  have k77 := @cell_of_wf board hwf 7 7 (by norm_num) (by norm_num)
  have hm1 : -24 ≤ max 1 w ∧ max 1 w ≤ 99 := by
    constructor
    · exact le_trans (by norm_num) (le_max_left 1 w)
    · exact max_le (by norm_num) hw2
  simp only [weigh_cell, hw, k00, k07, k70, k77, cell_of_wf hwf hr hc, bind_ok, pure_eq_ok]
  split_ifs <;> refine ⟨_, rfl, ?_⟩ <;> dsimp only <;> omega

theorem weigh_fold {board : Board_vec} (hwf : board.wf) (piece : Piece) :
    ∀ (ps : List Position), (∀ p ∈ ps, p.in_range) → ∀ acc : Int × Int,
      ∃ acc', ps.foldlM (weigh_cell board piece) acc = Except.ok acc' ∧
        acc.1 - 24 * ps.length ≤ acc'.1 ∧ acc'.1 ≤ acc.1 + 99 * ps.length ∧
        acc.2 - 24 * ps.length ≤ acc'.2 ∧ acc'.2 ≤ acc.2 + 99 * ps.length := by
  intro ps
  induction ps with
  | nil => intro _ acc; exact ⟨acc, by simp⟩
  | cons p ps ih =>
    intro hps acc
    obtain ⟨a1, h1, b1, b2, b3, b4⟩ := weigh_cell_ok hwf piece acc (hps p (List.mem_cons_self _ _))
    obtain ⟨a2, h2, c1, c2, c3, c4⟩ := ih (fun q hq => hps q (List.mem_cons_of_mem _ hq)) a1
    refine ⟨a2, by rw [List.foldlM_cons, h1, bind_ok, h2], ?_⟩
    simp only [List.length_cons]
    push_cast
    omega

theorem all_positions_length : all_positions.length = 64 := by decide

theorem evaluate_weights_ok {board : Board_vec} (hwf : board.wf) (piece : Piece) :
    ∃ v, evaluate_weights board piece = Except.ok v ∧ -8000 ≤ v ∧ v ≤ 8000 := by
  obtain ⟨acc, h, b1, b2, b3, b4⟩ :=
    weigh_fold hwf piece all_positions (fun p hp => (mem_all_positions p).1 hp) (0, 0)
  rw [all_positions_length] at b1 b2 b3 b4
  refine ⟨acc.1 - acc.2, by simp only [evaluate_weights, h, bind_ok, pure_eq_ok], ?_, ?_⟩ <;> simp at b1 b2 b3 b4 <;> omega

theorem evaluate_ok {board : Board_vec} (hwf : board.wf) (piece : Piece) :
    ∃ v, evaluate board piece = Except.ok v ∧ -INT_MAX ≤ v ∧ v ≤ INT_MAX := by
  obtain ⟨w, hw, hw1, hw2⟩ := evaluate_weights_ok hwf piece
  have hwb : -INT_MAX ≤ w ∧ w ≤ INT_MAX := by simp only [INT_MAX]; omega
  have c1 := count_pieces_bounds hwf piece
  have c2 := count_pieces_bounds hwf (get_opponent piece)
  have d1 : Int.tdiv INT_MIN 4 = -536870912 := by decide
  have d2 : Int.tdiv INT_MAX 2 = 1073741823 := by decide
  have d3 : Int.tdiv INT_MIN 2 = -1073741824 := by decide
  simp only [evaluate, game_over_eq hwf, bind_ok, pure_eq_ok, d1, d2, d3]
  split_ifs
  · exact ⟨_, rfl, by simp only [INT_MAX]; omega⟩
  · exact ⟨_, rfl, by simp only [INT_MAX]; omega⟩
  · exact ⟨_, rfl, by simp only [INT_MAX]; omega⟩
  · exact ⟨w, hw, hwb⟩
  · exact ⟨w, hw, hwb⟩

theorem wrap32_neg_bounds {v : Int} (h1 : -INT_MAX ≤ v) (h2 : v ≤ INT_MAX) :
    wrap32 (-1 * v) = -v ∧ -INT_MAX ≤ wrap32 (-1 * v) ∧ wrap32 (-1 * v) ≤ INT_MAX := by
  simp only [INT_MAX, wrap32] at *
  omega


/-! ## The search returns, and an expanded root returns a legal position -/

theorem mapM_ok {α β : Type} (f : α → Except Fault β) (Q : β → Prop) :
    ∀ l : List α, (∀ x ∈ l, ∃ y, f x = Except.ok y ∧ Q y) →
      ∃ ys, l.mapM f = Except.ok ys ∧ (∀ y ∈ ys, Q y) ∧ ys.length = l.length := by
  intro l
  induction l with
  | nil => intro _; exact ⟨[], by rw [List.mapM_nil]; rfl, by simp, rfl⟩
  | cons a t ih =>
    intro h
    obtain ⟨y, hy, hq⟩ := h a (List.mem_cons_self _ _)
    obtain ⟨ys, hys, hqs, hlen⟩ := ih (fun x hx => h x (List.mem_cons_of_mem _ hx))
    refine ⟨y :: ys, ?_, ?_, by simp [hlen]⟩
    · rw [List.mapM_cons, hy, bind_ok, hys, bind_ok]; rfl
    · intro z hz
      rcases List.mem_cons.1 hz with rfl | hz'
      · exact hq
      · exact hqs z hz'

theorem explore_spec (recurse : Board_vec → Piece → Int → Int → Int → Except Fault Possibility)
    (piece : Piece) (beta depth : Int) :
    ∀ (l : List Possibility),
      (∀ poss ∈ l, ∀ a b, ∃ r, recurse poss.board (get_opponent piece) a b (wrap32 (depth + 1))
        = Except.ok r ∧ -INT_MAX ≤ r.value ∧ r.value ≤ INT_MAX) →
      ∀ (alpha : Int) (max_poss : Possibility),
        ∃ res, explore recurse piece beta depth l alpha max_poss = Except.ok res ∧
          (res = max_poss ∨
            (∃ poss ∈ l, res.pos = poss.pos) ∧ -INT_MAX ≤ res.value ∧ res.value ≤ INT_MAX) ∧
          (max_poss.value = INT_MIN → l ≠ [] →
            (∃ poss ∈ l, res.pos = poss.pos) ∧ -INT_MAX ≤ res.value ∧ res.value ≤ INT_MAX) := by
  intro l
  induction l with
  | nil =>
    intro _ alpha max_poss
    exact ⟨max_poss, rfl, Or.inl rfl, fun _ h => absurd rfl h⟩
  | cons poss rest ih =>
    intro hrec alpha max_poss
    obtain ⟨r, hr, hr1, hr2⟩ := hrec poss (List.mem_cons_self _ _) (wrap32 (-alpha)) (wrap32 (-beta))
    obtain ⟨-, hv1, hv2⟩ := wrap32_neg_bounds hr1 hr2
    have ih' := ih (fun p hp => hrec p (List.mem_cons_of_mem _ hp))
    have lift : ∀ res : Possibility,
        ((∃ p ∈ rest, res.pos = p.pos) ∧ -INT_MAX ≤ res.value ∧ res.value ≤ INT_MAX) →
        ((∃ p ∈ poss :: rest, res.pos = p.pos) ∧ -INT_MAX ≤ res.value ∧ res.value ≤ INT_MAX) := by
      rintro res ⟨⟨p, hp, he⟩, hb⟩
      exact ⟨⟨p, List.mem_cons_of_mem _ hp, he⟩, hb⟩
    have here : (∃ p ∈ poss :: rest, ({ poss with value := wrap32 (-1 * r.value) } : Possibility).pos
          = p.pos) ∧
        -INT_MAX ≤ ({ poss with value := wrap32 (-1 * r.value) } : Possibility).value ∧
        ({ poss with value := wrap32 (-1 * r.value) } : Possibility).value ≤ INT_MAX :=
      ⟨⟨poss, List.mem_cons_self _ _, rfl⟩, hv1, hv2⟩
    simp only [explore, hr, bind_ok, pure_eq_ok]
    by_cases hgt : wrap32 (-1 * r.value) > max_poss.value
    · simp only [hgt, if_true]
      by_cases hcut : max alpha (wrap32 (-1 * r.value)) ≥ beta
      · simp only [hcut, if_true]
        exact ⟨_, rfl, Or.inr here, fun _ _ => here⟩
      · simp only [hcut, if_false]
        obtain ⟨res, hres, hor, -⟩ :=
          ih' (max alpha (wrap32 (-1 * r.value))) { poss with value := wrap32 (-1 * r.value) }
        have hfin : (∃ p ∈ poss :: rest, res.pos = p.pos) ∧ -INT_MAX ≤ res.value ∧
            res.value ≤ INT_MAX := by
          rcases hor with h | h
          · rw [h]; exact here
          · exact lift res h
        exact ⟨res, hres, Or.inr hfin, fun _ _ => hfin⟩
    · simp only [hgt, if_false]
      obtain ⟨res, hres, hor, -⟩ := ih' alpha max_poss
      refine ⟨res, hres, ?_, ?_⟩
      · rcases hor with h | h
        · exact Or.inl h
        · exact Or.inr (lift res h)
      · intro hmin _
        exfalso
        rw [hmin] at hgt
        simp only [INT_MAX, INT_MIN] at *
        omega


theorem mem_legal_list {board : Board_vec} {mover : Piece} {pos : Position} :
    pos ∈ legal_list board mover ↔
      pos.in_range ∧ ∃ n, count_move board mover pos = Except.ok n ∧ 0 < n := by
  rw [legal_list, List.mem_filter, mem_all_positions, legal_iff]

theorem play_legal {board : Board_vec} (hwf : board.wf) {mover : Piece}
    (hm : mover ≠ Piece.EMPTY) {pos : Position} (hl : pos ∈ legal_list board mover) :
    ∃ b' n, play board mover pos = Except.ok (b', n) ∧ b'.wf ∧
      count_pieces b' Piece.EMPTY = count_pieces board Piece.EMPTY - 1 := by
  obtain ⟨hin, n, hn, hn0⟩ := mem_legal_list.1 hl
  by_cases he : peek board pos.row pos.col = Piece.EMPTY
  · obtain ⟨b', n', hp, -, hwf', -, -, -, -, -, -, hcnt⟩ := play_spec hwf hm hin he
    refine ⟨b', n', hp, hwf', ?_⟩
    rw [hcnt Piece.EMPTY]
    have h1 : ¬ (Piece.EMPTY = mover) := fun h => hm h.symm
    have h2 : ¬ (Piece.EMPTY = get_opponent mover) := fun h => (opponent_ne hm).2 h.symm
    simp [h1, h2]
  · rw [(play_occupied hwf hm hin he).1] at hn
    cases hn
    omega

theorem candidates_ok {board : Board_vec} (hwf : board.wf) {piece : Piece}
    (hm : piece ≠ Piece.EMPTY) :
    ∃ ps, (legal_list board piece).mapM (fun pos => do
        let played ← play board piece pos
        Except.ok (⟨pos, played.1, 0⟩ : Possibility)) = Except.ok ps ∧
      (∀ poss ∈ ps, good board piece poss) ∧ ps.length = (legal_list board piece).length := by
  apply mapM_ok
  intro pos hpos
  obtain ⟨b', n, hp, hwf', hcnt⟩ := play_legal hwf hm hpos
  exact ⟨⟨pos, b', 0⟩, by rw [hp]; rfl, hwf', hcnt, hpos⟩

theorem ranked_ok {board : Board_vec} {piece : Piece} (hm : piece ≠ Piece.EMPTY)
    (ps : List Possibility) (hps : ∀ poss ∈ ps, good board piece poss) :
    ∃ qs, ps.mapM (fun poss => do
        let value ← count_legal_positions poss.board piece
        Except.ok ({ poss with value := value } : Possibility)) = Except.ok qs ∧
      (∀ poss ∈ qs, good board piece poss) ∧ qs.length = ps.length := by
  apply mapM_ok
  intro poss hposs
  obtain ⟨h1, h2, h3⟩ := hps poss hposs
  refine ⟨{ poss with value := ((all_positions.filter (legal poss.board piece)).length : Int) },
    by rw [count_legal_positions_eq h1 hm]; rfl, h1, h2, h3⟩

theorem sort_by_value_good {board : Board_vec} {piece : Piece} (qs : List Possibility)
    (hqs : ∀ poss ∈ qs, good board piece poss) :
    (∀ poss ∈ sort_by_value qs, good board piece poss) ∧
      (sort_by_value qs).length = qs.length := by
  constructor
  · intro poss h
    exact hqs poss ((List.mem_insertionSort _).1 h)
  · exact List.length_insertionSort _ _

theorem opponent_can_move_of_not_over {board : Board_vec} {piece : Piece}
    (hm : piece ≠ Piece.EMPTY)
    (hover : ¬ (legal_list board Piece.P1 = [] ∧ legal_list board Piece.P2 = []))
    (hnone : legal_list board piece = []) : legal_list board (get_opponent piece) ≠ [] := by
  cases piece with
  | EMPTY => exact absurd rfl hm
  | P1 => intro h; exact hover ⟨hnone, h⟩
  | P2 => intro h; exact hover ⟨h, hnone⟩

theorem search_spec (self : Computer_player) :
    ∀ (budget : Nat) (board : Board_vec) (piece : Piece) (beta alpha depth : Int),
      board.wf → piece ≠ Piece.EMPTY → enough self budget board piece depth →
      ∃ p, search self budget board piece beta alpha depth = Except.ok p ∧
        -INT_MAX ≤ p.value ∧ p.value ≤ INT_MAX ∧
        ((self.search_to_end = false → depth ≠ self.max_depth) →
          legal_list board piece ≠ [] → p.pos ∈ legal_list board piece) := by
  intro budget
  induction budget with
  | zero =>
    intro board piece beta alpha depth hwf hm hen
    exfalso
    have hE := (count_pieces_bounds hwf Piece.EMPTY).1
    unfold enough at hen
    split_ifs at hen <;> simp at hen <;> omega
  | succ budget ih =>
    intro board piece beta alpha depth hwf hm hen
    have hom := (opponent_ne hm).2
    have hgo : game_over board = Except.ok (decide (legal_list board Piece.P1 = [] ∧
        legal_list board Piece.P2 = [])) := game_over_eq hwf
    have hcm : can_move board piece = Except.ok (decide (legal_list board piece ≠ [])) :=
      can_move_eq hwf hm
    have hgl : get_legal_positions board piece = Except.ok (legal_list board piece) :=
      get_legal_positions_eq hwf hm
    obtain ⟨ev, hev, hev1, hev2⟩ := evaluate_ok hwf piece
    -- the cutoff
    have hstop : ∃ stop : Bool, (if self.search_to_end then game_over board
          else Except.ok (decide (depth = self.max_depth))) = Except.ok stop ∧
        (stop = true → (self.search_to_end = true ∧ legal_list board piece = []) ∨
          (self.search_to_end = false ∧ depth = self.max_depth)) ∧
        (stop = false → (self.search_to_end = true ∧
            ¬ (legal_list board Piece.P1 = [] ∧ legal_list board Piece.P2 = [])) ∨
          (self.search_to_end = false ∧ depth ≠ self.max_depth)) := by
      cases hflag : self.search_to_end with
      | true =>
        refine ⟨_, by simp only [if_true]; exact hgo, ?_, ?_⟩
        · intro h
          left
          refine ⟨rfl, ?_⟩
          have h' := of_decide_eq_true h
          cases piece with
          | EMPTY => exact absurd rfl hm
          | P1 => exact h'.1
          | P2 => exact h'.2
        · intro h
          left
          exact ⟨rfl, of_decide_eq_false h⟩
      | false =>
        refine ⟨decide (depth = self.max_depth), by simp, ?_, ?_⟩
        · intro h; right; exact ⟨rfl, of_decide_eq_true h⟩
        · intro h; right; exact ⟨rfl, of_decide_eq_false h⟩
    obtain ⟨stop, hstop_eq, hstop_t, hstop_f⟩ := hstop
    -- the budget left for a recursive call on `b` with the opponent to move
    have hchild : ∀ b : Board_vec, b.wf →
        ((b = board ∧ legal_list board piece = []) ∨
          count_pieces b Piece.EMPTY = count_pieces board Piece.EMPTY - 1) →
        stop = false → enough self budget b (get_opponent piece) (wrap32 (depth + 1)) := by
      intro b hb hcase hs
      have hEb := (count_pieces_bounds hb Piece.EMPTY).1
      unfold enough at hen ⊢
      rcases hstop_f hs with ⟨hflag, hno⟩ | ⟨hflag, hne⟩
      · rw [hflag] at hen ⊢
        simp only [if_true] at hen ⊢
        rcases hcase with ⟨rfl, hnone⟩ | hE
        · have := opponent_can_move_of_not_over hm hno hnone
          rw [if_pos hnone] at hen
          rw [if_neg this]
          push_cast at hen
          omega
        · rw [hE]
          push_cast at hen
          split_ifs at hen ⊢ <;> omega
      · rw [hflag] at hen ⊢
        simp only [Bool.false_eq_true, if_false] at hen ⊢
        have hw : wrap32 (depth + 1) = depth + 1 := by
          simp only [wrap32, INT_MAX] at hen ⊢
          omega
        rw [hw]
        push_cast at hen
        simp only [INT_MAX] at hen ⊢
        omega
    simp only [search, hstop_eq, bind_ok, pure_eq_ok]
    cases hs : stop with
    | true =>
      simp only [if_true, hev, bind_ok]
      refine ⟨_, rfl, hev1, hev2, ?_⟩
      intro h1 h2
      rcases hstop_t hs with ⟨-, hnone⟩ | ⟨hflag, hd⟩
      · exact absurd hnone h2
      · exact absurd hd (h1 hflag)
    | false =>
      simp only [Bool.false_eq_true, if_false, hcm, bind_ok]
      by_cases hnone : legal_list board piece = []
      · -- pass
        obtain ⟨r, hr, hr1, hr2, -⟩ := ih board (get_opponent piece) (wrap32 (-alpha))
          (wrap32 (-beta)) (wrap32 (depth + 1)) hwf hom
          (hchild board hwf (Or.inl ⟨rfl, hnone⟩) hs)
        obtain ⟨-, hv1, hv2⟩ := wrap32_neg_bounds hr1 hr2
        have hdec : decide (legal_list board piece ≠ []) = false := by simp [hnone]
        simp only [hdec, Bool.not_false, if_true, hr, bind_ok]
        exact ⟨_, rfl, hv1, hv2, fun _ h => absurd hnone h⟩
      · -- expansion
        obtain ⟨ps, hps, hgood, hlen⟩ := candidates_ok hwf hm
        obtain ⟨qs, hqs, hqgood, hqlen⟩ := ranked_ok hm ps hgood
        obtain ⟨hsgood, hslen⟩ := sort_by_value_good qs hqgood
        have hfinal : ∃ fs, (if depth ≤ Int.tdiv self.max_depth 2 then
              ps.mapM (fun poss => do
                let value ← count_legal_positions poss.board piece
                Except.ok ({ poss with value := value } : Possibility)) >>=
                  fun valued => Except.ok (sort_by_value valued)
            else Except.ok ps) = Except.ok fs ∧ (∀ poss ∈ fs, good board piece poss) ∧
            fs.length = (legal_list board piece).length := by
          split_ifs
          · refine ⟨sort_by_value qs, ?_, hsgood, by rw [hslen, hqlen, hlen]⟩
            rw [hqs]; rfl
          · exact ⟨ps, rfl, hgood, hlen⟩
        obtain ⟨fs, hfs, hfgood, hflen⟩ := hfinal
        have hfne : fs ≠ [] := by
          intro h
          rw [h] at hflen
          exact hnone (List.length_eq_zero.1 hflen.symm)
        have hrec : ∀ poss ∈ fs, ∀ a b, ∃ r, search self budget poss.board (get_opponent piece)
            a b (wrap32 (depth + 1)) = Except.ok r ∧ -INT_MAX ≤ r.value ∧ r.value ≤ INT_MAX := by
          intro poss hposs a b
          obtain ⟨g1, g2, -⟩ := hfgood poss hposs
          obtain ⟨r, hr, hr1, hr2, -⟩ := ih poss.board (get_opponent piece) a b
            (wrap32 (depth + 1)) g1 hom (hchild poss.board g1 (Or.inr g2) hs)
          exact ⟨r, hr, hr1, hr2⟩
        obtain ⟨res, hres, -, hmain⟩ := explore_spec (search self budget) piece beta depth fs hrec
          alpha (Possibility.of_value INT_MIN)
        obtain ⟨⟨poss, hposs, hpos⟩, hb1, hb2⟩ := hmain rfl hfne
        have hdec : decide (legal_list board piece ≠ []) = true := by simp [hnone]
        simp only [hdec, Bool.not_true, Bool.false_eq_true, if_false, hgl, bind_ok, hps, hfs,
          hres]
        refine ⟨res, rfl, hb1, hb2, fun _ _ => ?_⟩
        rw [hpos]
        exact (hfgood poss hposs).2.2


/-! ## A larger budget does not change a result -/

theorem mapM_mono {α β : Type} (f g : α → Except Fault β)
    (hfg : ∀ x y, f x = Except.ok y → g x = Except.ok y) :
    ∀ (l : List α) (ys : List β), l.mapM f = Except.ok ys → l.mapM g = Except.ok ys := by
  intro l
  induction l with
  | nil => intro ys h; rw [List.mapM_nil] at h ⊢; exact h
  | cons a t ih =>
    intro ys h
    rw [List.mapM_cons] at h ⊢
    cases hfa : f a with
    | error e => rw [hfa] at h; cases h
    | ok y =>
      rw [hfa, bind_ok] at h
      rw [hfg a y hfa, bind_ok]
      cases ht : t.mapM f with
      | error e => rw [ht] at h; cases h
      | ok zs =>
        rw [ht, bind_ok] at h
        rw [ih zs ht, bind_ok]
        exact h

theorem explore_mono
    (r1 r2 : Board_vec → Piece → Int → Int → Int → Except Fault Possibility)
    (h12 : ∀ b p be al d r, r1 b p be al d = Except.ok r → r2 b p be al d = Except.ok r)
    (piece : Piece) (beta depth : Int) :
    ∀ (l : List Possibility) (alpha : Int) (max_poss res : Possibility),
      explore r1 piece beta depth l alpha max_poss = Except.ok res →
      explore r2 piece beta depth l alpha max_poss = Except.ok res := by
  intro l
  induction l with
  | nil => intro alpha max_poss res h; exact h
  | cons poss rest ih =>
    intro alpha max_poss res h
    simp only [explore] at h ⊢
    cases hc : r1 poss.board (get_opponent piece) (wrap32 (-alpha)) (wrap32 (-beta))
        (wrap32 (depth + 1)) with
    | error e => rw [hc] at h; cases h
    | ok child =>
      rw [hc, bind_ok] at h
      rw [h12 _ _ _ _ _ _ hc, bind_ok]
      split_ifs at h ⊢
      · exact h
      · exact ih _ _ _ h
      · exact ih _ _ _ h

theorem search_mono (self : Computer_player) :
    ∀ (n : Nat) (board : Board_vec) (piece : Piece) (beta alpha depth : Int) (r : Possibility),
      search self n board piece beta alpha depth = Except.ok r →
      search self (n + 1) board piece beta alpha depth = Except.ok r := by
  intro n
  induction n with
  | zero => intro board piece beta alpha depth r h; simp [search] at h
  | succ n ih =>
    intro board piece beta alpha depth r h
    rw [search] at h ⊢
    cases hs : (if self.search_to_end then game_over board
        else pure (decide (depth = self.max_depth)) : Except Fault Bool) with
    | error e => rw [hs] at h; cases h
    | ok stop =>
      rw [hs, bind_ok] at h; rw [bind_ok]
      cases stop with
      | true => exact h
      | false =>
        simp only [Bool.false_eq_true, if_false] at h ⊢
        cases hc : can_move board piece with
        | error e => rw [hc] at h; cases h
        | ok c =>
          rw [hc, bind_ok] at h; rw [bind_ok]
          cases c with
          | false =>
            simp only [Bool.not_false, if_true] at h ⊢
            cases hr : search self n board (get_opponent piece) (wrap32 (-alpha)) (wrap32 (-beta))
                (wrap32 (depth + 1)) with
            | error e => rw [hr] at h; cases h
            | ok child =>
              rw [hr, bind_ok] at h
              rw [ih _ _ _ _ _ _ hr, bind_ok]
              exact h
          | true =>
            simp only [Bool.not_true, Bool.false_eq_true, if_false] at h ⊢
            cases hg : get_legal_positions board piece with
            | error e => rw [hg] at h; cases h
            | ok l =>
              rw [hg, bind_ok] at h; rw [bind_ok]
              cases hp : l.mapM (fun pos => do
                  let played ← play board piece pos
                  return (⟨pos, played.1, 0⟩ : Possibility)) with
              | error e => rw [hp] at h; cases h
              | ok ps =>
                rw [hp, bind_ok] at h; rw [bind_ok]
                cases hq : (if depth ≤ Int.tdiv self.max_depth 2 then do
                    let valued ← ps.mapM (fun poss => do
                      let value ← count_legal_positions poss.board piece
                      return ({ poss with value := value } : Possibility))
                    pure (sort_by_value valued)
                  else pure ps : Except Fault (List Possibility)) with
                | error e => rw [hq] at h; cases h
                | ok fs =>
                  rw [hq, bind_ok] at h; rw [bind_ok]
                  exact explore_mono (search self n) (search self (n + 1)) ih piece beta depth fs
                    alpha _ r h

theorem search_mono_add (self : Computer_player) (n k : Nat) (board : Board_vec) (piece : Piece)
    (beta alpha depth : Int) (r : Possibility)
    (h : search self n board piece beta alpha depth = Except.ok r) :
    search self (n + k) board piece beta alpha depth = Except.ok r := by
  induction k with
  | zero => exact h
  | succ k ih => exact search_mono self (n + k) board piece beta alpha depth r ih

theorem negamax_mono (self : Computer_player) :
    ∀ (n : Nat) (board : Board_vec) (piece : Piece) (depth : Int) (v : Int),
      negamax self n board piece depth = Except.ok v →
      negamax self (n + 1) board piece depth = Except.ok v := by
  intro n
  induction n with
  | zero => intro board piece depth v h; simp [negamax] at h
  | succ n ih =>
    intro board piece depth v h
    rw [negamax] at h ⊢
    cases hs : (if self.search_to_end then game_over board
        else pure (decide (depth = self.max_depth)) : Except Fault Bool) with
    | error e => rw [hs] at h; cases h
    | ok stop =>
      rw [hs, bind_ok] at h; rw [bind_ok]
      cases stop with
      | true => exact h
      | false =>
        simp only [Bool.false_eq_true, if_false] at h ⊢
        cases hc : can_move board piece with
        | error e => rw [hc] at h; cases h
        | ok c =>
          rw [hc, bind_ok] at h; rw [bind_ok]
          cases c with
          | false =>
            simp only [Bool.not_false, if_true] at h ⊢
            cases hr : negamax self n board (get_opponent piece) (wrap32 (depth + 1)) with
            | error e => rw [hr] at h; cases h
            | ok child =>
              rw [hr, bind_ok] at h
              rw [ih _ _ _ _ hr, bind_ok]
              exact h
          | true =>
            simp only [Bool.not_true, Bool.false_eq_true, if_false] at h ⊢
            cases hg : get_legal_positions board piece with
            | error e => rw [hg] at h; cases h
            | ok l =>
              rw [hg, bind_ok] at h; rw [bind_ok]
              cases hp : l.mapM (fun pos => do
                  let played ← play board piece pos
                  let child ← negamax self n played.1 (get_opponent piece) (wrap32 (depth + 1))
                  return -child) with
              | error e => rw [hp] at h; cases h
              | ok vs =>
                rw [hp, bind_ok] at h
                have hp' : l.mapM (fun pos => do
                    let played ← play board piece pos
                    let child ← negamax self (n + 1) played.1 (get_opponent piece)
                      (wrap32 (depth + 1))
                    return -child) = Except.ok vs := by
                  refine mapM_mono _ _ ?_ l vs hp
                  intro x y hx
                  cases hpl : play board piece x with
                  | error e => rw [hpl] at hx; cases hx
                  | ok played =>
                    rw [hpl, bind_ok] at hx; rw [bind_ok]
                    cases hch : negamax self n played.1 (get_opponent piece)
                        (wrap32 (depth + 1)) with
                    | error e => rw [hch] at hx; cases hx
                    | ok child =>
                      rw [hch, bind_ok] at hx
                      rw [ih _ _ _ _ hch, bind_ok]
                      exact hx
                rw [hp', bind_ok]
                exact h

theorem negamax_mono_add (self : Computer_player) (n k : Nat) (board : Board_vec) (piece : Piece)
    (depth : Int) (v : Int) (h : negamax self n board piece depth = Except.ok v) :
    negamax self (n + k) board piece depth = Except.ok v := by
  induction k with
  | zero => exact h
  | succ k ih => exact negamax_mono self (n + k) board piece depth v ih


/-! ## Properties of the top-level search -/

theorem root_legal (self : Computer_player) {board : Board_vec} (hwf : board.wf) {piece : Piece}
    (hm : piece ≠ Piece.EMPTY) (hdepth : 2 ≤ self.max_depth) (hint : self.max_depth ≤ INT_MAX)
    (hne : legal_list board piece ≠ []) (budget : Nat)
    (hb : 2 * count_pieces board Piece.EMPTY + 1 + self.max_depth ≤ (budget : Int)) :
    ∃ poss, search self budget board piece INT_MAX INT_MIN 1 = Except.ok poss ∧
      poss.pos ∈ legal_list board piece := by
  have hE := (count_pieces_bounds hwf Piece.EMPTY).1
  have hen : enough self budget board piece 1 := by
    unfold enough
    split_ifs
    · omega
    · refine ⟨by decide, by omega, hint, by omega⟩
  obtain ⟨p, hp, -, -, hl⟩ := search_spec self budget board piece INT_MAX INT_MIN 1 hwf hm hen
  exact ⟨p, hp, hl (fun _ h => by omega) hne⟩

theorem legal_list_ne_nil_of_can_move {board : Board_vec} (hwf : board.wf) {piece : Piece}
    (hm : piece ≠ Piece.EMPTY) (hcan : can_move board piece = Except.ok true) :
    legal_list board piece ≠ [] := by
  rw [can_move_eq hwf hm] at hcan
  exact of_decide_eq_true (Except.ok.inj hcan)

theorem narrow_board_scores :
    can_move narrow_board Piece.P1 = Except.ok true ∧
    (search ⟨Piece.P1, 3, 0, false⟩ 3 narrow_board Piece.P1 INT_MAX INT_MIN 1).map
        (fun poss => (poss.pos, poss.value)) = Except.ok (⟨2, 1⟩, 4) ∧
      negamax ⟨Piece.P1, 3, 0, false⟩ 3 narrow_board Piece.P1 1 = Except.ok (-35) ∧
      (search ⟨Piece.P1, 3, 0, false⟩ 3 narrow_board Piece.P1 INT_MAX (-INT_MAX) 1).map
        (fun poss => (poss.pos, poss.value)) = Except.ok (⟨2, 1⟩, -35) := by
  set_option maxRecDepth 100000 in decide!

theorem map_search_mono_add (self : Computer_player) {β : Type} (f : Possibility → β) (n k : Nat)
    (board : Board_vec) (piece : Piece) (beta alpha depth : Int) (y : β)
    (h : (search self n board piece beta alpha depth).map f = Except.ok y) :
    (search self (n + k) board piece beta alpha depth).map f = Except.ok y := by
  cases hs : search self n board piece beta alpha depth with
  | error e => rw [hs] at h; cases h
  | ok r => rw [search_mono_add self n k board piece beta alpha depth r hs]; rw [hs] at h; exact h

theorem after_three_moves_scores :
    (do
      let b1 ← play reset_board Piece.P1 ⟨2, 3⟩
      let b2 ← play b1.1 Piece.P2 ⟨4, 2⟩
      let b3 ← play b2.1 Piece.P1 ⟨5, 2⟩
      pure (b1.2, b2.2, b3.2, b3.1)) = Except.ok (1, 1, 1, after_three_moves) ∧
    can_move after_three_moves Piece.P2 = Except.ok true ∧
    (search ⟨Piece.P2, 3, 0, false⟩ 3 after_three_moves Piece.P2 INT_MAX INT_MIN 1).map
        (fun poss => (poss.pos, poss.value)) = Except.ok (⟨6, 2⟩, -2) ∧
      negamax ⟨Piece.P2, 3, 0, false⟩ 3 after_three_moves Piece.P2 1 = Except.ok (-4) := by
  set_option maxRecDepth 100000 in decide!

/-- C8 (the code departs from the claim): with maximum depth 3 and the
to-completion flag clear, for every recursion budget of at least 3:
on `after_three_moves`, the position reached from the reset board by the legal
moves `(2, 3)`, `(4, 2)`, `(5, 2)` (one flip each), where P2 can move, the
top-level call `search(board, P2, INT_MAX, INT_MIN, 1)` returns the position
`(6, 2)` with the score -2, while the un-pruned negamax value of the root is -4;
on `narrow_board`, where P1 can move, the top-level call returns the position
`(2, 1)` with the score 4, while the un-pruned negamax value is -35, and started
with `alpha = -INT_MAX`, whose negation does not overflow, the same call
returns the score -35. -/
theorem search_score_differs_from_negamax (k : Nat) :
    ((do
      let b1 ← play reset_board Piece.P1 ⟨2, 3⟩
      let b2 ← play b1.1 Piece.P2 ⟨4, 2⟩
      let b3 ← play b2.1 Piece.P1 ⟨5, 2⟩
      pure (b1.2, b2.2, b3.2, b3.1)) = Except.ok (1, 1, 1, after_three_moves) ∧
    can_move after_three_moves Piece.P2 = Except.ok true ∧
    (search ⟨Piece.P2, 3, 0, false⟩ (3 + k) after_three_moves Piece.P2 INT_MAX INT_MIN 1).map
        (fun poss => (poss.pos, poss.value)) = Except.ok (⟨6, 2⟩, -2) ∧
      negamax ⟨Piece.P2, 3, 0, false⟩ (3 + k) after_three_moves Piece.P2 1 = Except.ok (-4)) ∧
    (can_move narrow_board Piece.P1 = Except.ok true ∧
    (search ⟨Piece.P1, 3, 0, false⟩ (3 + k) narrow_board Piece.P1 INT_MAX INT_MIN 1).map
        (fun poss => (poss.pos, poss.value)) = Except.ok (⟨2, 1⟩, 4) ∧
      negamax ⟨Piece.P1, 3, 0, false⟩ (3 + k) narrow_board Piece.P1 1 = Except.ok (-35) ∧
      (search ⟨Piece.P1, 3, 0, false⟩ (3 + k) narrow_board Piece.P1 INT_MAX (-INT_MAX) 1).map
        (fun poss => (poss.pos, poss.value)) = Except.ok (⟨2, 1⟩, -35)) := by
  obtain ⟨g1, g2, g3, g4⟩ := after_three_moves_scores
  obtain ⟨h1, h2, h3, h4⟩ := narrow_board_scores
  exact ⟨⟨g1, g2, map_search_mono_add _ _ 3 k _ _ _ _ _ _ g3, negamax_mono_add _ 3 k _ _ _ _ g4⟩,
    h1, map_search_mono_add _ _ 3 k _ _ _ _ _ _ h2, negamax_mono_add _ 3 k _ _ _ _ h3,
    map_search_mono_add _ _ 3 k _ _ _ _ _ _ h4⟩

theorem root_legal_stable (self : Computer_player) {board : Board_vec} (hwf : board.wf)
    {piece : Piece} (hm : piece ≠ Piece.EMPTY) (hdepth : 2 ≤ self.max_depth)
    (hint : self.max_depth ≤ INT_MAX) (hne : legal_list board piece ≠ []) :
    ∃ poss, poss.pos ∈ legal_list board piece ∧ ∀ budget : Nat,
      (2 * count_pieces board Piece.EMPTY + 1 + self.max_depth).toNat ≤ budget →
      search self budget board piece INT_MAX INT_MIN 1 = Except.ok poss := by
  obtain ⟨poss, hp, hl⟩ := root_legal self hwf hm hdepth hint hne
    (2 * count_pieces board Piece.EMPTY + 1 + self.max_depth).toNat (by omega)
  refine ⟨poss, hl, fun budget hb => ?_⟩
  obtain ⟨k, rfl⟩ : ∃ k, budget
      = (2 * count_pieces board Piece.EMPTY + 1 + self.max_depth).toNat + k :=
    ⟨budget - (2 * count_pieces board Piece.EMPTY + 1 + self.max_depth).toNat, by omega⟩
  exact search_mono_add self _ k board piece _ _ _ poss hp

/-- C9: on an 8x8 board on which the mover can move, with any end-game
threshold, either value of the to-completion flag and a maximum depth (an
`int`) of at least 2, the top-level search returns, for every sufficiently
large recursion budget, one and the same result, whose position is in range
and has `count_move > 0`, and `Computer_player::move` returns the text of such
a position. -/
theorem choose_move_is_legal (self : Computer_player) (board : Board_vec) (hwf : board.wf)
    (hm : self.piece = Piece.P1 ∨ self.piece = Piece.P2) (hdepth : 2 ≤ self.max_depth)
    (hint : self.max_depth ≤ INT_MAX) (hcan : can_move board self.piece = Except.ok true) :
    ∃ (N : Nat) (poss : Possibility) (pos : Position),
      (∀ budget : Nat, N ≤ budget →
        search self budget board self.piece INT_MAX INT_MIN 1 = Except.ok poss) ∧
      poss.pos.in_range ∧
      (∃ n, count_move board self.piece poss.pos = Except.ok n ∧ 0 < n) ∧
      (∀ budget : Nat, N ≤ budget → self.move board budget = Except.ok (to_string pos)) ∧
      pos.in_range ∧ (∃ n, count_move board self.piece pos = Except.ok n ∧ 0 < n) := by
  have hm' : self.piece ≠ Piece.EMPTY := by rcases hm with h | h <;> simp [h]
  have hne := legal_list_ne_nil_of_can_move hwf hm' hcan
  obtain ⟨poss, hl, hp⟩ := root_legal_stable self hwf hm' hdepth hint hne
  obtain ⟨poss1, hl1, hp1⟩ :=
    root_legal_stable { self with search_to_end := true } hwf hm' hdepth hint hne
  obtain ⟨hin, hlegal⟩ := mem_legal_list.1 hl
  by_cases hend : count_pieces board Piece.EMPTY ≤ self.end_game_depth
  · obtain ⟨hin1, hlegal1⟩ := mem_legal_list.1 hl1
    refine ⟨_, poss, poss1.pos, hp, hin, hlegal, fun budget hb => ?_, hin1, hlegal1⟩
    simp only [Computer_player.move, hcan, bind_ok, Bool.not_true, Bool.false_eq_true, if_false,
      hend, if_true]
    rw [hp1 budget hb]; rfl
  · refine ⟨_, poss, poss.pos, hp, hin, hlegal, fun budget hb => ?_, hin, hlegal⟩
    simp only [Computer_player.move, hcan, bind_ok, Bool.not_true, Bool.false_eq_true, if_false,
      hend]
    rw [hp budget hb]; rfl

theorem choose_move_is_legal_witness :
    ∃ (N : Nat) (poss : Possibility) (pos : Position),
      (∀ budget : Nat, N ≤ budget →
        search ⟨Piece.P1, 7, 11, false⟩ budget reset_board Piece.P1 INT_MAX INT_MIN 1
          = Except.ok poss) ∧
      poss.pos.in_range ∧
      (∃ n, count_move reset_board Piece.P1 poss.pos = Except.ok n ∧ 0 < n) ∧
      (∀ budget : Nat, N ≤ budget →
        Computer_player.move ⟨Piece.P1, 7, 11, false⟩ reset_board budget
          = Except.ok (to_string pos)) ∧
      pos.in_range ∧ (∃ n, count_move reset_board Piece.P1 pos = Except.ok n ∧ 0 < n) :=
  choose_move_is_legal ⟨Piece.P1, 7, 11, false⟩ reset_board (by decide) (by decide) (by decide)
    (by decide) (by decide)

/-- C10 (as stated, refuted): with maximum depth 1 and the to-completion flag
clear, on `narrow_board`, where P1 has the single legal position `(2, 1)`, the
top-level search started at ply 1 returns the default position `(255, 255)`. -/
theorem depth_one_search_returns_no_position :
    get_legal_positions narrow_board Piece.P1 = Except.ok [⟨2, 1⟩] ∧
      (search ⟨Piece.P1, 1, 0, false⟩ 1 narrow_board Piece.P1 INT_MAX INT_MIN 1).map
        (fun poss => poss.pos) = Except.ok ⟨255, 255⟩ ∧
      (search ⟨Piece.P1, 1, 0, false⟩ 2 narrow_board Piece.P1 INT_MAX INT_MIN 1).map
        (fun poss => poss.pos) = Except.ok ⟨255, 255⟩ := by
  set_option maxRecDepth 100000 in decide!

/-- C10 (amended): with the to-completion flag clear, on an 8x8 board on which
the mover has exactly one legal position, the top-level search started at ply 1
returns, for every sufficiently large budget, one and the same result whose
position is that position, when the maximum depth (an `int`) is at least 2;
when the maximum depth is 1 it returns the default position `(255, 255)` with
the static evaluation of the board as its value. -/
theorem single_move_search (self : Computer_player) (board : Board_vec) (piece : Piece)
    (pos : Position) (hwf : board.wf) (hm : piece = Piece.P1 ∨ piece = Piece.P2)
    (hflag : self.search_to_end = false)
    (hone : get_legal_positions board piece = Except.ok [pos]) :
    (2 ≤ self.max_depth → self.max_depth ≤ INT_MAX → ∃ (N : Nat) (poss : Possibility),
      poss.pos = pos ∧ ∀ budget : Nat, N ≤ budget →
        search self budget board piece INT_MAX INT_MIN 1 = Except.ok poss) ∧
    (self.max_depth = 1 → ∀ budget : Nat, 1 ≤ budget →
      ∃ v, evaluate board piece = Except.ok v ∧
        search self budget board piece INT_MAX INT_MIN 1
          = Except.ok ⟨Position.none, [], v⟩) := by
  have hm' : piece ≠ Piece.EMPTY := by rcases hm with h | h <;> simp [h]
  have hl : legal_list board piece = [pos] := by
    rw [get_legal_positions_eq hwf hm'] at hone
    exact Except.ok.inj hone
  constructor
  · intro hdepth hint
    obtain ⟨poss, hmem, hp⟩ := root_legal_stable self hwf hm' hdepth hint (by rw [hl]; simp)
    rw [hl] at hmem
    exact ⟨_, poss, List.mem_singleton.1 hmem, hp⟩
  · intro hdepth budget hbud
    obtain ⟨v, hv, -⟩ := evaluate_ok hwf piece
    obtain ⟨k, rfl⟩ : ∃ k, budget = k + 1 := ⟨budget - 1, by omega⟩
    refine ⟨v, hv, ?_⟩
    simp [search, hflag, hdepth, hv, Possibility.of_value]

theorem single_move_search_witness :
    (∃ (N : Nat) (poss : Possibility), poss.pos = ⟨2, 1⟩ ∧ ∀ budget : Nat, N ≤ budget →
      search ⟨Piece.P1, 2, 0, false⟩ budget narrow_board Piece.P1 INT_MAX INT_MIN 1
        = Except.ok poss) ∧
    (∀ budget : Nat, 1 ≤ budget →
      ∃ v, evaluate narrow_board Piece.P1 = Except.ok v ∧
        search ⟨Piece.P1, 1, 0, false⟩ budget narrow_board Piece.P1 INT_MAX INT_MIN 1
          = Except.ok ⟨Position.none, [], v⟩) :=
  ⟨(single_move_search ⟨Piece.P1, 2, 0, false⟩ narrow_board Piece.P1 ⟨2, 1⟩ (by decide)
      (by decide) rfl (by decide)).1 (by decide) (by decide),
    (single_move_search ⟨Piece.P1, 1, 0, false⟩ narrow_board Piece.P1 ⟨2, 1⟩ (by decide)
      (by decide) rfl (by decide)).2 rfl⟩

theorem search_returns_stable (self : Computer_player) {board : Board_vec} (hwf : board.wf)
    {piece : Piece} (hm : piece ≠ Piece.EMPTY) (beta alpha depth : Int) (N : Nat)
    (hen : enough self N board piece depth) :
    ∃ p, -INT_MAX ≤ p.value ∧ p.value ≤ INT_MAX ∧
      ((self.search_to_end = false → depth ≠ self.max_depth) →
        legal_list board piece ≠ [] → p.pos ∈ legal_list board piece) ∧
      ∀ budget : Nat, N ≤ budget →
        search self budget board piece beta alpha depth = Except.ok p := by
  obtain ⟨p, hp, h1, h2, h3⟩ := search_spec self N board piece beta alpha depth hwf hm hen
  refine ⟨p, h1, h2, h3, fun budget hb => ?_⟩
  obtain ⟨k, rfl⟩ : ∃ k, budget = N + k := ⟨budget - N, by omega⟩
  exact search_mono_add self N k board piece beta alpha depth p hp

theorem to_string_length (pos : Position) : (to_string pos).length = 2 := rfl


theorem evaluate_terminal {board : Board_vec} (piece : Piece)
    (hover : game_over board = Except.ok true) :
    evaluate board piece =
      if get_winner board = Piece.EMPTY then Except.ok (-536870912)
      else if get_winner board = piece then
        Except.ok (1073741823 + (count_pieces board piece - count_pieces board (get_opponent piece)))
      else if get_winner board = get_opponent piece then
        Except.ok (-1073741824
          + (count_pieces board piece - count_pieces board (get_opponent piece)))
      else evaluate_weights board piece := by
  have d1 : Int.tdiv INT_MIN 4 = -536870912 := by decide
  have d2 : Int.tdiv INT_MAX 2 = 1073741823 := by decide
  have d3 : Int.tdiv INT_MIN 2 = -1073741824 := by decide
  simp only [evaluate, hover, bind_ok, pure_eq_ok, d1, d2, d3, if_true]

theorem get_winner_cases (board : Board_vec) :
    (count_pieces board Piece.P1 > count_pieces board Piece.P2 ∧ get_winner board = Piece.P1) ∨
    (count_pieces board Piece.P1 < count_pieces board Piece.P2 ∧ get_winner board = Piece.P2) ∨
    (count_pieces board Piece.P1 = count_pieces board Piece.P2 ∧
      get_winner board = Piece.EMPTY) := by
  unfold get_winner
  simp only
  split_ifs with h1 h2
  · exact Or.inl ⟨h1, rfl⟩
  · exact Or.inr (Or.inl ⟨h2, rfl⟩)
  · exact Or.inr (Or.inr ⟨by omega, rfl⟩)

theorem evaluate_win {board : Board_vec} {p : Piece}
    (hm : p = Piece.P1 ∨ p = Piece.P2) (hover : game_over board = Except.ok true)
    (hwin : count_pieces board p > count_pieces board (get_opponent p)) :
    evaluate board p = Except.ok
      (1073741823 + (count_pieces board p - count_pieces board (get_opponent p))) := by
  rw [evaluate_terminal p hover]
  rcases hm with h | h <;> subst h <;> simp only [get_opponent] at hwin ⊢ <;>
    rcases get_winner_cases board with ⟨h1, h2⟩ | ⟨h1, h2⟩ | ⟨h1, h2⟩ <;>
    first
      | omega
      | simp [h2]

theorem evaluate_loss {board : Board_vec} {p : Piece}
    (hm : p = Piece.P1 ∨ p = Piece.P2) (hover : game_over board = Except.ok true)
    (hloss : count_pieces board p < count_pieces board (get_opponent p)) :
    evaluate board p = Except.ok
      (-1073741824 + (count_pieces board p - count_pieces board (get_opponent p))) := by
  rw [evaluate_terminal p hover]
  rcases hm with h | h <;> subst h <;> simp only [get_opponent] at hloss ⊢ <;>
    rcases get_winner_cases board with ⟨h1, h2⟩ | ⟨h1, h2⟩ | ⟨h1, h2⟩ <;>
    first
      | omega
      | simp [h2]

theorem evaluate_tie {board : Board_vec} (p : Piece)
    (hover : game_over board = Except.ok true)
    (htie : count_pieces board Piece.P1 = count_pieces board Piece.P2) :
    evaluate board p = Except.ok (-536870912) := by
  rw [evaluate_terminal p hover]
  rcases get_winner_cases board with ⟨h1, h2⟩ | ⟨h1, h2⟩ | ⟨h1, h2⟩
  · omega
  · omega
  · simp [h2]

theorem full_board_facts :
    full_board.wf ∧ game_over full_board = Except.ok true ∧
      count_pieces full_board Piece.P1 = 64 ∧ count_pieces full_board Piece.P2 = 0 ∧
      evaluate full_board Piece.P1 = Except.ok (1073741823 + 64) ∧
      evaluate full_board Piece.P2 = Except.ok (-1073741824 - 64) := by
  set_option maxRecDepth 100000 in decide!

theorem tied_board_facts :
    tied_board.wf ∧ game_over tied_board = Except.ok true ∧
      count_pieces tied_board Piece.P1 = count_pieces tied_board Piece.P2 ∧
      evaluate tied_board Piece.P1 = Except.ok (-536870912) ∧
      evaluate tied_board Piece.P2 = Except.ok (-536870912) := by
  set_option maxRecDepth 100000 in decide!

theorem won_board_facts :
    won_board.wf ∧ game_over won_board = Except.ok true ∧
      count_pieces won_board Piece.P1 = 56 ∧ count_pieces won_board Piece.P2 = 8 := by
  set_option maxRecDepth 100000 in decide!

/-- C12: on a game-over board and for a perspective `p` in P1, P2, `evaluate`
returns `INT_MAX / 2` plus the margin `count_pieces(p) - count_pieces(opponent)`
when `p` has the strict majority and `INT_MIN / 2` plus the margin when the
opponent has it; hence between two game-over boards won by `p`, and between two
lost by `p`, the larger margin gets the strictly larger score; and on the board
with all 64 cells owned by P1 the score for P1 is `INT_MAX / 2 + 64`. -/
theorem evaluate_terminal_margin (b1 b2 : Board_vec) (p : Piece)
    (hm : p = Piece.P1 ∨ p = Piece.P2) (h1 : game_over b1 = Except.ok true)
    (h2 : game_over b2 = Except.ok true) :
    (count_pieces b1 p > count_pieces b1 (get_opponent p) →
      evaluate b1 p = Except.ok
        (Int.tdiv INT_MAX 2 + (count_pieces b1 p - count_pieces b1 (get_opponent p)))) ∧
    (count_pieces b1 p < count_pieces b1 (get_opponent p) →
      evaluate b1 p = Except.ok
        (Int.tdiv INT_MIN 2 + (count_pieces b1 p - count_pieces b1 (get_opponent p)))) ∧
    (((count_pieces b1 p > count_pieces b1 (get_opponent p) ∧
          count_pieces b2 p > count_pieces b2 (get_opponent p)) ∨
        (count_pieces b1 p < count_pieces b1 (get_opponent p) ∧
          count_pieces b2 p < count_pieces b2 (get_opponent p))) →
      count_pieces b1 p - count_pieces b1 (get_opponent p)
        < count_pieces b2 p - count_pieces b2 (get_opponent p) →
      ∃ v1 v2, evaluate b1 p = Except.ok v1 ∧ evaluate b2 p = Except.ok v2 ∧ v1 < v2) ∧
    evaluate full_board Piece.P1 = Except.ok (Int.tdiv INT_MAX 2 + 64) := by
  have d2 : Int.tdiv INT_MAX 2 = 1073741823 := by decide
  have d3 : Int.tdiv INT_MIN 2 = -1073741824 := by decide
  rw [d2, d3]
  refine ⟨fun h => evaluate_win hm h1 h, fun h => evaluate_loss hm h1 h, ?_,
    full_board_facts.2.2.2.2.1⟩
  rintro (⟨w1, w2⟩ | ⟨l1, l2⟩) hlt
  · exact ⟨_, _, evaluate_win hm h1 w1, evaluate_win hm h2 w2, by omega⟩
  · exact ⟨_, _, evaluate_loss hm h1 l1, evaluate_loss hm h2 l2, by omega⟩

theorem evaluate_terminal_margin_witness :
    evaluate won_board Piece.P1 = Except.ok
        (Int.tdiv INT_MAX 2
          + (count_pieces won_board Piece.P1 - count_pieces won_board (get_opponent Piece.P1))) ∧
      (∃ v1 v2, evaluate won_board Piece.P1 = Except.ok v1 ∧
        evaluate full_board Piece.P1 = Except.ok v2 ∧ v1 < v2) ∧
      evaluate full_board Piece.P1 = Except.ok (Int.tdiv INT_MAX 2 + 64) :=
  ⟨(evaluate_terminal_margin won_board full_board Piece.P1 (by decide) won_board_facts.2.1
      full_board_facts.2.1).1 (by decide),
    (evaluate_terminal_margin won_board full_board Piece.P1 (by decide) won_board_facts.2.1
      full_board_facts.2.1).2.2.1 (by decide) (by decide),
    (evaluate_terminal_margin won_board full_board Piece.P1 (by decide) won_board_facts.2.1
      full_board_facts.2.1).2.2.2⟩

/-- C13 (as stated, refuted): the board with all 64 cells owned by P1 is game
over, the two owners' counts differ, and `evaluate` returns 1073741887 for P1
and -1073741888 for P2, which is not the negation of the former. -/
theorem terminal_scores_not_antisymmetric :
    game_over full_board = Except.ok true ∧
      count_pieces full_board Piece.P1 ≠ count_pieces full_board Piece.P2 ∧
      evaluate full_board Piece.P1 = Except.ok 1073741887 ∧
      evaluate full_board Piece.P2 = Except.ok (-1073741888) ∧
      ¬ ∃ v1 v2, evaluate full_board Piece.P1 = Except.ok v1 ∧
        evaluate full_board Piece.P2 = Except.ok v2 ∧ v1 = -v2 := by
  obtain ⟨-, h1, h2, h3, h4, h5⟩ := full_board_facts
  refine ⟨h1, by rw [h2, h3]; decide, h4, h5, ?_⟩
  rintro ⟨v1, v2, e1, e2, e3⟩
  rw [h4] at e1
  rw [h5] at e2
  have := Except.ok.inj e1
  have := Except.ok.inj e2
  omega

/-- C13 (amended): on a game-over board whose two owners do not have equal
piece counts, `evaluate` returns for both perspectives and
`evaluate(board, P1) == -evaluate(board, P2) - 1`. -/
theorem terminal_scores_sum (board : Board_vec) (hover : game_over board = Except.ok true)
    (hne : count_pieces board Piece.P1 ≠ count_pieces board Piece.P2) :
    ∃ v1 v2, evaluate board Piece.P1 = Except.ok v1 ∧ evaluate board Piece.P2 = Except.ok v2 ∧
      v1 = -v2 - 1 := by
  rcases lt_or_gt_of_ne hne with h | h
  · exact ⟨_, _, evaluate_loss (Or.inl rfl) hover h, evaluate_win (Or.inr rfl) hover h,
      by simp only [get_opponent]; omega⟩
  · exact ⟨_, _, evaluate_win (Or.inl rfl) hover h, evaluate_loss (Or.inr rfl) hover h,
      by simp only [get_opponent]; omega⟩

theorem terminal_scores_sum_witness :
    ∃ v1 v2, evaluate won_board Piece.P1 = Except.ok v1 ∧
      evaluate won_board Piece.P2 = Except.ok v2 ∧ v1 = -v2 - 1 :=
  terminal_scores_sum won_board won_board_facts.2.1 (by decide)

/-- C14: on a game-over board on which P1 and P2 have equal piece counts,
`evaluate` returns the same fixed value `INT_MIN / 4`, that is -536870912, for
perspective P1 and for perspective P2. -/
theorem evaluate_tie_sentinel (board : Board_vec) (hover : game_over board = Except.ok true)
    (htie : count_pieces board Piece.P1 = count_pieces board Piece.P2) :
    evaluate board Piece.P1 = Except.ok (Int.tdiv INT_MIN 4) ∧
      evaluate board Piece.P2 = Except.ok (Int.tdiv INT_MIN 4) ∧
      Int.tdiv INT_MIN 4 = -536870912 := by
  have d1 : Int.tdiv INT_MIN 4 = -536870912 := by decide
  rw [d1]
  exact ⟨evaluate_tie _ hover htie, evaluate_tie _ hover htie, rfl⟩

theorem evaluate_tie_sentinel_witness :
    evaluate tied_board Piece.P1 = Except.ok (Int.tdiv INT_MIN 4) ∧
      evaluate tied_board Piece.P2 = Except.ok (Int.tdiv INT_MIN 4) ∧
      Int.tdiv INT_MIN 4 = -536870912 :=
  evaluate_tie_sentinel tied_board tied_board_facts.2.1 tied_board_facts.2.2.1

/-- C17: `get_winner` returns P1 if and only if `count_pieces(P1)` exceeds
`count_pieces(P2)`, P2 if and only if `count_pieces(P2)` exceeds
`count_pieces(P1)`, and EMPTY if and only if the two counts are equal. -/
theorem get_winner_iff (board : Board_vec) :
    (get_winner board = Piece.P1 ↔ count_pieces board Piece.P1 > count_pieces board Piece.P2) ∧
    (get_winner board = Piece.P2 ↔ count_pieces board Piece.P2 > count_pieces board Piece.P1) ∧
    (get_winner board = Piece.EMPTY ↔
      count_pieces board Piece.P1 = count_pieces board Piece.P2) := by
  rcases get_winner_cases board with ⟨h1, h2⟩ | ⟨h1, h2⟩ | ⟨h1, h2⟩ <;> rw [h2] <;>
    refine ⟨?_, ?_, ?_⟩ <;> constructor <;> intro h <;>
    first
      | omega
      | rfl
      | exact h1
      | (cases h)


theorem weight_at_eq {wr wc : Nat} (h1 : wr < 4) (h2 : wc < 4) :
    weight_at wr wc = Except.ok ((WEIGHTS.getD wr []).getD wc 0) := by
  interval_cases wr <;> interval_cases wc <;> rfl

theorem weigh_cell_eq {board : Board_vec} (hwf : board.wf) (piece : Piece) (acc : Int × Int)
    {p : Position} (hin : p.in_range) :
    weigh_cell board piece acc p = Except.ok
      (acc.1 + (if peek board p.row p.col = piece then cell_weight board p.row p.col else 0),
       acc.2 + (if peek board p.row p.col = get_opponent piece then
         cell_weight board p.row p.col else 0)) := by
  obtain ⟨hr, hc⟩ := hin
  have hwr : (if p.row < 4 then p.row else 7 - p.row) < 4 := by split_ifs <;> omega
  have hwc : (if p.col < 4 then p.col else 7 - p.col) < 4 := by split_ifs <;> omega
  have mr : min p.row (7 - p.row) = if p.row < 4 then p.row else 7 - p.row := by
    split_ifs <;> omega
  have mc : min p.col (7 - p.col) = if p.col < 4 then p.col else 7 - p.col := by
    split_ifs <;> omega
  have k00 := @cell_of_wf board hwf 0 0 (by norm_num) (by norm_num)
  have k07 := @cell_of_wf board hwf 0 7 (by norm_num) (by norm_num)
  have k70 := @cell_of_wf board hwf 7 0 (by norm_num) (by norm_num)
  have k77 := @cell_of_wf board hwf 7 7 (by norm_num) (by norm_num)
  simp only [weigh_cell, weight_at_eq hwr hwc, k00, k07, k70, k77, cell_of_wf hwf hr hc,
    bind_ok, pure_eq_ok, cell_weight, quadrant_corner, mr, mc]
  by_cases h1 : p.row < 4 <;> by_cases h2 : p.col < 4 <;>
    simp [h1, h2, bind_ok, pure_eq_ok] <;>
    split_ifs <;> simp_all

theorem weigh_fold_eq {board : Board_vec} (hwf : board.wf) (piece : Piece) :
    ∀ (ps : List Position), (∀ p ∈ ps, p.in_range) → ∀ acc : Int × Int,
      ps.foldlM (weigh_cell board piece) acc = Except.ok
        (acc.1 + ((ps.filter (fun p => decide (peek board p.row p.col = piece))).map
            (fun p => cell_weight board p.row p.col)).sum,
         acc.2 + ((ps.filter (fun p => decide (peek board p.row p.col = get_opponent piece))).map
            (fun p => cell_weight board p.row p.col)).sum) := by
  intro ps
  induction ps with
  | nil => intro _ acc; simp [pure_eq_ok]
  | cons p ps ih =>
    intro hps acc
    rw [List.foldlM_cons, weigh_cell_eq hwf piece acc (hps p (List.mem_cons_self _ _)), bind_ok,
      ih (fun q hq => hps q (List.mem_cons_of_mem _ hq))]
    simp only [List.filter_cons]
    congr 2 <;> split_ifs <;> simp_all <;> omega

theorem evaluate_weights_eq {board : Board_vec} (hwf : board.wf) (piece : Piece) :
    evaluate_weights board piece
      = Except.ok (weighted_sum board piece - weighted_sum board (get_opponent piece)) := by
  simp only [evaluate_weights,
    weigh_fold_eq hwf piece all_positions (fun p hp => (mem_all_positions p).1 hp) (0, 0),
    bind_ok, pure_eq_ok, weighted_sum, zero_add]

/-- C15: on an 8x8 board that is not game over and for a perspective `p` in
P1, P2, `evaluate` returns the sum of `w(row, col)` over the cells owned by `p`
minus the sum over the cells owned by the opponent, `w` being the table entry
`WEIGHTS[min(row, 7-row)][min(col, 7-col)]`, raised to at least 1 when the
corner cell of the quadrant is owned. -/
theorem evaluate_is_weighted_difference (board : Board_vec) (hwf : board.wf) (p : Piece)
    (hover : game_over board = Except.ok false) :
    evaluate board p
      = Except.ok (weighted_sum board p - weighted_sum board (get_opponent p)) := by
  simp only [evaluate, hover, bind_ok, evaluate_weights_eq hwf p]
  rfl

theorem evaluate_is_weighted_difference_witness :
    evaluate reset_board Piece.P1
      = Except.ok (weighted_sum reset_board Piece.P1
          - weighted_sum reset_board (get_opponent Piece.P1)) :=
  evaluate_is_weighted_difference reset_board (by decide) Piece.P1
    (by set_option maxRecDepth 100000 in decide!)


theorem reset_eq {board : Board_vec} (hwf : board.wf) : reset board = Except.ok reset_board := by
  have h : board.map (fun row => row.map (fun _ => Piece.EMPTY))
      = List.replicate 8 (List.replicate 8 Piece.EMPTY) := by
    rw [List.eq_replicate_iff]
    refine ⟨by simp [hwf.1], ?_⟩
    intro b hb
    obtain ⟨row, hrow, rfl⟩ := List.mem_map.1 hb
    rw [List.eq_replicate_iff]
    exact ⟨by simp [hwf.2 row hrow], by simp⟩
  simp only [reset, h]
  decide

theorem reset_board_cells :
    ∀ row < 8, ∀ col < 8, cell reset_board row col = Except.ok
      (if (row = 3 ∧ col = 4) ∨ (row = 4 ∧ col = 3) then Piece.P1
        else if (row = 3 ∧ col = 3) ∨ (row = 4 ∧ col = 4) then Piece.P2 else Piece.EMPTY) := by
  decide

theorem reset_board_moves :
    get_legal_positions reset_board Piece.P1 = Except.ok [⟨2, 3⟩, ⟨3, 2⟩, ⟨4, 5⟩, ⟨5, 4⟩] ∧
      count_move reset_board Piece.P1 ⟨2, 3⟩ = Except.ok 1 ∧
      count_move reset_board Piece.P1 ⟨3, 2⟩ = Except.ok 1 ∧
      count_move reset_board Piece.P1 ⟨4, 5⟩ = Except.ok 1 ∧
      count_move reset_board Piece.P1 ⟨5, 4⟩ = Except.ok 1 := by
  set_option maxRecDepth 100000 in decide!

/-- C16: `Board::reset` leaves, on every 8x8 board, the board with P1 at (3,4)
and (4,3), P2 at (3,3) and (4,4) and every other cell Empty; on it
`get_legal_positions` for P1 returns exactly (2,3), (3,2), (4,5), (5,4), and
`count_move` for P1 returns 1 at each of them. -/
theorem reset_opening_moves (board : Board_vec) (hwf : board.wf) :
    ∃ start, reset board = Except.ok start ∧
      (∀ row < 8, ∀ col < 8, cell start row col = Except.ok
        (if (row = 3 ∧ col = 4) ∨ (row = 4 ∧ col = 3) then Piece.P1
          else if (row = 3 ∧ col = 3) ∨ (row = 4 ∧ col = 4) then Piece.P2 else Piece.EMPTY)) ∧
      get_legal_positions start Piece.P1 = Except.ok [⟨2, 3⟩, ⟨3, 2⟩, ⟨4, 5⟩, ⟨5, 4⟩] ∧
      count_move start Piece.P1 ⟨2, 3⟩ = Except.ok 1 ∧
      count_move start Piece.P1 ⟨3, 2⟩ = Except.ok 1 ∧
      count_move start Piece.P1 ⟨4, 5⟩ = Except.ok 1 ∧
      count_move start Piece.P1 ⟨5, 4⟩ = Except.ok 1 :=
  ⟨reset_board, reset_eq hwf, reset_board_cells, reset_board_moves⟩

theorem reset_opening_moves_witness :
    ∃ start, reset tied_board = Except.ok start ∧
      (∀ row < 8, ∀ col < 8, cell start row col = Except.ok
        (if (row = 3 ∧ col = 4) ∨ (row = 4 ∧ col = 3) then Piece.P1
          else if (row = 3 ∧ col = 3) ∨ (row = 4 ∧ col = 4) then Piece.P2 else Piece.EMPTY)) ∧
      get_legal_positions start Piece.P1 = Except.ok [⟨2, 3⟩, ⟨3, 2⟩, ⟨4, 5⟩, ⟨5, 4⟩] ∧
      count_move start Piece.P1 ⟨2, 3⟩ = Except.ok 1 ∧
      count_move start Piece.P1 ⟨3, 2⟩ = Except.ok 1 ∧
      count_move start Piece.P1 ⟨4, 5⟩ = Except.ok 1 ∧
      count_move start Piece.P1 ⟨5, 4⟩ = Except.ok 1 :=
  reset_opening_moves tied_board (by decide)

theorem flip_line_in_place_settle (piece : Piece) (offset : Int × Int) :
    ∀ (n : Nat) (board : Board_vec) (pos : Position),
      flip_line n board piece pos offset = settle (flip_line_in_place n board piece pos offset) := by
  intro n
  induction n with
  | zero => intro board pos; rfl
  | succ n ih =>
    intro board pos
    simp only [flip_line, flip_line_in_place]
    by_cases hout : (pos.shift offset).row > 7 ∨ (pos.shift offset).col > 7
    · simp only [if_pos hout]; rfl
    · simp only [if_neg hout]
      cases hc : cell board (pos.shift offset).row (pos.shift offset).col with
      | error e => rfl
      | ok here =>
        simp only [bind_ok]
        by_cases h1 : here = Piece.EMPTY
        · simp only [if_pos h1]; rfl
        · simp only [if_neg h1]
          by_cases h2 : here = piece
          · simp only [if_pos h2]; rfl
          · simp only [if_neg h2]
            rw [ih board (pos.shift offset)]
            rcases hrec : flip_line_in_place n board piece (pos.shift offset) offset with ⟨b1, r⟩
            cases r with
            | error e => rfl
            | ok v =>
              simp only [settle, bind_ok]
              by_cases h3 : v = -1
              · simp only [if_pos h3]; rfl
              · simp only [if_neg h3]
                cases hs : set_cell b1 (pos.shift offset).row (pos.shift offset).col piece with
                | error e => rfl
                | ok b2 => rfl

theorem play_loop_in_place_settle (piece : Piece) (pos : Position) :
    ∀ (ds : List (Int × Int)) (board : Board_vec) (total : Int),
      ds.foldlM (play_step piece pos) (board, total)
        = settle (play_loop_in_place piece pos ds board total) := by
  intro ds
  induction ds with
  | nil => intro board total; rfl
  | cons d ds ih =>
    intro board total
    rw [List.foldlM_cons]
    simp only [play_step, play_loop_in_place, flip_line_in_place_settle]
    rcases hrec : flip_line_in_place LINE_BUDGET board piece pos d with ⟨b1, r⟩
    cases r with
    | error e => rfl
    | ok v =>
      simp only [settle, bind_ok]
      by_cases h : v > 0
      · simp only [if_pos h, pure_eq_ok, bind_ok]; exact ih b1 _
      · simp only [if_neg h, pure_eq_ok, bind_ok]; exact ih b1 _

/-- Dropping the board at a fault, the in-place transition is `play`. -/
theorem play_in_place_settle (board : Board_vec) (piece : Piece) (pos : Position) :
    play board piece pos = settle (play_in_place board piece pos) := by
  simp only [play, play_in_place]
  by_cases hp : piece = Piece.EMPTY
  · simp only [if_pos hp]; rfl
  · simp only [if_neg hp]
    cases hc : cell board pos.row pos.col with
    | error e => rfl
    | ok target =>
      simp only [bind_ok]
      by_cases ht : target ≠ Piece.EMPTY
      · simp only [if_pos ht]; rfl
      · simp only [if_neg ht]
        cases hs : set_cell board pos.row pos.col piece with
        | error e => rfl
        | ok b1 =>
          simp only [bind_ok, for_each_offset_eq]
          exact play_loop_in_place_settle piece pos directions b1 0

/-- C18: for every board and every position, `count_move` and `play` called
with the piece EMPTY stop at the assertion `piece != Piece::EMPTY` instead of
returning a count, and the board that `play` was given by reference is the
same board at that point. -/
theorem empty_mover_asserts (board : Board_vec) (pos : Position) :
    count_move board Piece.EMPTY pos = Except.error Fault.assertion ∧
      play board Piece.EMPTY pos = Except.error Fault.assertion ∧
      play_in_place board Piece.EMPTY pos = (board, Except.error Fault.assertion) :=
  ⟨rfl, rfl, rfl⟩

theorem ray_cell_in_grid {board : Board_vec} {pos : Position} {d : Int × Int} {i : Nat}
    {q : Piece} (h : ray_cell board pos d i = some q) :
    0 ≤ (pos.row : Int) + (i : Int) * d.1 ∧ (pos.row : Int) + (i : Int) * d.1 ≤ 7 ∧
      0 ≤ (pos.col : Int) + (i : Int) * d.2 ∧ (pos.col : Int) + (i : Int) * d.2 ≤ 7 := by
  unfold ray_cell grid_cell at h
  split_ifs at h with hh
  exact hh

theorem sandwich_le_six {board : Board_vec} {mover : Piece} {pos : Position}
    (hin : pos.in_range) {d : Int × Int} (hd : d ∈ directions) {k : Nat}
    (hs : sandwich board mover pos d k) : k ≤ 6 := by
  have h := ray_cell_in_grid hs.2
  obtain ⟨h1, h2⟩ := hin
  push_cast at h
  rcases mem_directions hd with e | e | e | e | e | e | e | e <;> subst e <;>
    simp only at h <;> omega

/-- C19: on an 8x8 board, for a mover in P1, P2, an in-range position and one
of the 8 directions, `count_move_line` returns a value `v` that is -1 or
between 0 and 6; `v` is `k` exactly when the `k` cells at steps 1..k are on the
grid and owned by the opponent and the cell at step `k + 1` is on the grid and
owned by the mover; `v` is -1 exactly when no `k` is so, in particular when
after a run of opponent cells the next step is off the grid (also below row or
column 0, where the `unsigned char` coordinate wraps) or on an Empty cell. -/
theorem count_move_line_value (board : Board_vec) (hwf : board.wf) (mover : Piece)
    (hm : mover = Piece.P1 ∨ mover = Piece.P2) (pos : Position) (hin : pos.in_range)
    (d : Int × Int) (hd : d ∈ directions) :
    ∃ v, (∀ n : Nat, LINE_BUDGET ≤ n → count_move_line n board mover pos d = Except.ok v) ∧
      (v = -1 ∨ (0 ≤ v ∧ v ≤ 6)) ∧
      (∀ k : Nat, v = (k : Int) ↔ sandwich board mover pos d k) ∧
      (v = -1 ↔ ∀ k : Nat, ¬ sandwich board mover pos d k) ∧
      (∀ j : Nat, (∀ i : Nat, 1 ≤ i → i ≤ j →
          ray_cell board pos d i = some (get_opponent mover)) →
        (ray_cell board pos d (j + 1) = Option.none ∨
          ray_cell board pos d (j + 1) = some Piece.EMPTY) → v = -1) := by
  have hne : mover ≠ Piece.EMPTY := by rcases hm with h | h <;> rw [h] <;> decide
  have hon := opponent_ne hne
  obtain ⟨v, hv, hs⟩ := count_move_line_spec hwf hne hd LINE_BUDGET pos hin
    (progress_budget hin hd)
  refine ⟨v, fun n hn => by rw [count_move_line_budget hwf hne hd hin n hn, hv], ?_⟩
  rcases hs with ⟨hv1, hno⟩ | ⟨hv0, hsv⟩
  · refine ⟨Or.inl hv1, ?_, ?_, fun _ _ _ => hv1⟩
    · intro k
      constructor
      · intro h; omega
      · intro h; exact absurd h (hno k)
    · exact ⟨fun _ => hno, fun _ => hv1⟩
  · have h6 := sandwich_le_six hin hd hsv
    refine ⟨Or.inr ⟨hv0, by omega⟩, ?_, ?_, ?_⟩
    · intro k
      constructor
      · intro h
        have : v.toNat = k := by omega
        rw [← this]; exact hsv
      · intro h
        have := sandwich_unique hne h hsv
        omega
    · constructor
      · intro h; omega
      · intro h; exact absurd hsv (h _)
    · intro j hrun hend
      exfalso
      rcases Nat.lt_trichotomy v.toNat j with h | h | h
      · have h1 := hrun (v.toNat + 1) (by omega) (by omega)
        rw [hsv.2] at h1
        exact hon.1 (Option.some.inj h1).symm
      · rw [← h, hsv.2] at hend
        rcases hend with h1 | h1
        · exact absurd h1 (by simp)
        · exact hne (Option.some.inj h1)
      · have h1 := hsv.1 (j + 1) (by omega) (by omega)
        rw [h1] at hend
        rcases hend with h2 | h2
        · exact absurd h2 (by simp)
        · exact hon.2 (Option.some.inj h2)

theorem count_move_line_value_witness :
    ∃ v, (∀ n : Nat, LINE_BUDGET ≤ n →
        count_move_line n reset_board Piece.P1 ⟨2, 3⟩ (1, 0) = Except.ok v) ∧
      (v = -1 ∨ (0 ≤ v ∧ v ≤ 6)) ∧
      (∀ k : Nat, v = (k : Int) ↔ sandwich reset_board Piece.P1 ⟨2, 3⟩ (1, 0) k) ∧
      (v = -1 ↔ ∀ k : Nat, ¬ sandwich reset_board Piece.P1 ⟨2, 3⟩ (1, 0) k) ∧
      (∀ j : Nat, (∀ i : Nat, 1 ≤ i → i ≤ j →
          ray_cell reset_board ⟨2, 3⟩ (1, 0) i = some (get_opponent Piece.P1)) →
        (ray_cell reset_board ⟨2, 3⟩ (1, 0) (j + 1) = Option.none ∨
          ray_cell reset_board ⟨2, 3⟩ (1, 0) (j + 1) = some Piece.EMPTY) → v = -1) :=
  count_move_line_value reset_board (by decide) Piece.P1 (by decide) ⟨2, 3⟩ (by decide) (1, 0)
    (by decide)


theorem explore_congr
    (r1 r2 : Board_vec → Piece → Int → Int → Int → Except Fault Possibility)
    (piece : Piece) (beta depth : Int) :
    ∀ (l : List Possibility),
      (∀ poss ∈ l, ∀ a b d, r1 poss.board (get_opponent piece) a b d
        = r2 poss.board (get_opponent piece) a b d) →
      ∀ (alpha : Int) (max_poss : Possibility),
        explore r1 piece beta depth l alpha max_poss
          = explore r2 piece beta depth l alpha max_poss := by
  intro l
  induction l with
  | nil => intro _ alpha max_poss; rfl
  | cons poss rest ih =>
    intro h alpha max_poss
    have ih' := ih (fun q hq => h q (List.mem_cons_of_mem _ hq))
    simp only [explore, h poss (List.mem_cons_self _ _)]
    cases hr : r2 poss.board (get_opponent piece) (wrap32 (-alpha)) (wrap32 (-beta))
        (wrap32 (depth + 1)) with
    | error e => rfl
    | ok child =>
      simp only [bind_ok]
      split_ifs
      · rfl
      · exact ih' _ _
      · exact ih' _ _

/-- In to-completion mode, away from the game-over cutoff, a call of `search`
either passes to the opponent, who can then move, or runs the candidate loop
over boards with one fewer Empty cell. -/
theorem search_unfold (self : Computer_player) (hflag : self.search_to_end = true)
    {board : Board_vec} (hwf : board.wf) {piece : Piece} (hm : piece ≠ Piece.EMPTY)
    (hover : game_over board = Except.ok false) (beta alpha depth : Int) (budget : Nat) :
    (legal_list board piece = [] →
      legal_list board (get_opponent piece) ≠ [] ∧
      search self (budget + 1) board piece beta alpha depth
        = (search self budget board (get_opponent piece) (wrap32 (-alpha)) (wrap32 (-beta))
            (wrap32 (depth + 1))) >>= fun child =>
              Except.ok (Possibility.of_value (wrap32 (-1 * child.value)))) ∧
    (legal_list board piece ≠ [] →
      ∃ possibilities : List Possibility,
        (∀ poss ∈ possibilities, poss.board.wf ∧
          count_pieces poss.board Piece.EMPTY = count_pieces board Piece.EMPTY - 1) ∧
        ∀ recurse : Board_vec → Piece → Int → Int → Int → Except Fault Possibility,
          (∀ poss ∈ possibilities, ∀ a b d, recurse poss.board (get_opponent piece) a b d
            = search self budget poss.board (get_opponent piece) a b d) →
          search self (budget + 1) board piece beta alpha depth
            = explore recurse piece beta depth possibilities alpha
                (Possibility.of_value INT_MIN)) := by
  have hgo : game_over board = Except.ok (decide (legal_list board Piece.P1 = [] ∧
      legal_list board Piece.P2 = [])) := game_over_eq hwf
  have hcm : can_move board piece = Except.ok (decide (legal_list board piece ≠ [])) :=
    can_move_eq hwf hm
  have hgl : get_legal_positions board piece = Except.ok (legal_list board piece) :=
    get_legal_positions_eq hwf hm
  have hno : ¬ (legal_list board Piece.P1 = [] ∧ legal_list board Piece.P2 = []) := by
    rw [hgo] at hover
    exact of_decide_eq_false (Except.ok.inj hover)
  constructor
  · intro hnone
    refine ⟨opponent_can_move_of_not_over hm hno hnone, ?_⟩
    have hdec : decide (legal_list board piece ≠ []) = false := by simp [hnone]
    simp only [search, hflag, if_true, hover, bind_ok, Bool.false_eq_true, if_false, hcm, hdec,
      Bool.not_false, pure_eq_ok]
  · intro hsome
    obtain ⟨ps, hps, hgood, -⟩ := candidates_ok hwf hm
    obtain ⟨qs, hqs, hqgood, -⟩ := ranked_ok hm ps hgood
    obtain ⟨hsgood, -⟩ := sort_by_value_good qs hqgood
    have hfinal : ∃ fs, (if depth ≤ Int.tdiv self.max_depth 2 then
          ps.mapM (fun poss => do
            let value ← count_legal_positions poss.board piece
            Except.ok ({ poss with value := value } : Possibility)) >>=
              fun valued => Except.ok (sort_by_value valued)
        else Except.ok ps) = Except.ok fs ∧ (∀ poss ∈ fs, good board piece poss) := by
      split_ifs
      · refine ⟨sort_by_value qs, ?_, hsgood⟩
        rw [hqs]; rfl
      · exact ⟨ps, rfl, hgood⟩
    obtain ⟨fs, hfs, hfgood⟩ := hfinal
    refine ⟨fs, fun poss h => ⟨(hfgood poss h).1, (hfgood poss h).2.1⟩, ?_⟩
    intro recurse hrec
    have hdec : decide (legal_list board piece ≠ []) = true := by simp [hsome]
    simp only [search, hflag, if_true, hover, bind_ok, Bool.false_eq_true, if_false, hcm, hdec,
      Bool.not_true, hgl, hps, hfs, pure_eq_ok]
    exact (explore_congr recurse (search self budget) piece beta depth fs hrec alpha _).symm

/-- C20: on an 8x8 board and for a mover in P1, P2, `search` returns in
to-completion mode for every depth argument and every maximum depth (130 nested
calls suffice), and with the flag clear when the depth argument is between 1
and the maximum depth (`max_depth - depth + 1` nested calls suffice); in
to-completion mode a call that is not at the game-over cutoff either passes, on
the same board, to an opponent who has a legal position, or makes its
recursive calls only on boards with one fewer Empty cell. -/
theorem search_terminates (self : Computer_player) (board : Board_vec) (hwf : board.wf)
    (piece : Piece) (hm : piece = Piece.P1 ∨ piece = Piece.P2) (beta alpha depth : Int) :
    (self.search_to_end = true →
      ∃ p, ∀ budget : Nat, 130 ≤ budget →
        search self budget board piece beta alpha depth = Except.ok p) ∧
    (self.search_to_end = false → 1 ≤ depth → depth ≤ self.max_depth →
      self.max_depth ≤ INT_MAX →
      ∃ p, ∀ budget : Nat, self.max_depth - depth + 1 ≤ (budget : Int) →
        search self budget board piece beta alpha depth = Except.ok p) ∧
    (self.search_to_end = true → game_over board = Except.ok false → ∀ budget : Nat,
      (legal_list board piece = [] →
        legal_list board (get_opponent piece) ≠ [] ∧
        search self (budget + 1) board piece beta alpha depth
          = (search self budget board (get_opponent piece) (wrap32 (-alpha)) (wrap32 (-beta))
              (wrap32 (depth + 1))) >>= fun child =>
                Except.ok (Possibility.of_value (wrap32 (-1 * child.value)))) ∧
      (legal_list board piece ≠ [] →
        ∃ possibilities : List Possibility,
          (∀ poss ∈ possibilities, poss.board.wf ∧
            count_pieces poss.board Piece.EMPTY = count_pieces board Piece.EMPTY - 1) ∧
          ∀ recurse : Board_vec → Piece → Int → Int → Int → Except Fault Possibility,
            (∀ poss ∈ possibilities, ∀ a b d, recurse poss.board (get_opponent piece) a b d
              = search self budget poss.board (get_opponent piece) a b d) →
            search self (budget + 1) board piece beta alpha depth
              = explore recurse piece beta depth possibilities alpha
                  (Possibility.of_value INT_MIN))) := by
  have hne : piece ≠ Piece.EMPTY := by rcases hm with h | h <;> rw [h] <;> decide
  refine ⟨?_, ?_, ?_⟩
  · intro hflag
    have hE := (count_pieces_bounds hwf Piece.EMPTY).2
    have hen : enough self 130 board piece depth := by
      unfold enough
      rw [hflag]
      simp only [if_true]
      split_ifs <;> push_cast <;> omega
    obtain ⟨p, -, -, -, hp⟩ := search_returns_stable self hwf hne beta alpha depth 130 hen
    exact ⟨p, hp⟩
  · intro hflag h1 h2 h3
    have hen : enough self (self.max_depth - depth + 1).toNat board piece depth := by
      unfold enough
      rw [hflag]
      simp only [Bool.false_eq_true, if_false]
      refine ⟨?_, h2, h3, ?_⟩
      · simp only [INT_MAX]; omega
      · omega
    obtain ⟨p, -, -, -, hp⟩ := search_returns_stable self hwf hne beta alpha depth _ hen
    exact ⟨p, fun budget hb => hp budget (by omega)⟩
  · intro hflag hover budget
    exact search_unfold self hflag hwf hne hover beta alpha depth budget

theorem search_terminates_witness :
    (∃ p, ∀ budget : Nat, 130 ≤ budget →
      search ⟨Piece.P1, 7, 12, true⟩ budget reset_board Piece.P1 INT_MAX INT_MIN 1
        = Except.ok p) ∧
    (∃ p, ∀ budget : Nat, (7 : Int) - 1 + 1 ≤ (budget : Int) →
      search ⟨Piece.P1, 7, 12, false⟩ budget reset_board Piece.P1 INT_MAX INT_MIN 1
        = Except.ok p) :=
  ⟨(search_terminates ⟨Piece.P1, 7, 12, true⟩ reset_board (by decide) Piece.P1 (by decide)
      INT_MAX INT_MIN 1).1 rfl,
    (search_terminates ⟨Piece.P1, 7, 12, false⟩ reset_board (by decide) Piece.P1 (by decide)
      INT_MAX INT_MIN 1).2.1 rfl (by decide) (by decide) (by decide)⟩


theorem evaluate_mid {board : Board_vec} (hwf : board.wf) (p : Piece)
    (hover : game_over board = Except.ok false) :
    evaluate board p
      = Except.ok (weighted_sum board p - weighted_sum board (get_opponent p)) := by
  simp only [evaluate, hover, bind_ok, evaluate_weights_eq hwf p]
  rfl

/-- C23: on an 8x8 board that is not game over, `evaluate` returns for both
perspectives and `evaluate(board, P1) == -evaluate(board, P2)`. -/
theorem evaluate_antisymmetric_midgame (board : Board_vec) (hwf : board.wf)
    (hover : game_over board = Except.ok false) :
    ∃ v1 v2, evaluate board Piece.P1 = Except.ok v1 ∧ evaluate board Piece.P2 = Except.ok v2 ∧
      v1 = -v2 := by
  refine ⟨_, _, evaluate_mid hwf Piece.P1 hover, evaluate_mid hwf Piece.P2 hover, ?_⟩
  simp only [get_opponent]
  ring

theorem evaluate_antisymmetric_midgame_witness :
    ∃ v1 v2, evaluate after_three_moves Piece.P1 = Except.ok v1 ∧
      evaluate after_three_moves Piece.P2 = Except.ok v2 ∧ v1 = -v2 :=
  evaluate_antisymmetric_midgame after_three_moves (by decide)
    (by set_option maxRecDepth 100000 in decide!)

/-- C27: on an 8x8 board, for a mover in P1, P2 and an in-range position whose
cell is Empty, `play` returns a count `f` and a board on which
`count_pieces(mover)` is `f + 1` more than before and `count_pieces(opponent)`
is `f` less than before. -/
theorem play_count_deltas (board : Board_vec) (hwf : board.wf) (mover : Piece)
    (hm : mover = Piece.P1 ∨ mover = Piece.P2) (pos : Position) (hin : pos.in_range)
    (hempty : cell board pos.row pos.col = Except.ok Piece.EMPTY) :
    ∃ b' f, play board mover pos = Except.ok (b', f) ∧ 0 ≤ f ∧
      count_pieces b' mover = count_pieces board mover + (f + 1) ∧
      count_pieces b' (get_opponent mover) = count_pieces board (get_opponent mover) - f := by
  have hne : mover ≠ Piece.EMPTY := by rcases hm with h | h <;> rw [h] <;> decide
  obtain ⟨b', n, hp, -, -, h0, -, -, -, -, -, hcnt⟩ :=
    play_spec hwf hne hin (peek_eq_of_cell hempty)
  refine ⟨b', n, hp, h0, ?_, ?_⟩
  · rw [hcnt mover]
    rcases hm with h | h <;> subst h <;> simp [get_opponent]
  · rw [hcnt (get_opponent mover)]
    rcases hm with h | h <;> subst h <;> simp [get_opponent]

theorem play_count_deltas_witness :
    ∃ b' f, play reset_board Piece.P1 ⟨2, 3⟩ = Except.ok (b', f) ∧ 0 ≤ f ∧
      count_pieces b' Piece.P1 = count_pieces reset_board Piece.P1 + (f + 1) ∧
      count_pieces b' (get_opponent Piece.P1)
        = count_pieces reset_board (get_opponent Piece.P1) - f :=
  play_count_deltas reset_board (by decide) Piece.P1 (by decide) ⟨2, 3⟩ (by decide) (by decide)

theorem count_pos_of_cell {board : Board_vec} {row col : Nat} {q : Piece}
    (h : cell board row col = Except.ok q) : 1 ≤ count_pieces board q := by
  rw [count_pieces_eq]
  unfold cell at h
  cases hr : board.get? row with
  | none => rw [hr] at h; cases h
  | some cells =>
    rw [hr] at h
    dsimp only at h
    cases hc : cells.get? col with
    | none => rw [hc] at h; cases h
    | some x =>
      rw [hc] at h
      cases h
      have h1 : cells ∈ board := List.get?_mem hr
      have h2 := List.get?_mem hc
      have h3 := List.mem_flatten.2 ⟨cells, h1, h2⟩
      have := List.count_pos_iff.2 h3
      omega

theorem count_pos_of_ray {board : Board_vec} {pos : Position} {d : Int × Int} {i : Nat}
    {q : Piece} (h : ray_cell board pos d i = some q) : 1 ≤ count_pieces board q := by
  unfold ray_cell grid_cell at h
  split_ifs at h with hh
  cases hc : cell board ((pos.row : Int) + (i : Int) * d.1).toNat
      ((pos.col : Int) + (i : Int) * d.2).toNat with
  | error e => rw [hc] at h; cases h
  | ok x =>
    rw [hc] at h
    cases h
    exact count_pos_of_cell hc

theorem no_move_without_both {board : Board_vec} (hwf : board.wf) {mover : Piece}
    (hm : mover ≠ Piece.EMPTY)
    (hzero : count_pieces board mover = 0 ∨ count_pieces board (get_opponent mover) = 0)
    {pos : Position} (hin : pos.in_range) : count_move board mover pos = Except.ok 0 := by
  by_cases he : peek board pos.row pos.col = Piece.EMPTY
  · obtain ⟨b', n, -, hc, -, h0, hiff, -⟩ := play_spec hwf hm hin he
    rw [hc]
    congr 1
    by_contra hn
    have hpos : 0 < n := lt_of_le_of_ne h0 (Ne.symm hn)
    obtain ⟨d, -, k, hk, hs⟩ := hiff.1 hpos
    have h1 := count_pos_of_ray (hs.1 1 (le_refl _) hk)
    have h2 := count_pos_of_ray hs.2
    omega
  · exact (play_occupied hwf hm hin he).1

theorem legal_list_nil_without_both {board : Board_vec} (hwf : board.wf) {mover : Piece}
    (hm : mover ≠ Piece.EMPTY)
    (hzero : count_pieces board mover = 0 ∨ count_pieces board (get_opponent mover) = 0) :
    legal_list board mover = [] := by
  rw [legal_list, List.filter_eq_nil_iff]
  intro pos hpos
  have := no_move_without_both hwf hm hzero ((mem_all_positions pos).1 hpos)
  simp [legal, this]

/-- C28: on an 8x8 board on which `count_pieces(P1)` or `count_pieces(P2)` is 0,
`count_move` is 0 at every in-range position for both owners, both lists of
legal positions are empty and `game_over` is true, whatever the number of
Empty cells. -/
theorem game_over_without_both_owners (board : Board_vec) (hwf : board.wf)
    (hzero : count_pieces board Piece.P1 = 0 ∨ count_pieces board Piece.P2 = 0) :
    (∀ pos : Position, pos.in_range →
      count_move board Piece.P1 pos = Except.ok 0 ∧
        count_move board Piece.P2 pos = Except.ok 0) ∧
      get_legal_positions board Piece.P1 = Except.ok [] ∧
      get_legal_positions board Piece.P2 = Except.ok [] ∧
      game_over board = Except.ok true := by
  have z1 : count_pieces board Piece.P1 = 0 ∨
      count_pieces board (get_opponent Piece.P1) = 0 := hzero
  have z2 : count_pieces board Piece.P2 = 0 ∨
      count_pieces board (get_opponent Piece.P2) = 0 := hzero.symm
  have l1 : all_positions.filter (legal board Piece.P1) = [] :=
    legal_list_nil_without_both hwf (by decide) z1
  have l2 : all_positions.filter (legal board Piece.P2) = [] :=
    legal_list_nil_without_both hwf (by decide) z2
  refine ⟨fun pos hin => ⟨no_move_without_both hwf (by decide) z1 hin,
    no_move_without_both hwf (by decide) z2 hin⟩, ?_, ?_, ?_⟩
  · rw [get_legal_positions_eq hwf (by decide), l1]
  · rw [get_legal_positions_eq hwf (by decide), l2]
  · rw [game_over_eq hwf, l1, l2]; rfl

theorem game_over_without_both_owners_witness :
    count_pieces half_board Piece.EMPTY = 32 ∧
      (∀ pos : Position, pos.in_range →
        count_move half_board Piece.P1 pos = Except.ok 0 ∧
          count_move half_board Piece.P2 pos = Except.ok 0) ∧
      get_legal_positions half_board Piece.P1 = Except.ok [] ∧
      get_legal_positions half_board Piece.P2 = Except.ok [] ∧
      game_over half_board = Except.ok true :=
  ⟨by decide, game_over_without_both_owners half_board (by decide) (Or.inr (by decide))⟩

theorem filter_sum_diff_le (f g : Position → Bool) (w bound : Position → Int)
    (hw : ∀ x, |w x| ≤ bound x) :
    ∀ ps : List Position,
      |((ps.filter f).map w).sum - ((ps.filter g).map w).sum| ≤ (ps.map bound).sum := by
  intro ps
  induction ps with
  | nil => simp
  | cons x ps ih =>
    have h1 := abs_le.1 (hw x)
    have h2 := abs_le.1 ih
    rw [abs_le]
    cases hf : f x <;> cases hg : g x <;>
      simp only [List.filter_cons, hf, hg, if_true, if_false, List.map_cons, List.sum_cons,
        Bool.false_eq_true] <;>
      constructor <;> omega

theorem cell_weight_le_bound (board : Board_vec) (pos : Position) :
    |cell_weight board pos.row pos.col| ≤ weight_bound pos := by
  unfold cell_weight weight_bound
  generalize (WEIGHTS.getD (min pos.row (7 - pos.row)) []).getD (min pos.col (7 - pos.col)) 0 = raw
  split_ifs
  · exact le_max_right _ _
  · rw [abs_le]
    constructor
    · have := le_max_left 1 raw
      have := le_max_left 1 |raw|
      omega
    · exact max_le_max (le_refl _) (le_abs_self raw)

theorem weight_bound_total : (all_positions.map weight_bound).sum = 788 := by decide

theorem weighted_difference_bound (board : Board_vec) (p : Piece) :
    |weighted_sum board p - weighted_sum board (get_opponent p)| ≤ 788 := by
  have h := filter_sum_diff_le (fun q => decide (peek board q.row q.col = p))
    (fun q => decide (peek board q.row q.col = get_opponent p))
    (fun q => cell_weight board q.row q.col) weight_bound
    (fun x => cell_weight_le_bound board x) all_positions
  rw [weight_bound_total] at h
  exact h

theorem lost_board_facts :
    lost_board.wf ∧ game_over lost_board = Except.ok true ∧
      count_pieces lost_board Piece.P1 = 8 ∧ count_pieces lost_board Piece.P2 = 56 := by
  set_option maxRecDepth 100000 in decide!

theorem reset_board_not_over : game_over reset_board = Except.ok false := by
  set_option maxRecDepth 100000 in decide!

/-- C22: for a perspective `p` in P1, P2 and 8x8 boards `b_loss` (game over,
`p` has fewer pieces), `b_tie` (game over, equal counts), `b_mid` (not game
over) and `b_win` (game over, `p` has more pieces), `evaluate` returns on all
four and `evaluate(b_loss, p) < evaluate(b_tie, p) < evaluate(b_mid, p) <
evaluate(b_win, p)`; the score of `b_mid` has absolute value at most 788. -/
theorem evaluate_outcome_order (p : Piece) (hp : p = Piece.P1 ∨ p = Piece.P2)
    (b_loss b_tie b_mid b_win : Board_vec)
    (hwf1 : b_loss.wf) (hwf3 : b_mid.wf) (hwf4 : b_win.wf)
    (hover1 : game_over b_loss = Except.ok true)
    (hloss : count_pieces b_loss p < count_pieces b_loss (get_opponent p))
    (hover2 : game_over b_tie = Except.ok true)
    (htie : count_pieces b_tie Piece.P1 = count_pieces b_tie Piece.P2)
    (hover3 : game_over b_mid = Except.ok false)
    (hover4 : game_over b_win = Except.ok true)
    (hwin : count_pieces b_win p > count_pieces b_win (get_opponent p)) :
    ∃ v_loss v_tie v_mid v_win,
      evaluate b_loss p = Except.ok v_loss ∧ evaluate b_tie p = Except.ok v_tie ∧
      evaluate b_mid p = Except.ok v_mid ∧ evaluate b_win p = Except.ok v_win ∧
      v_loss < v_tie ∧ v_tie < v_mid ∧ v_mid < v_win ∧ |v_mid| ≤ 788 := by
  have hb := weighted_difference_bound b_mid p
  have hb' := abs_le.1 hb
  have c1 := count_pieces_bounds hwf1 p
  have c2 := count_pieces_bounds hwf1 (get_opponent p)
  have c3 := count_pieces_bounds hwf4 p
  have c4 := count_pieces_bounds hwf4 (get_opponent p)
  refine ⟨_, _, _, _, evaluate_loss hp hover1 hloss, evaluate_tie p hover2 htie,
    evaluate_mid hwf3 p hover3, evaluate_win hp hover4 hwin, ?_, ?_, ?_, hb⟩ <;> omega

theorem evaluate_outcome_order_witness :
    ∃ v_loss v_tie v_mid v_win,
      evaluate lost_board Piece.P1 = Except.ok v_loss ∧
      evaluate tied_board Piece.P1 = Except.ok v_tie ∧
      evaluate reset_board Piece.P1 = Except.ok v_mid ∧
      evaluate won_board Piece.P1 = Except.ok v_win ∧
      v_loss < v_tie ∧ v_tie < v_mid ∧ v_mid < v_win ∧ |v_mid| ≤ 788 :=
  evaluate_outcome_order Piece.P1 (by decide) lost_board tied_board reset_board won_board
    lost_board_facts.1 (by decide) won_board_facts.1 lost_board_facts.2.1 (by decide)
    tied_board_facts.2.1 tied_board_facts.2.2.1 reset_board_not_over won_board_facts.2.1
    (by decide)


theorem to_string_round_trip :
    ∀ row < 8, ∀ col < 8,
      (to_string ⟨row, col⟩).data = [Char.ofNat (65 + col), Char.ofNat (49 + row)] ∧
      Game_play_position (to_string ⟨row, col⟩) = some ⟨row, col⟩ ∧
      Game_play_silent_position (to_string ⟨row, col⟩) = some ⟨row, col⟩ ∧
      Game_play_position (String.mk [Char.ofNat (49 + row), Char.ofNat (65 + col)])
        = some ⟨row, col⟩ := by
  decide

/-- C30: for a position with row and column in [0,7], `to_string` is the
two-character string of the column letter `'A' + col` and the row digit
`'1' + row`; the command handling of `Game::play` and of `Game::play_silent`
maps that string back to the same position and accepts it as in range;
`Game::play` maps the digit-then-letter string to the same position; and two
in-range positions with the same string are equal. -/
theorem to_string_parse_round_trip (pos : Position) (hin : pos.in_range) :
    to_string pos = String.mk [Char.ofNat (65 + pos.col), Char.ofNat (49 + pos.row)] ∧
      (to_string pos).length = 2 ∧
      Game_play_position (to_string pos) = some pos ∧
      Game_play_silent_position (to_string pos) = some pos ∧
      Game_play_position (String.mk [Char.ofNat (49 + pos.row), Char.ofNat (65 + pos.col)])
        = some pos ∧
      ∀ other : Position, other.in_range → to_string other = to_string pos → other = pos := by
  obtain ⟨row, col⟩ := pos
  obtain ⟨h1, h2⟩ := hin
  have hr : row < 8 := by simp only at h1; omega
  have hc : col < 8 := by simp only at h2; omega
  obtain ⟨e1, e2, e3, e4⟩ := to_string_round_trip row hr col hc
  refine ⟨?_, rfl, e2, e3, e4, ?_⟩
  · rw [← e1]
  · rintro ⟨r2, c2⟩ ⟨g1, g2⟩ heq
    have hr2 : r2 < 8 := by simp only at g1; omega
    have hc2 : c2 < 8 := by simp only at g2; omega
    obtain ⟨-, f2, -, -⟩ := to_string_round_trip r2 hr2 c2 hc2
    rw [heq, e2] at f2
    exact (Option.some.inj f2).symm

theorem to_string_parse_round_trip_witness :
    to_string ⟨2, 3⟩ = String.mk [Char.ofNat (65 + 3), Char.ofNat (49 + 2)] ∧
      (to_string ⟨2, 3⟩).length = 2 ∧
      Game_play_position (to_string ⟨2, 3⟩) = some ⟨2, 3⟩ ∧
      Game_play_silent_position (to_string ⟨2, 3⟩) = some ⟨2, 3⟩ ∧
      Game_play_position (String.mk [Char.ofNat (49 + 2), Char.ofNat (65 + 3)])
        = some ⟨2, 3⟩ ∧
      ∀ other : Position, other.in_range → to_string other = to_string ⟨2, 3⟩ →
        other = ⟨2, 3⟩ :=
  to_string_parse_round_trip ⟨2, 3⟩ (by decide)

theorem cell_ok_iff {board : Board_vec} (hwf : board.wf) (row col : Nat) :
    (∃ p, cell board row col = Except.ok p) ↔ row ≤ 7 ∧ col ≤ 7 := by
  constructor
  · rintro ⟨p, hp⟩
    unfold cell at hp
    cases hr : board.get? row with
    | none => rw [hr] at hp; cases hp
    | some cells =>
      rw [hr] at hp
      dsimp only at hp
      cases hc : cells.get? col with
      | none => rw [hc] at hp; cases hp
      | some x =>
        have h1 : row < board.length := by
          by_contra hcon
          rw [List.get?_eq_none.2 (by omega)] at hr
          cases hr
        have h2 : col < cells.length := by
          by_contra hcon
          rw [List.get?_eq_none.2 (by omega)] at hc
          cases hc
        have h3 : cells.length = 8 := hwf.2 cells (List.get?_mem hr)
        have h4 := hwf.1
        omega
  · rintro ⟨h1, h2⟩
    exact ⟨_, cell_of_wf hwf h1 h2⟩

theorem set_cell_ok_iff {board : Board_vec} (hwf : board.wf) (row col : Nat) (p : Piece) :
    (∃ b', set_cell board row col p = Except.ok b') ↔ row ≤ 7 ∧ col ≤ 7 := by
  constructor
  · rintro ⟨b', hb⟩
    unfold set_cell at hb
    cases hr : board.get? row with
    | none => rw [hr] at hb; cases hb
    | some cells =>
      rw [hr] at hb
      dsimp only at hb
      have h1 : row < board.length := by
        by_contra hcon
        rw [List.get?_eq_none.2 (by omega)] at hr
        cases hr
      have h3 : cells.length = 8 := hwf.2 cells (List.get?_mem hr)
      have h4 := hwf.1
      split_ifs at hb with hlt
      omega
  · rintro ⟨h1, h2⟩
    obtain ⟨b', hb, -⟩ := set_cell_of_wf hwf h1 h2 p
    exact ⟨b', hb⟩

/-- The bound of seven nested calls is attained: from (0,0) down a column of
seven opponent cells the walk needs its eighth call to leave the grid. -/
theorem line_budget_tight :
    count_move_line 7 lost_board Piece.P1 ⟨0, 0⟩ (1, 0) = Except.error Fault.budget ∧
      count_move_line (1 + 7) lost_board Piece.P1 ⟨0, 0⟩ (1, 0) = Except.ok (-1) := by
  decide

/-- C29: on a board of exactly 8 rows of exactly 8 cells, where an index is in
bounds exactly when row and column are at most 7, for a mover in P1, P2 and a
position with row and column in [0,7], `count_move` and `play` return without
an out-of-bounds access, the line walks of every direction return within one
call and 7 nested calls, and `play` leaves a board of 8 rows of 8 cells. -/
theorem board_access_in_bounds (board : Board_vec) (hwf : board.wf) (mover : Piece)
    (hm : mover = Piece.P1 ∨ mover = Piece.P2) (pos : Position) (hin : pos.in_range) :
    (∀ row col, (∃ p, cell board row col = Except.ok p) ↔ row ≤ 7 ∧ col ≤ 7) ∧
      (∀ row col p, (∃ b', set_cell board row col p = Except.ok b') ↔ row ≤ 7 ∧ col ≤ 7) ∧
      LINE_BUDGET = 1 + 7 ∧
      (∃ n, count_move board mover pos = Except.ok n) ∧
      (∃ b' n, play board mover pos = Except.ok (b', n) ∧
        play_in_place board mover pos = (b', Except.ok n) ∧ b'.wf) ∧
      (∀ d ∈ directions, ∀ b : Board_vec, b.wf →
        (∃ v, count_move_line (1 + 7) b mover pos d = Except.ok v) ∧
          ∃ b' v, flip_line (1 + 7) b mover pos d = Except.ok (b', v) ∧ b'.wf) := by
  have hne : mover ≠ Piece.EMPTY := by rcases hm with h | h <;> rw [h] <;> decide
  refine ⟨cell_ok_iff hwf, set_cell_ok_iff hwf, rfl, ?_, ?_, ?_⟩
  · obtain ⟨n, hn, -⟩ := count_move_total hwf hne hin
    exact ⟨n, hn⟩
  · have hplay : ∃ b' n, play board mover pos = Except.ok (b', n) ∧ b'.wf := by
      by_cases he : peek board pos.row pos.col = Piece.EMPTY
      · obtain ⟨b', n, hp, -, hwf', -⟩ := play_spec hwf hne hin he
        exact ⟨b', n, hp, hwf'⟩
      · exact ⟨board, 0, (play_occupied hwf hne hin he).2, hwf⟩
    obtain ⟨b', n, hp, hwf'⟩ := hplay
    refine ⟨b', n, hp, ?_, hwf'⟩
    have hs := play_in_place_settle board mover pos
    rw [hp] at hs
    rcases hr : play_in_place board mover pos with ⟨b1, r⟩
    rw [hr] at hs
    cases r with
    | error e => cases hs
    | ok v =>
      simp only [settle] at hs
      cases hs
      rfl
  · intro d hd b hb
    have hbud : 8 ≤ (((1 + 7 : Nat) : Nat) : Int) + progress pos d := by
      have := progress_le hin hd
      omega
    obtain ⟨b', v, hf, hc, hwf', -⟩ := flip_line_spec hne hd (1 + 7) pos b hb hin hbud
    exact ⟨⟨v, hc⟩, b', v, hf, hwf'⟩

theorem board_access_in_bounds_witness :
    (∀ row col, (∃ p, cell reset_board row col = Except.ok p) ↔ row ≤ 7 ∧ col ≤ 7) ∧
      (∀ row col p, (∃ b', set_cell reset_board row col p = Except.ok b') ↔
        row ≤ 7 ∧ col ≤ 7) ∧
      LINE_BUDGET = 1 + 7 ∧
      (∃ n, count_move reset_board Piece.P1 ⟨2, 3⟩ = Except.ok n) ∧
      (∃ b' n, play reset_board Piece.P1 ⟨2, 3⟩ = Except.ok (b', n) ∧
        play_in_place reset_board Piece.P1 ⟨2, 3⟩ = (b', Except.ok n) ∧ b'.wf) ∧
      (∀ d ∈ directions, ∀ b : Board_vec, b.wf →
        (∃ v, count_move_line (1 + 7) b Piece.P1 ⟨2, 3⟩ d = Except.ok v) ∧
          ∃ b' v, flip_line (1 + 7) b Piece.P1 ⟨2, 3⟩ d = Except.ok (b', v) ∧ b'.wf) :=
  board_access_in_bounds reset_board (by decide) Piece.P1 (by decide) ⟨2, 3⟩ (by decide)


theorem bind_assoc_except {α β γ : Type} (x : Except Fault α) (f : α → Except Fault β)
    (g : β → Except Fault γ) : (x >>= f) >>= g = x >>= fun a => f a >>= g := by
  cases x <;> rfl

/-- A call of `search` that neither stops nor passes runs the exploration loop
over `ordered_candidates`. -/
theorem search_expand (self : Computer_player) (budget : Nat) (board : Board_vec) (piece : Piece)
    (beta alpha depth : Int)
    (hstop : (if self.search_to_end then game_over board
      else Except.ok (decide (depth = self.max_depth))) = Except.ok false)
    (hcan : can_move board piece = Except.ok true) :
    search self (budget + 1) board piece beta alpha depth
      = ordered_candidates self board piece depth >>= fun possibilities =>
          explore (search self budget) piece beta depth possibilities alpha
            (Possibility.of_value INT_MIN) := by
  simp only [search, ordered_candidates, pure_eq_ok, hstop, hcan, bind_ok, Bool.false_eq_true,
    if_false, Bool.not_true, bind_assoc_except]

theorem mapM_forall2 {α β : Type} (f : α → Except Fault β) (R : α → β → Prop) :
    ∀ l : List α, (∀ x ∈ l, ∃ y, f x = Except.ok y ∧ R x y) →
      ∃ ys, l.mapM f = Except.ok ys ∧ List.Forall₂ R l ys := by
  intro l
  induction l with
  | nil => intro _; exact ⟨[], by rw [List.mapM_nil]; rfl, List.Forall₂.nil⟩
  | cons a t ih =>
    intro h
    obtain ⟨y, hy, hr⟩ := h a (List.mem_cons_self _ _)
    obtain ⟨ys, hys, hrs⟩ := ih (fun x hx => h x (List.mem_cons_of_mem _ hx))
    refine ⟨y :: ys, ?_, List.Forall₂.cons hr hrs⟩
    rw [List.mapM_cons, hy, bind_ok, hys, bind_ok]
    rfl

theorem forall2_map_eq {α β γ : Type} (g : β → γ) (k : α → γ) (R : α → β → Prop)
    (hR : ∀ x y, R x y → g y = k x) :
    ∀ (l : List α) (ys : List β), List.Forall₂ R l ys → ys.map g = l.map k := by
  intro l ys h
  induction h with
  | nil => rfl
  | cons hr _ ih => rw [List.map_cons, List.map_cons, ih, hR _ _ hr]

theorem forall2_mem_right {α β : Type} (R : α → β → Prop) :
    ∀ (l : List α) (ys : List β), List.Forall₂ R l ys → ∀ y ∈ ys, ∃ x ∈ l, R x y := by
  intro l ys h
  induction h with
  | nil => intro y hy; cases hy
  | cons hr _ ih =>
    intro y hy
    rcases List.mem_cons.1 hy with rfl | hy'
    · exact ⟨_, List.mem_cons_self _ _, hr⟩
    · obtain ⟨x, hx, hxy⟩ := ih y hy'
      exact ⟨x, List.mem_cons_of_mem _ hx, hxy⟩

theorem sort_by_value_sorted (qs : List Possibility) :
    (sort_by_value qs).Pairwise (fun a b => a.value ≤ b.value) := by
  have htot : IsTotal Possibility (fun a b => a.value ≤ b.value) :=
    ⟨fun a b => le_total a.value b.value⟩
  have htr : IsTrans Possibility (fun a b => a.value ≤ b.value) :=
    ⟨fun a b c h1 h2 => le_trans h1 h2⟩
  exact List.sorted_insertionSort (fun a b => a.value ≤ b.value) qs

/-- What `ordered_candidates` returns on an 8x8 board. -/
theorem ordered_candidates_spec (self : Computer_player) {board : Board_vec} (hwf : board.wf)
    {piece : Piece} (hm : piece ≠ Piece.EMPTY) (depth : Int) :
    ∃ fs, ordered_candidates self board piece depth = Except.ok fs ∧
      (fs.map (fun poss => poss.pos)).Perm (legal_list board piece) ∧
      (∀ poss ∈ fs, ∃ n, play board piece poss.pos = Except.ok (poss.board, n)) ∧
      (depth ≤ Int.tdiv self.max_depth 2 →
        (∀ poss ∈ fs, count_legal_positions poss.board piece = Except.ok poss.value) ∧
          fs.Pairwise (fun a b => a.value ≤ b.value)) ∧
      (¬ depth ≤ Int.tdiv self.max_depth 2 →
        fs.map (fun poss => poss.pos) = legal_list board piece) := by
  have hgl : get_legal_positions board piece = Except.ok (legal_list board piece) :=
    get_legal_positions_eq hwf hm
  obtain ⟨ps, hps, hfa⟩ := mapM_forall2 (fun pos => do
      let played ← play board piece pos
      Except.ok (⟨pos, played.1, 0⟩ : Possibility))
    (fun pos poss => poss.pos = pos ∧ poss.board.wf ∧
      ∃ n, play board piece poss.pos = Except.ok (poss.board, n))
    (legal_list board piece) (by
      intro pos hpos
      obtain ⟨b', n, hp, hwf', -⟩ := play_legal hwf hm hpos
      exact ⟨⟨pos, b', 0⟩, by dsimp only; rw [hp]; rfl, rfl, hwf', n, hp⟩)
  have hpmap : ps.map (fun poss => poss.pos) = legal_list board piece := by
    have := forall2_map_eq (fun (poss : Possibility) => poss.pos) (fun (pos : Position) => pos)
      _ (fun x y h => h.1) _ _ hfa
    simpa using this
  have hpmem : ∀ poss ∈ ps, poss.board.wf ∧
      ∃ n, play board piece poss.pos = Except.ok (poss.board, n) := by
    intro poss h
    obtain ⟨x, -, hx⟩ := forall2_mem_right _ _ _ hfa poss h
    exact hx.2
  obtain ⟨qs, hqs, hfq⟩ := mapM_forall2 (fun (poss : Possibility) => do
      let value ← count_legal_positions poss.board piece
      Except.ok ({ poss with value := value } : Possibility))
    (fun poss q => q.pos = poss.pos ∧ q.board = poss.board ∧
      count_legal_positions q.board piece = Except.ok q.value)
    ps (by
      intro poss h
      have h1 := count_legal_positions_eq (hpmem poss h).1 hm
      exact ⟨{ poss with value := ((all_positions.filter (legal poss.board piece)).length : Int) },
        by dsimp only; rw [h1]; rfl, rfl, rfl, h1⟩)
  have hqmap : qs.map (fun poss => poss.pos) = ps.map (fun poss => poss.pos) :=
    forall2_map_eq (fun (poss : Possibility) => poss.pos) (fun (poss : Possibility) => poss.pos)
      _ (fun x y h => h.1) _ _ hfq
  have hqmem : ∀ q ∈ qs, (∃ n, play board piece q.pos = Except.ok (q.board, n)) ∧
      count_legal_positions q.board piece = Except.ok q.value := by
    intro q h
    obtain ⟨poss, hposs, h1, h2, h3⟩ := forall2_mem_right _ _ _ hfq q h
    rw [h1, h2]
    exact ⟨(hpmem poss hposs).2, by rw [← h2]; exact h3⟩
  have hperm : (sort_by_value qs).Perm qs := List.perm_insertionSort _ qs
  by_cases hd : depth ≤ Int.tdiv self.max_depth 2
  · refine ⟨sort_by_value qs, ?_, ?_, ?_, ?_, fun h => absurd hd h⟩
    · simp only [ordered_candidates, hgl, bind_ok, pure_eq_ok, hps, if_pos hd, hqs]
    · rw [← hpmap, ← hqmap]
      exact hperm.map _
    · intro poss h
      exact (hqmem poss (hperm.mem_iff.1 h)).1
    · intro _
      exact ⟨fun poss h => (hqmem poss (hperm.mem_iff.1 h)).2, sort_by_value_sorted qs⟩
  · refine ⟨ps, ?_, ?_, ?_, fun h => absurd h hd, fun _ => hpmap⟩
    · simp only [ordered_candidates, hgl, bind_ok, pure_eq_ok, hps, if_neg hd]
    · rw [hpmap]
    · intro poss h
      exact (hpmem poss h).2

/-- C25: at a call of `search` on an 8x8 board that neither stops nor passes,
the exploration loop runs over the candidates of `get_legal_positions`, each
with the board after `play`; when `depth <= max_depth / 2` they are ordered by
non-decreasing `count_legal_positions(resulting board, mover)`, the mover's own
number of legal positions after the move, and when `depth > max_depth / 2` they
are in the order of `get_legal_positions`. -/
theorem candidates_explored_in_order (self : Computer_player) (board : Board_vec)
    (hwf : board.wf) (piece : Piece) (hm : piece = Piece.P1 ∨ piece = Piece.P2) (depth : Int) :
    ∃ fs ps, ordered_candidates self board piece depth = Except.ok fs ∧
      get_legal_positions board piece = Except.ok ps ∧
      (∀ (budget : Nat) (beta alpha : Int),
        (if self.search_to_end then game_over board
          else Except.ok (decide (depth = self.max_depth))) = Except.ok false →
        can_move board piece = Except.ok true →
        search self (budget + 1) board piece beta alpha depth
          = explore (search self budget) piece beta depth fs alpha
              (Possibility.of_value INT_MIN)) ∧
      (fs.map (fun poss => poss.pos)).Perm ps ∧
      (∀ poss ∈ fs, ∃ n, play board piece poss.pos = Except.ok (poss.board, n)) ∧
      (depth ≤ Int.tdiv self.max_depth 2 →
        (∀ poss ∈ fs, count_legal_positions poss.board piece = Except.ok poss.value) ∧
          fs.Pairwise (fun a b => a.value ≤ b.value)) ∧
      (depth > Int.tdiv self.max_depth 2 → fs.map (fun poss => poss.pos) = ps) := by
  have hne : piece ≠ Piece.EMPTY := by rcases hm with h | h <;> rw [h] <;> decide
  obtain ⟨fs, hfs, h1, h2, h3, h4⟩ := ordered_candidates_spec self hwf hne depth
  refine ⟨fs, legal_list board piece, hfs, get_legal_positions_eq hwf hne, ?_, h1, h2, h3,
    fun h => h4 (by omega)⟩
  intro budget beta alpha hstop hcan
  rw [search_expand self budget board piece beta alpha depth hstop hcan, hfs, bind_ok]

theorem candidates_explored_in_order_witness :
    ∃ fs ps, ordered_candidates ⟨Piece.P1, 7, 12, false⟩ reset_board Piece.P1 1 = Except.ok fs ∧
      get_legal_positions reset_board Piece.P1 = Except.ok ps ∧
      (∀ (budget : Nat) (beta alpha : Int),
        (if (⟨Piece.P1, 7, 12, false⟩ : Computer_player).search_to_end then game_over reset_board
          else Except.ok (decide ((1 : Int)
            = (⟨Piece.P1, 7, 12, false⟩ : Computer_player).max_depth))) = Except.ok false →
        can_move reset_board Piece.P1 = Except.ok true →
        search ⟨Piece.P1, 7, 12, false⟩ (budget + 1) reset_board Piece.P1 beta alpha 1
          = explore (search ⟨Piece.P1, 7, 12, false⟩ budget) Piece.P1 beta 1 fs alpha
              (Possibility.of_value INT_MIN)) ∧
      (fs.map (fun poss => poss.pos)).Perm ps ∧
      (∀ poss ∈ fs, ∃ n, play reset_board Piece.P1 poss.pos = Except.ok (poss.board, n)) ∧
      ((1 : Int) ≤ Int.tdiv (⟨Piece.P1, 7, 12, false⟩ : Computer_player).max_depth 2 →
        (∀ poss ∈ fs, count_legal_positions poss.board Piece.P1 = Except.ok poss.value) ∧
          fs.Pairwise (fun a b => a.value ≤ b.value)) ∧
      ((1 : Int) > Int.tdiv (⟨Piece.P1, 7, 12, false⟩ : Computer_player).max_depth 2 →
        fs.map (fun poss => poss.pos) = ps) :=
  candidates_explored_in_order ⟨Piece.P1, 7, 12, false⟩ reset_board (by decide) Piece.P1
    (by decide) 1

theorem after_three_moves_order :
    (ordered_candidates ⟨Piece.P2, 7, 12, false⟩ after_three_moves Piece.P2 1 >>= fun fs =>
      Except.ok (fs.map (fun poss => poss.pos), fs.map (fun poss => poss.value),
        fs.mapM (fun poss => count_legal_positions poss.board Piece.P1)))
      = Except.ok ([⟨6, 2⟩, ⟨2, 2⟩, ⟨2, 4⟩], [3, 5, 6], Except.ok [6, 5, 4]) := by
  set_option maxRecDepth 100000 in decide!

/-- C26: on the board reached from the start by (2,3), (4,2), (5,2), with P2 to
move at depth 1 and maximum depth 7 (so `depth <= max_depth / 2`), `search`
explores (6,2), (2,2), (2,4) in this order, the order of P2's own counts 3, 5,
6; the opponent's numbers of legal positions on the three resulting boards are
6, 5, 4, so the move leaving the opponent the most positions comes first. -/
theorem opponent_count_order_violated :
    ∃ fs, ordered_candidates ⟨Piece.P2, 7, 12, false⟩ after_three_moves Piece.P2 1
        = Except.ok fs ∧
      (∀ (budget : Nat) (beta alpha : Int),
        search ⟨Piece.P2, 7, 12, false⟩ (budget + 1) after_three_moves Piece.P2 beta alpha 1
          = explore (search ⟨Piece.P2, 7, 12, false⟩ budget) Piece.P2 beta 1 fs alpha
              (Possibility.of_value INT_MIN)) ∧
      (1 : Int) ≤ Int.tdiv 7 2 ∧
      fs.map (fun poss => poss.pos) = [⟨6, 2⟩, ⟨2, 2⟩, ⟨2, 4⟩] ∧
      fs.map (fun poss => poss.value) = [3, 5, 6] ∧
      fs.mapM (fun poss => count_legal_positions poss.board (get_opponent Piece.P2))
        = Except.ok [6, 5, 4] ∧
      ¬ ([6, 5, 4] : List Int).Pairwise (fun a b => a ≤ b) := by
  have h := after_three_moves_order
  cases hfs : ordered_candidates ⟨Piece.P2, 7, 12, false⟩ after_three_moves Piece.P2 1 with
  | error e => rw [hfs] at h; cases h
  | ok fs =>
    rw [hfs, bind_ok] at h
    have h' := Except.ok.inj h
    simp only [Prod.mk.injEq] at h'
    refine ⟨fs, rfl, ?_, by decide, h'.1, h'.2.1, h'.2.2, by decide⟩
    intro budget beta alpha
    have hcan : can_move after_three_moves Piece.P2 = Except.ok true := by
      set_option maxRecDepth 100000 in decide!
    rw [search_expand ⟨Piece.P2, 7, 12, false⟩ budget after_three_moves Piece.P2 beta alpha 1
      (by decide) hcan, hfs, bind_ok]


theorem terminal_score_neg {v : Int} (h : terminal_score v) : terminal_score (-v) := by
  obtain ⟨b, q, h1, h2, h3, h4⟩ := h
  refine ⟨b, q, h1, h2, h3, ?_⟩
  rcases h4 with h | h
  · right; rw [neg_neg]; exact h
  · left; exact h

theorem terminal_score_range {v : Int} (h : terminal_score v) :
    -INT_MAX ≤ v ∧ v ≤ INT_MAX := by
  obtain ⟨b, q, h1, -, -, h4⟩ := h
  obtain ⟨w, hw, b1, b2⟩ := evaluate_ok h1 q
  rcases h4 with h | h <;> rw [hw] at h <;> have := Except.ok.inj h <;> omega

theorem terminal_score_large {v : Int} (h : terminal_score v) : 536870912 ≤ |v| := by
  obtain ⟨b, q, h1, h2, h3, h4⟩ := h
  have c1 := count_pieces_bounds h1 q
  have c2 := count_pieces_bounds h1 (get_opponent q)
  have key : ∃ w, evaluate b q = Except.ok w ∧ (w ≤ -536870912 ∨ 536870912 ≤ w) := by
    rcases lt_trichotomy (count_pieces b q) (count_pieces b (get_opponent q)) with h | h | h
    · exact ⟨_, evaluate_loss h2 h3 h, Or.inl (by omega)⟩
    · refine ⟨_, evaluate_tie q h3 ?_, Or.inl (le_refl _)⟩
      rcases h2 with e | e <;> subst e <;> simp only [get_opponent] at h <;> omega
    · exact ⟨_, evaluate_win h2 h3 h, Or.inr (by omega)⟩
  obtain ⟨w, hw, hb⟩ := key
  rw [hw] at h4
  rw [le_abs]
  rcases h4 with h | h <;> have := Except.ok.inj h <;> omega

/-- The value returned by the exploration loop satisfies every property that
holds of the values of the recursive calls and is kept by negation. -/
theorem explore_invariant (Q : Int → Prop) (hneg : ∀ v, Q v → Q (-v))
    (hrange : ∀ v, Q v → -INT_MAX ≤ v ∧ v ≤ INT_MAX)
    (recurse : Board_vec → Piece → Int → Int → Int → Except Fault Possibility)
    (piece : Piece) (beta depth : Int) :
    ∀ (l : List Possibility),
      (∀ poss ∈ l, ∀ a b d child, recurse poss.board (get_opponent piece) a b d
        = Except.ok child → Q child.value) →
      ∀ (alpha : Int) (max_poss res : Possibility),
        explore recurse piece beta depth l alpha max_poss = Except.ok res →
        (Q max_poss.value ∨ (max_poss.value = INT_MIN ∧ l ≠ [])) → Q res.value := by
  intro l
  induction l with
  | nil =>
    intro _ alpha max_poss res h hq
    simp only [explore, pure_eq_ok] at h
    cases h
    rcases hq with hq | ⟨-, hq⟩
    · exact hq
    · exact absurd rfl hq
  | cons poss rest ih =>
    intro hrec alpha max_poss res h hq
    have ih' := ih (fun q hq => hrec q (List.mem_cons_of_mem _ hq))
    simp only [explore] at h
    cases hr : recurse poss.board (get_opponent piece) (wrap32 (-alpha)) (wrap32 (-beta))
        (wrap32 (depth + 1)) with
    | error e => rw [hr] at h; cases h
    | ok child =>
      rw [hr, bind_ok] at h
      have hc := hrec poss (List.mem_cons_self _ _) _ _ _ child hr
      obtain ⟨r1, r2⟩ := hrange _ hc
      obtain ⟨e, e1, e2⟩ := wrap32_neg_bounds r1 r2
      have hv : Q (wrap32 (-1 * child.value)) := by rw [e]; exact hneg _ hc
      by_cases h1 : wrap32 (-1 * child.value) > max_poss.value
      · rw [if_pos h1] at h
        by_cases h2 : max alpha (wrap32 (-1 * child.value)) ≥ beta
        · rw [if_pos h2] at h
          cases h
          exact hv
        · rw [if_neg h2] at h
          exact ih' _ _ _ h (Or.inl hv)
      · rw [if_neg h1] at h
        refine ih' _ _ _ h (Or.inl ?_)
        rcases hq with hq | ⟨hq, -⟩
        · exact hq
        · exfalso
          rw [hq] at h1
          simp only [INT_MAX, INT_MIN] at *
          omega

/-- In to-completion mode every value that `search` returns is, up to sign, the
value of `evaluate` on a game-over board. -/
theorem search_to_end_terminal (self : Computer_player) (hflag : self.search_to_end = true) :
    ∀ (budget : Nat) (board : Board_vec) (piece : Piece) (beta alpha depth : Int),
      board.wf → (piece = Piece.P1 ∨ piece = Piece.P2) → ∀ p : Possibility,
      search self budget board piece beta alpha depth = Except.ok p →
      terminal_score p.value := by
  intro budget
  induction budget with
  | zero =>
    intro board piece beta alpha depth _ _ p h
    cases h
  | succ budget ih =>
    intro board piece beta alpha depth hwf hm p h
    have hne : piece ≠ Piece.EMPTY := by rcases hm with e | e <;> rw [e] <;> decide
    have hopp : get_opponent piece = Piece.P1 ∨ get_opponent piece = Piece.P2 := by
      rcases hm with e | e <;> rw [e] <;> simp [get_opponent]
    have hgo := game_over_eq hwf
    cases hover : decide (all_positions.filter (legal board Piece.P1) = [] ∧
        all_positions.filter (legal board Piece.P2) = []) with
    | true =>
      rw [hover] at hgo
      obtain ⟨ev, hev, -, -⟩ := evaluate_ok hwf piece
      simp only [search, hflag, if_true, hgo, bind_ok, hev, pure_eq_ok] at h
      cases h
      exact ⟨board, piece, hwf, hm, hgo, Or.inl hev⟩
    | false =>
      rw [hover] at hgo
      obtain ⟨hpass, -⟩ := search_unfold self hflag hwf hne hgo beta alpha depth budget
      by_cases hnone : legal_list board piece = []
      · obtain ⟨-, heq⟩ := hpass hnone
        rw [heq] at h
        cases hr : search self budget board (get_opponent piece) (wrap32 (-alpha))
            (wrap32 (-beta)) (wrap32 (depth + 1)) with
        | error e => rw [hr] at h; cases h
        | ok child =>
          rw [hr, bind_ok] at h
          cases h
          have hc := ih board (get_opponent piece) _ _ _ hwf hopp child hr
          obtain ⟨r1, r2⟩ := terminal_score_range hc
          obtain ⟨e, -, -⟩ := wrap32_neg_bounds r1 r2
          show terminal_score (wrap32 (-1 * child.value))
          rw [e]
          exact terminal_score_neg hc
      · obtain ⟨fs, hfs, hperm, hplay, -⟩ := ordered_candidates_spec self hwf hne depth
        have hstop : (if self.search_to_end then game_over board
            else Except.ok (decide (depth = self.max_depth))) = Except.ok false := by
          rw [hflag, if_pos rfl]; exact hgo
        have hcan : can_move board piece = Except.ok true := by
          rw [can_move_eq hwf hne]
          congr 1
          exact decide_eq_true hnone
        rw [search_expand self budget board piece beta alpha depth hstop hcan, hfs, bind_ok] at h
        have hfne : fs ≠ [] := by
          intro hnil
          rw [hnil] at hperm
          exact hnone (List.Perm.eq_nil hperm.symm)
        have hfwf : ∀ poss ∈ fs, poss.board.wf := by
          intro poss hposs
          have hmem : poss.pos ∈ legal_list board piece :=
            hperm.mem_iff.1 (List.mem_map.2 ⟨poss, hposs, rfl⟩)
          obtain ⟨b', n, hp, hwf', -⟩ := play_legal hwf hne hmem
          obtain ⟨m, hp'⟩ := hplay poss hposs
          rw [hp] at hp'
          have := Except.ok.inj hp'
          rw [← (Prod.mk.inj this).1]
          exact hwf'
        exact explore_invariant terminal_score (fun v => terminal_score_neg)
          (fun v => terminal_score_range) (search self budget) piece beta depth fs
          (fun poss hposs a b d child hr =>
            ih poss.board (get_opponent piece) a b d (hfwf poss hposs) hopp child hr)
          alpha _ p h (Or.inr ⟨rfl, hfne⟩)

/-- C24: with the to-completion flag set, on an 8x8 board and for a mover in
P1, P2, `search` calls `evaluate` at a node exactly when `game_over` holds
there (otherwise the node passes or runs the exploration loop), and it returns
a score that is plus or minus the value of `evaluate` on a game-over board:
its absolute value is at least 536870912 and it is not the value of `evaluate`
on any board that is not game over; the maximum depth plays no role. -/
theorem search_to_end_scores (self : Computer_player) (hflag : self.search_to_end = true)
    (board : Board_vec) (hwf : board.wf) (piece : Piece)
    (hm : piece = Piece.P1 ∨ piece = Piece.P2) (beta alpha depth : Int) :
    (game_over board = Except.ok true → ∀ budget : Nat,
      search self (budget + 1) board piece beta alpha depth
        = evaluate board piece >>= fun v => Except.ok (Possibility.of_value v)) ∧
    (game_over board = Except.ok false → ∀ budget : Nat,
      (legal_list board piece = [] →
        search self (budget + 1) board piece beta alpha depth
          = (search self budget board (get_opponent piece) (wrap32 (-alpha)) (wrap32 (-beta))
              (wrap32 (depth + 1))) >>= fun child =>
                Except.ok (Possibility.of_value (wrap32 (-1 * child.value)))) ∧
      (legal_list board piece ≠ [] →
        search self (budget + 1) board piece beta alpha depth
          = ordered_candidates self board piece depth >>= fun possibilities =>
              explore (search self budget) piece beta depth possibilities alpha
                (Possibility.of_value INT_MIN))) ∧
    ∃ p, (∀ budget : Nat, 130 ≤ budget →
        search self budget board piece beta alpha depth = Except.ok p) ∧
      terminal_score p.value ∧ 536870912 ≤ |p.value| ∧
      ∀ (b : Board_vec) (q : Piece), b.wf → game_over b = Except.ok false →
        evaluate b q ≠ Except.ok p.value := by
  have hne : piece ≠ Piece.EMPTY := by rcases hm with e | e <;> rw [e] <;> decide
  refine ⟨?_, ?_, ?_⟩
  · intro hover budget
    simp only [search, hflag, if_true, hover, bind_ok, pure_eq_ok]
  · intro hover budget
    refine ⟨fun hnone => ((search_unfold self hflag hwf hne hover beta alpha depth budget).1
      hnone).2, fun hsome => ?_⟩
    have hstop : (if self.search_to_end then game_over board
        else Except.ok (decide (depth = self.max_depth))) = Except.ok false := by
      rw [hflag, if_pos rfl]; exact hover
    have hcan : can_move board piece = Except.ok true := by
      rw [can_move_eq hwf hne]
      congr 1
      exact decide_eq_true hsome
    exact search_expand self budget board piece beta alpha depth hstop hcan
  · have hE := (count_pieces_bounds hwf Piece.EMPTY).2
    have hen : enough self 130 board piece depth := by
      unfold enough
      rw [hflag]
      simp only [if_true]
      split_ifs <;> push_cast <;> omega
    obtain ⟨p, -, -, -, hp⟩ := search_returns_stable self hwf hne beta alpha depth 130 hen
    have ht := search_to_end_terminal self hflag 130 board piece beta alpha depth hwf hm p
      (hp 130 (le_refl _))
    have hl := terminal_score_large ht
    refine ⟨p, hp, ht, hl, ?_⟩
    intro b q hb hover heq
    rw [evaluate_mid hb q hover] at heq
    have h1 := weighted_difference_bound b q
    rw [Except.ok.inj heq] at h1
    omega

theorem search_to_end_scores_witness :
    ∃ p, (∀ budget : Nat, 130 ≤ budget →
        search ⟨Piece.P1, 7, 12, true⟩ budget reset_board Piece.P1 INT_MAX INT_MIN 1
          = Except.ok p) ∧
      terminal_score p.value ∧ 536870912 ≤ |p.value| ∧
      ∀ (b : Board_vec) (q : Piece), b.wf → game_over b = Except.ok false →
        evaluate b q ≠ Except.ok p.value :=
  (search_to_end_scores ⟨Piece.P1, 7, 12, true⟩ rfl reset_board (by decide) Piece.P1
    (by decide) INT_MAX INT_MIN 1).2.2


theorem trap_bind_ok {α β : Type} (a : α) (f : α → Except Trap β) :
    (Except.ok a >>= f) = f a := rfl

theorem trap_bind_error {α β : Type} (e : Trap) (f : α → Except Trap β) :
    (Except.error e >>= f) = Except.error e := rfl

theorem trap_pure {α : Type} (a : α) : (pure a : Except Trap α) = Except.ok a := rfl

theorem checked32_neg_int_min : checked32 (-INT_MIN) = Except.error Trap.overflow := by
  decide

theorem checked32_ok {x y : Int} (h : checked32 x = Except.ok y) : y = x ∧ wrap32 x = x := by
  unfold checked32 at h
  split_ifs at h with hx
  cases h
  refine ⟨rfl, ?_⟩
  simp only [INT_MIN, INT_MAX, wrap32] at *
  omega

theorem watch_ok {α : Type} {r : Except Fault α} {a : α} (h : watch r = Except.ok a) :
    r = Except.ok a := by
  cases r with
  | error e => cases h
  | ok b => cases h; rfl

/-- A top-level call with `alpha = INT_MIN` that neither stops nor fails
negates `INT_MIN`. -/
theorem root_overflow (self : Computer_player) {board : Board_vec} (hwf : board.wf)
    {piece : Piece} (hm : piece ≠ Piece.EMPTY) (beta depth : Int)
    (hstop : (if self.search_to_end then game_over board
      else Except.ok (decide (depth = self.max_depth))) = Except.ok false) (budget : Nat) :
    search_checked self (budget + 1) board piece beta INT_MIN depth
      = Except.error Trap.overflow := by
  have hcm := can_move_eq hwf hm
  simp only [search_checked, pure_eq_ok, hstop, watch, trap_bind_ok, Bool.false_eq_true, if_false,
    hcm]
  by_cases hnone : legal_list board piece = []
  · have hdec : decide (all_positions.filter (legal board piece) ≠ []) = false := by
      simpa [legal_list] using hnone
    simp only [hdec, Bool.not_false, if_true, checked32_neg_int_min, trap_bind_error]
  · have hdec : decide (all_positions.filter (legal board piece) ≠ []) = true := by
      simpa [legal_list] using hnone
    obtain ⟨fs, hfs, hperm, -⟩ := ordered_candidates_spec self hwf hm depth
    have hfne : fs ≠ [] := by
      intro hnil
      rw [hnil] at hperm
      exact hnone (List.Perm.eq_nil hperm.symm)
    obtain ⟨poss, rest, rfl⟩ := List.exists_cons_of_ne_nil hfne
    simp only [hdec, Bool.not_true, Bool.false_eq_true, if_false, hfs, trap_bind_ok,
      explore_checked, checked32_neg_int_min, trap_bind_error]

/-- Where the watched loop returns, the plain loop returns the same. -/
theorem explore_checked_sound
    (rc : Board_vec → Piece → Int → Int → Int → Except Trap Possibility)
    (ru : Board_vec → Piece → Int → Int → Int → Except Fault Possibility)
    (hrec : ∀ b p be al d r, rc b p be al d = Except.ok r → ru b p be al d = Except.ok r)
    (piece : Piece) (beta depth : Int) :
    ∀ (l : List Possibility) (alpha : Int) (max_poss res : Possibility),
      explore_checked rc piece beta depth l alpha max_poss = Except.ok res →
      explore ru piece beta depth l alpha max_poss = Except.ok res := by
  intro l
  induction l with
  | nil =>
    intro alpha max_poss res h
    simp only [explore_checked, trap_pure] at h
    cases h
    rfl
  | cons poss rest ih =>
    intro alpha max_poss res h
    simp only [explore_checked] at h
    cases h1 : checked32 (-alpha) with
    | error e => rw [h1] at h; cases h
    | ok na =>
      rw [h1, trap_bind_ok] at h
      cases h2 : checked32 (-beta) with
      | error e => rw [h2] at h; cases h
      | ok nb =>
        rw [h2, trap_bind_ok] at h
        cases h3 : checked32 (depth + 1) with
        | error e => rw [h3] at h; cases h
        | ok nd =>
          rw [h3, trap_bind_ok] at h
          cases h4 : rc poss.board (get_opponent piece) na nb nd with
          | error e => rw [h4] at h; cases h
          | ok child =>
            rw [h4, trap_bind_ok] at h
            cases h5 : checked32 (-1 * child.value) with
            | error e => rw [h5] at h; cases h
            | ok value =>
              rw [h5, trap_bind_ok] at h
              obtain ⟨e1, w1⟩ := checked32_ok h1
              obtain ⟨e2, w2⟩ := checked32_ok h2
              obtain ⟨e3, w3⟩ := checked32_ok h3
              obtain ⟨e5, w5⟩ := checked32_ok h5
              have hu := hrec _ _ _ _ _ _ h4
              rw [e1, e2, e3] at hu
              simp only [explore, w1, w2, w3, hu, bind_ok, w5]
              rw [e5] at h
              by_cases c1 : -1 * child.value > max_poss.value
              · rw [if_pos c1] at h ⊢
                by_cases c2 : max alpha (-1 * child.value) ≥ beta
                · rw [if_pos c2] at h ⊢
                  simp only [trap_pure] at h
                  cases h
                  rfl
                · rw [if_neg c2] at h ⊢
                  exact ih _ _ _ h
              · rw [if_neg c1] at h ⊢
                exact ih _ _ _ h

/-- Where the watched search returns, `search` returns the same. -/
theorem search_checked_sound (self : Computer_player) :
    ∀ (budget : Nat) (board : Board_vec) (piece : Piece) (beta alpha depth : Int)
      (r : Possibility),
      search_checked self budget board piece beta alpha depth = Except.ok r →
      search self budget board piece beta alpha depth = Except.ok r := by
  intro budget
  induction budget with
  | zero => intro board piece beta alpha depth r h; cases h
  | succ budget ih =>
    intro board piece beta alpha depth r h
    simp only [search_checked, pure_eq_ok] at h
    cases hs : (if self.search_to_end then game_over board
        else Except.ok (decide (depth = self.max_depth))) with
    | error e => rw [hs] at h; cases h
    | ok stop =>
      rw [hs] at h
      simp only [watch, trap_bind_ok] at h
      cases stop with
      | true =>
        simp only [if_true] at h
        cases he : evaluate board piece with
        | error e => rw [he] at h; cases h
        | ok v =>
          rw [he] at h
          simp only [trap_bind_ok, trap_pure] at h
          cases h
          simp only [search, pure_eq_ok, hs, bind_ok, if_true, he]
      | false =>
        simp only [Bool.false_eq_true, if_false] at h
        cases hc : can_move board piece with
        | error e => rw [hc] at h; cases h
        | ok can =>
          rw [hc] at h
          simp only [trap_bind_ok] at h
          cases can with
          | false =>
            simp only [Bool.not_false, if_true] at h
            cases h1 : checked32 (-alpha) with
            | error e => rw [h1] at h; cases h
            | ok na =>
              rw [h1, trap_bind_ok] at h
              cases h2 : checked32 (-beta) with
              | error e => rw [h2] at h; cases h
              | ok nb =>
                rw [h2, trap_bind_ok] at h
                cases h3 : checked32 (depth + 1) with
                | error e => rw [h3] at h; cases h
                | ok nd =>
                  rw [h3, trap_bind_ok] at h
                  cases h4 : search_checked self budget board (get_opponent piece) na nb nd with
                  | error e => rw [h4] at h; cases h
                  | ok child =>
                    rw [h4, trap_bind_ok] at h
                    cases h5 : checked32 (-1 * child.value) with
                    | error e => rw [h5] at h; cases h
                    | ok value =>
                      rw [h5, trap_bind_ok] at h
                      simp only [trap_pure] at h
                      cases h
                      obtain ⟨e1, w1⟩ := checked32_ok h1
                      obtain ⟨e2, w2⟩ := checked32_ok h2
                      obtain ⟨e3, w3⟩ := checked32_ok h3
                      obtain ⟨e5, w5⟩ := checked32_ok h5
                      have hu := ih _ _ _ _ _ _ h4
                      rw [e1, e2, e3] at hu
                      simp only [search, pure_eq_ok, hs, bind_ok, Bool.false_eq_true, if_false,
                        hc, Bool.not_false, if_true, w1, w2, w3, hu, w5, e5]
          | true =>
            simp only [Bool.not_true, Bool.false_eq_true, if_false] at h
            cases ho : ordered_candidates self board piece depth with
            | error e => rw [ho] at h; cases h
            | ok fs =>
              rw [ho] at h
              simp only [trap_bind_ok] at h
              rw [search_expand self budget board piece beta alpha depth hs hc, ho, bind_ok]
              exact explore_checked_sound (search_checked self budget) (search self budget)
                (fun b p be al d r hr => ih b p be al d r hr) piece beta depth fs alpha _ r h

theorem checked32_of_range {x : Int} (h1 : INT_MIN ≤ x) (h2 : x ≤ INT_MAX) :
    checked32 x = Except.ok x := by
  unfold checked32
  rw [if_pos ⟨h1, h2⟩]

theorem ordered_candidates_good (self : Computer_player) {board : Board_vec} (hwf : board.wf)
    {piece : Piece} (hm : piece ≠ Piece.EMPTY) (depth : Int) :
    ∃ fs, ordered_candidates self board piece depth = Except.ok fs ∧
      (legal_list board piece ≠ [] → fs ≠ []) ∧ ∀ poss ∈ fs, good board piece poss := by
  obtain ⟨fs, hfs, hperm, hplay, -⟩ := ordered_candidates_spec self hwf hm depth
  refine ⟨fs, hfs, ?_, ?_⟩
  · intro hne hnil
    rw [hnil] at hperm
    exact hne (List.Perm.eq_nil hperm.symm)
  · intro poss hposs
    have hmem : poss.pos ∈ legal_list board piece :=
      hperm.mem_iff.1 (List.mem_map.2 ⟨poss, hposs, rfl⟩)
    obtain ⟨b', n, hp, hwf', hcnt⟩ := play_legal hwf hm hmem
    obtain ⟨m, hp'⟩ := hplay poss hposs
    rw [hp] at hp'
    have hb := (Prod.mk.inj (Except.ok.inj hp')).1
    rw [hb] at hwf' hcnt
    exact ⟨hwf', hcnt, hmem⟩

/-- The watched loop returns when the recursive calls do and `alpha`, `beta`
and `depth + 1` are away from the ends of the `int` range. -/
theorem explore_checked_spec
    (recurse : Board_vec → Piece → Int → Int → Int → Except Trap Possibility)
    (piece : Piece) (beta depth : Int) (hb1 : -INT_MAX ≤ beta) (hb2 : beta ≤ INT_MAX)
    (hd1 : INT_MIN ≤ depth + 1) (hd2 : depth + 1 ≤ INT_MAX) :
    ∀ (l : List Possibility),
      (∀ poss ∈ l, ∀ a b, -INT_MAX ≤ a → a ≤ INT_MAX → -INT_MAX ≤ b → b ≤ INT_MAX →
        ∃ r, recurse poss.board (get_opponent piece) a b (depth + 1) = Except.ok r ∧
          -INT_MAX ≤ r.value ∧ r.value ≤ INT_MAX) →
      ∀ (alpha : Int) (max_poss : Possibility), -INT_MAX ≤ alpha → alpha ≤ INT_MAX →
        ∃ res, explore_checked recurse piece beta depth l alpha max_poss = Except.ok res ∧
          (res = max_poss ∨ (-INT_MAX ≤ res.value ∧ res.value ≤ INT_MAX)) ∧
          (max_poss.value = INT_MIN → l ≠ [] →
            -INT_MAX ≤ res.value ∧ res.value ≤ INT_MAX) := by
  intro l
  induction l with
  | nil =>
    intro _ alpha max_poss _ _
    exact ⟨max_poss, rfl, Or.inl rfl, fun _ h => absurd rfl h⟩
  | cons poss rest ih =>
    intro hrec alpha max_poss ha1 ha2
    have ih' := ih (fun q hq => hrec q (List.mem_cons_of_mem _ hq))
    have na : checked32 (-alpha) = Except.ok (-alpha) :=
      checked32_of_range (by simp only [INT_MIN, INT_MAX] at *; omega)
        (by simp only [INT_MAX] at *; omega)
    have nb : checked32 (-beta) = Except.ok (-beta) :=
      checked32_of_range (by simp only [INT_MIN, INT_MAX] at *; omega)
        (by simp only [INT_MAX] at *; omega)
    have nd : checked32 (depth + 1) = Except.ok (depth + 1) := checked32_of_range hd1 hd2
    obtain ⟨child, hc, c1, c2⟩ := hrec poss (List.mem_cons_self _ _) (-alpha) (-beta)
      (by simp only [INT_MAX] at *; omega) (by simp only [INT_MAX] at *; omega)
      (by simp only [INT_MAX] at *; omega) (by simp only [INT_MAX] at *; omega)
    have nv : checked32 (-1 * child.value) = Except.ok (-1 * child.value) :=
      checked32_of_range (by simp only [INT_MIN, INT_MAX] at *; omega)
        (by simp only [INT_MAX] at *; omega)
    have v1 : -INT_MAX ≤ -1 * child.value := by simp only [INT_MAX] at *; omega
    have v2 : -1 * child.value ≤ INT_MAX := by simp only [INT_MAX] at *; omega
    simp only [explore_checked, na, nb, nd, hc, nv, trap_bind_ok]
    by_cases h1 : -1 * child.value > max_poss.value
    · rw [if_pos h1]
      by_cases h2 : max alpha (-1 * child.value) ≥ beta
      · rw [if_pos h2]
        exact ⟨_, rfl, Or.inr ⟨v1, v2⟩, fun _ _ => ⟨v1, v2⟩⟩
      · rw [if_neg h2]
        obtain ⟨res, hres, hor, -⟩ := ih' (max alpha (-1 * child.value))
          { poss with value := -1 * child.value } (le_trans ha1 (le_max_left _ _))
          (max_le ha2 v2)
        have hrange : -INT_MAX ≤ res.value ∧ res.value ≤ INT_MAX := by
          rcases hor with h | h
          · rw [h]; exact ⟨v1, v2⟩
          · exact h
        exact ⟨res, hres, Or.inr hrange, fun _ _ => hrange⟩
    · rw [if_neg h1]
      obtain ⟨res, hres, hor, -⟩ := ih' alpha max_poss ha1 ha2
      refine ⟨res, hres, hor, fun hmin _ => ?_⟩
      exfalso
      rw [hmin] at h1
      simp only [INT_MAX, INT_MIN] at *
      omega

/-- The watched search returns, without overflow, when it is started with
`alpha` and `beta` in `[-INT_MAX, INT_MAX]`. -/
theorem search_checked_spec (self : Computer_player) :
    ∀ (budget : Nat) (board : Board_vec) (piece : Piece) (beta alpha depth : Int),
      board.wf → piece ≠ Piece.EMPTY → enough self budget board piece depth →
      -INT_MAX ≤ alpha → alpha ≤ INT_MAX → -INT_MAX ≤ beta → beta ≤ INT_MAX →
      INT_MIN ≤ depth → (self.search_to_end = true → depth + budget ≤ INT_MAX) →
      ∃ p, search_checked self budget board piece beta alpha depth = Except.ok p ∧
        -INT_MAX ≤ p.value ∧ p.value ≤ INT_MAX := by
  intro budget
  induction budget with
  | zero =>
    intro board piece beta alpha depth hwf hm hen
    exfalso
    have hE := (count_pieces_bounds hwf Piece.EMPTY).1
    unfold enough at hen
    split_ifs at hen <;> simp at hen <;> omega
  | succ budget ih =>
    intro board piece beta alpha depth hwf hm hen ha1 ha2 hb1 hb2 hd1 hd2
    have hom := (opponent_ne hm).2
    have hgo : game_over board = Except.ok (decide (legal_list board Piece.P1 = [] ∧
        legal_list board Piece.P2 = [])) := game_over_eq hwf
    have hcm : can_move board piece = Except.ok (decide (legal_list board piece ≠ [])) :=
      can_move_eq hwf hm
    obtain ⟨ev, hev, hev1, hev2⟩ := evaluate_ok hwf piece
    have hstop : ∃ stop : Bool, (if self.search_to_end then game_over board
          else Except.ok (decide (depth = self.max_depth))) = Except.ok stop ∧
        (stop = false → (self.search_to_end = true ∧
            ¬ (legal_list board Piece.P1 = [] ∧ legal_list board Piece.P2 = [])) ∨
          (self.search_to_end = false ∧ depth ≠ self.max_depth)) := by
      cases hflag : self.search_to_end with
      | true =>
        refine ⟨_, by simp only [if_true]; exact hgo, ?_⟩
        intro h
        left
        exact ⟨rfl, of_decide_eq_false h⟩
      | false =>
        refine ⟨decide (depth = self.max_depth), by simp, ?_⟩
        intro h; right; exact ⟨rfl, of_decide_eq_false h⟩
    obtain ⟨stop, hstop_eq, hstop_f⟩ := hstop
    -- the increment of `depth` stays in range at a call that recurses
    have hdepth : stop = false → INT_MIN ≤ depth + 1 ∧ depth + 1 ≤ INT_MAX ∧
        (self.search_to_end = true → depth + 1 + budget ≤ INT_MAX) := by
      intro hs
      rcases hstop_f hs with ⟨hflag, -⟩ | ⟨hflag, hne⟩
      · have := hd2 hflag
        push_cast at this
        refine ⟨by simp only [INT_MIN] at *; omega, by omega, fun _ => by omega⟩
      · unfold enough at hen
        rw [hflag] at hen
        simp only [Bool.false_eq_true, if_false] at hen
        refine ⟨by simp only [INT_MIN] at *; omega, by omega, fun h => ?_⟩
        rw [hflag] at h
        cases h
    have hchild : ∀ b : Board_vec, b.wf →
        ((b = board ∧ legal_list board piece = []) ∨
          count_pieces b Piece.EMPTY = count_pieces board Piece.EMPTY - 1) →
        stop = false → enough self budget b (get_opponent piece) (depth + 1) := by
      intro b hb hcase hs
      have hEb := (count_pieces_bounds hb Piece.EMPTY).1
      unfold enough at hen ⊢
      rcases hstop_f hs with ⟨hflag, hno⟩ | ⟨hflag, hne⟩
      · rw [hflag] at hen ⊢
        simp only [if_true] at hen ⊢
        rcases hcase with ⟨rfl, hnone⟩ | hE
        · have := opponent_can_move_of_not_over hm hno hnone
          rw [if_pos hnone] at hen
          rw [if_neg this]
          push_cast at hen
          omega
        · rw [hE]
          push_cast at hen
          split_ifs at hen ⊢ <;> omega
      · rw [hflag] at hen ⊢
        simp only [Bool.false_eq_true, if_false] at hen ⊢
        push_cast at hen
        simp only [INT_MAX] at hen ⊢
        omega
    simp only [search_checked, pure_eq_ok, hstop_eq, watch, trap_bind_ok]
    cases hs : stop with
    | true =>
      simp only [if_true, hev, trap_bind_ok, trap_pure]
      exact ⟨_, rfl, hev1, hev2⟩
    | false =>
      obtain ⟨hdl, hdu, hdn⟩ := hdepth hs
      have na : checked32 (-alpha) = Except.ok (-alpha) :=
        checked32_of_range (by simp only [INT_MIN, INT_MAX] at *; omega)
          (by simp only [INT_MAX] at *; omega)
      have nb : checked32 (-beta) = Except.ok (-beta) :=
        checked32_of_range (by simp only [INT_MIN, INT_MAX] at *; omega)
          (by simp only [INT_MAX] at *; omega)
      have nd : checked32 (depth + 1) = Except.ok (depth + 1) := checked32_of_range hdl hdu
      simp only [Bool.false_eq_true, if_false, hcm, trap_bind_ok]
      by_cases hnone : legal_list board piece = []
      · obtain ⟨r, hr, hr1, hr2⟩ := ih board (get_opponent piece) (-alpha) (-beta) (depth + 1)
          hwf hom (hchild board hwf (Or.inl ⟨rfl, hnone⟩) hs)
          (by simp only [INT_MAX] at *; omega) (by simp only [INT_MAX] at *; omega)
          (by simp only [INT_MAX] at *; omega) (by simp only [INT_MAX] at *; omega)
          hdl hdn
        have nv : checked32 (-1 * r.value) = Except.ok (-1 * r.value) :=
          checked32_of_range (by simp only [INT_MIN, INT_MAX] at *; omega)
            (by simp only [INT_MAX] at *; omega)
        have hdec : decide (legal_list board piece ≠ []) = false := by simp [hnone]
        simp only [hdec, Bool.not_false, if_true, na, nb, nd, hr, nv, trap_bind_ok, trap_pure]
        exact ⟨_, rfl, by simp only [Possibility.of_value, INT_MAX] at *; omega,
          by simp only [Possibility.of_value, INT_MAX] at *; omega⟩
      · obtain ⟨fs, hfs, hfne, hfgood⟩ := ordered_candidates_good self hwf hm depth
        have hrec : ∀ poss ∈ fs, ∀ a b, -INT_MAX ≤ a → a ≤ INT_MAX → -INT_MAX ≤ b →
            b ≤ INT_MAX →
            ∃ r, search_checked self budget poss.board (get_opponent piece) a b (depth + 1)
              = Except.ok r ∧ -INT_MAX ≤ r.value ∧ r.value ≤ INT_MAX := by
          intro poss hposs a b a1 a2 b1 b2
          obtain ⟨g1, g2, -⟩ := hfgood poss hposs
          exact ih poss.board (get_opponent piece) a b (depth + 1) g1 hom
            (hchild poss.board g1 (Or.inr g2) hs) b1 b2 a1 a2 hdl hdn
        obtain ⟨res, hres, -, hmain⟩ := explore_checked_spec (search_checked self budget) piece
          beta depth hb1 hb2 hdl hdu fs hrec alpha (Possibility.of_value INT_MIN) ha1 ha2
        have hdec : decide (legal_list board piece ≠ []) = true := by simp [hnone]
        simp only [hdec, Bool.not_true, Bool.false_eq_true, if_false, hfs, trap_bind_ok, hres]
        exact ⟨res, rfl, hmain rfl (hfne hnone)⟩

/-- Every sum that `evaluate` computes on an 8x8 board is far inside the range
of a 32-bit `int`: the two running weights after any number of cells, the
margin, the two sentinels plus the margin, and the returned value. -/
theorem evaluate_sums_in_range {board : Board_vec} (hwf : board.wf) (piece : Piece) :
    (∀ n : Nat, ∃ acc, (all_positions.take n).foldlM (weigh_cell board piece) (0, 0)
        = Except.ok acc ∧ -1536 ≤ acc.1 ∧ acc.1 ≤ 6336 ∧ -1536 ≤ acc.2 ∧ acc.2 ≤ 6336) ∧
      -64 ≤ count_pieces board piece - count_pieces board (get_opponent piece) ∧
      count_pieces board piece - count_pieces board (get_opponent piece) ≤ 64 ∧
      Int.tdiv INT_MAX 2 + 64 ≤ INT_MAX ∧ INT_MIN ≤ Int.tdiv INT_MIN 2 - 64 ∧
      ∃ v, evaluate board piece = Except.ok v ∧ INT_MIN ≤ v ∧ v ≤ INT_MAX := by
  have c1 := count_pieces_bounds hwf piece
  have c2 := count_pieces_bounds hwf (get_opponent piece)
  obtain ⟨v, hv, v1, v2⟩ := evaluate_ok hwf piece
  refine ⟨?_, by omega, by omega, by decide, by decide, v, hv,
    by simp only [INT_MIN, INT_MAX] at *; omega, v2⟩
  intro n
  obtain ⟨acc, h, b1, b2, b3, b4⟩ := weigh_fold hwf piece (all_positions.take n)
    (fun p hp => (mem_all_positions p).1 (List.mem_of_mem_take hp)) (0, 0)
  have hlen : ((all_positions.take n).length : Int) ≤ 64 := by
    have : (all_positions.take n).length ≤ all_positions.length := by
      rw [List.length_take]; exact min_le_right _ _
    rw [all_positions_length] at this
    exact_mod_cast this
  have hlen0 : (0 : Int) ≤ ((all_positions.take n).length : Int) := Int.natCast_nonneg _
  refine ⟨acc, h, ?_, ?_, ?_, ?_⟩ <;> simp only at b1 b2 b3 b4 <;> omega

/-- C21 (refuted): the top-level call `search(board, P1, beta = INT_MAX,
alpha = INT_MIN, depth = 1)` on the board of `Board::reset`, with the flag
clear and any maximum depth of at least 2, negates `alpha = INT_MIN` before
its first recursive call, which overflows a 32-bit `int` (two's complement
gives `INT_MIN` back); started with `alpha = -INT_MAX` at maximum depth 7 the
same call returns without any overflow, and `search` returns the same. -/
theorem top_level_search_negates_int_min :
    (∀ k budget : Nat,
      search_checked ⟨Piece.P1, 2 + (k : Int), 12, false⟩ (budget + 1) reset_board Piece.P1
        INT_MAX INT_MIN 1 = Except.error Trap.overflow) ∧
      checked32 (-INT_MIN) = Except.error Trap.overflow ∧ wrap32 (-INT_MIN) = INT_MIN ∧
      ∃ p, search_checked ⟨Piece.P1, 7, 12, false⟩ 7 reset_board Piece.P1 INT_MAX (-INT_MAX) 1
          = Except.ok p ∧
        search ⟨Piece.P1, 7, 12, false⟩ 7 reset_board Piece.P1 INT_MAX (-INT_MAX) 1
          = Except.ok p := by
  refine ⟨?_, checked32_neg_int_min, by decide, ?_⟩
  · intro k budget
    have hwf : reset_board.wf := by decide
    refine root_overflow ⟨Piece.P1, 2 + (k : Int), 12, false⟩ hwf (by decide) INT_MAX 1 ?_ budget
    have hne : ¬ ((1 : Int) = 2 + (k : Int)) := by omega
    simp only [Bool.false_eq_true, if_false, decide_eq_false hne]
  · have hwf : reset_board.wf := by decide
    obtain ⟨p, hp, -, -⟩ := search_checked_spec ⟨Piece.P1, 7, 12, false⟩ 7 reset_board Piece.P1
      INT_MAX (-INT_MAX) 1 hwf (by decide) (by unfold enough; decide) (by decide) (by decide)
      (by decide) (by decide) (by decide) (by intro h; cases h)
    exact ⟨p, hp, search_checked_sound _ _ _ _ _ _ _ _ hp⟩


theorem to_string_none : to_string Position.none = "@0" := by decide

theorem no_position_prints_at_zero :
    Game_play_position "@0" = Option.none ∧ Game_play_silent_position "@0" = Option.none ∧
      ¬ ∃ pos : Position, pos.in_range ∧ to_string pos = "@0" := by
  have h1 : Game_play_position "@0" = Option.none := by decide
  refine ⟨h1, by decide, ?_⟩
  rintro ⟨⟨row, col⟩, ⟨hr, hc⟩, h⟩
  have hr' : row < 8 := by simp only at hr; omega
  have hc' : col < 8 := by simp only at hc; omega
  obtain ⟨-, e, -, -⟩ := to_string_round_trip row hr' col hc'
  rw [h, h1] at e
  cases e

/-- With maximum depth 1 and the flag clear the top-level search stops at once,
so `move` prints the default position. -/
theorem move_depth_one (self : Computer_player) {board : Board_vec} (hwf : board.wf)
    (hm : self.piece ≠ Piece.EMPTY) (hflag : self.search_to_end = false)
    (hdepth : self.max_depth = 1)
    (hend : ¬ count_pieces board Piece.EMPTY ≤ self.end_game_depth)
    (hsome : legal_list board self.piece ≠ []) (budget : Nat) :
    self.move board (budget + 1) = Except.ok "@0" := by
  have hcm : can_move board self.piece
      = Except.ok (decide (legal_list board self.piece ≠ [])) := can_move_eq hwf hm
  have hdec : decide (legal_list board self.piece ≠ []) = true := by simp [hsome]
  obtain ⟨v, hv, -, -⟩ := evaluate_ok hwf self.piece
  simp only [Computer_player.move, hcm, hdec, bind_ok, Bool.not_true, Bool.false_eq_true,
    if_false, hend, search, hflag, hdepth, pure_eq_ok, decide_True, if_true, hv]
  show Except.ok (to_string Position.none) = Except.ok "@0"
  rw [to_string_none]

/-- C11 (as stated, refuted): with maximum depth 1 and the flag clear (60 Empty
cells, end-game threshold 12), on the board of `Board::reset`, where P1 has
four legal positions, `move` returns "@0" for every budget: the text of the
default position (255, 255), which is the text of no position of the grid and
which the command handling of `Game::play` and `Game::play_silent` rejects. -/
theorem move_depth_one_returns_no_position :
    get_legal_positions reset_board Piece.P1
        = Except.ok [⟨2, 3⟩, ⟨3, 2⟩, ⟨4, 5⟩, ⟨5, 4⟩] ∧
      (∀ budget : Nat,
        Computer_player.move ⟨Piece.P1, 1, 12, false⟩ reset_board (budget + 1)
          = Except.ok "@0") ∧
      (¬ ∃ pos : Position, pos.in_range ∧ to_string pos = "@0") ∧
      Game_play_position "@0" = Option.none ∧
      Game_play_silent_position "@0" = Option.none := by
  have hwf : reset_board.wf := by decide
  have hl : legal_list reset_board Piece.P1 = [⟨2, 3⟩, ⟨3, 2⟩, ⟨4, 5⟩, ⟨5, 4⟩] := by
    have h1 := @get_legal_positions_eq reset_board hwf Piece.P1 (by decide)
    rw [reset_board_moves.1] at h1
    exact (Except.ok.inj h1).symm
  refine ⟨reset_board_moves.1, fun budget => ?_, no_position_prints_at_zero.2.2,
    no_position_prints_at_zero.1, no_position_prints_at_zero.2.1⟩
  exact move_depth_one ⟨Piece.P1, 1, 12, false⟩ hwf (by decide) rfl rfl (by decide)
    (by rw [hl]; decide) budget

/-- C11 (amended): on an 8x8 board and for a mover in P1, P2, when the maximum
depth (an `int`) is at least 2 or the Empty count is within the end-game
threshold, `move` returns one and the same string for every sufficiently large
budget; it is empty if and only if the mover has no legal position, and
otherwise it is the two-character text of a legal position of the grid, which
`Game::play` and `Game::play_silent` read back as that position. With maximum
depth 1, outside the end-game threshold, `move` returns the empty string in the
same case and otherwise "@0", the text of the default position. -/
theorem move_empty_iff_no_legal_position (self : Computer_player) (board : Board_vec)
    (hwf : board.wf) (hm : self.piece = Piece.P1 ∨ self.piece = Piece.P2) :
    (((2 ≤ self.max_depth ∧ self.max_depth ≤ INT_MAX) ∨
        count_pieces board Piece.EMPTY ≤ self.end_game_depth) →
      ∃ (N : Nat) (out : String),
        (∀ budget : Nat, N ≤ budget → self.move board budget = Except.ok out) ∧
        (out = "" ↔ get_legal_positions board self.piece = Except.ok []) ∧
        (out ≠ "" → ∃ pos : Position, out = to_string pos ∧ out.length = 2 ∧
          pos.in_range ∧ (∃ n, count_move board self.piece pos = Except.ok n ∧ 0 < n) ∧
          Game_play_position out = some pos ∧ Game_play_silent_position out = some pos)) ∧
    (self.search_to_end = false → self.max_depth = 1 →
      ¬ count_pieces board Piece.EMPTY ≤ self.end_game_depth →
      ∃ out : String,
        (∀ budget : Nat, 1 ≤ budget → self.move board budget = Except.ok out) ∧
        (out = "" ↔ get_legal_positions board self.piece = Except.ok []) ∧
        (out ≠ "" → out = "@0" ∧ out = to_string Position.none)) := by
  have hm' : self.piece ≠ Piece.EMPTY := by rcases hm with h | h <;> simp [h]
  have hE := (count_pieces_bounds hwf Piece.EMPTY).1
  have hgl : get_legal_positions board self.piece = Except.ok (legal_list board self.piece) :=
    get_legal_positions_eq hwf hm'
  have hcm : can_move board self.piece
      = Except.ok (decide (legal_list board self.piece ≠ [])) := can_move_eq hwf hm'
  have hne : ∀ pos : Position, to_string pos ≠ "" := by
    intro pos h
    have := to_string_length pos
    rw [h] at this
    exact absurd this (by decide)
  have hempty : legal_list board self.piece = [] → ∀ budget : Nat,
      self.move board budget = Except.ok "" := by
    intro hnone budget
    simp [Computer_player.move, hcm, hnone]
  have hiff : legal_list board self.piece ≠ [] → ∀ pos : Position,
      (to_string pos = "" ↔ get_legal_positions board self.piece = Except.ok []) := by
    intro hsome pos
    constructor
    · intro h; exact absurd h (hne pos)
    · intro h
      rw [hgl] at h
      exact absurd (Except.ok.inj h) hsome
  have hback : ∀ pos : Position, pos ∈ legal_list board self.piece →
      to_string pos = to_string pos ∧ (to_string pos).length = 2 ∧ pos.in_range ∧
        (∃ n, count_move board self.piece pos = Except.ok n ∧ 0 < n) ∧
        Game_play_position (to_string pos) = some pos ∧
        Game_play_silent_position (to_string pos) = some pos := by
    intro pos hpos
    obtain ⟨hin, hcnt⟩ := mem_legal_list.1 hpos
    obtain ⟨-, e2, e3, -⟩ := to_string_round_trip pos.row (by have := hin.1; omega) pos.col
      (by have := hin.2; omega)
    exact ⟨rfl, to_string_length pos, hin, hcnt, e2, e3⟩
  constructor
  · intro hcfg
    by_cases hnone : legal_list board self.piece = []
    · exact ⟨0, "", fun budget _ => hempty hnone budget, by simp [hgl, hnone],
        fun h => absurd rfl h⟩
    · have hdec : decide (legal_list board self.piece ≠ []) = true := by simp [hnone]
      by_cases hend : count_pieces board Piece.EMPTY ≤ self.end_game_depth
      · have hen : enough { self with search_to_end := true }
            (2 * count_pieces board Piece.EMPTY + 1).toNat board self.piece 1 := by
          unfold enough
          simp only [if_true, if_neg hnone]
          omega
        obtain ⟨p, -, -, hl, hp⟩ := search_returns_stable { self with search_to_end := true }
          hwf hm' INT_MAX INT_MIN 1 _ hen
        refine ⟨(2 * count_pieces board Piece.EMPTY + 1).toNat, to_string p.pos,
          fun budget hb => ?_, hiff hnone _, fun _ => ⟨p.pos,
            hback p.pos (hl (fun h => by simp at h) hnone)⟩⟩
        simp only [Computer_player.move, hcm, hdec, bind_ok, Bool.not_true, Bool.false_eq_true,
          if_false, hend, if_true]
        rw [hp budget hb]; rfl
      · have hd : 2 ≤ self.max_depth ∧ self.max_depth ≤ INT_MAX := by
          rcases hcfg with h | h
          · exact h
          · exact absurd h hend
        have hen : enough self
            (2 * count_pieces board Piece.EMPTY + 1 + self.max_depth).toNat board self.piece
            1 := by
          unfold enough
          split_ifs
          · omega
          · refine ⟨by decide, by omega, hd.2, by omega⟩
        obtain ⟨p, -, -, hl, hp⟩ := search_returns_stable self hwf hm' INT_MAX INT_MIN 1 _ hen
        refine ⟨(2 * count_pieces board Piece.EMPTY + 1 + self.max_depth).toNat,
          to_string p.pos, fun budget hb => ?_, hiff hnone _, fun _ => ⟨p.pos,
            hback p.pos (hl (fun _ => by omega) hnone)⟩⟩
        simp only [Computer_player.move, hcm, hdec, bind_ok, Bool.not_true, Bool.false_eq_true,
          if_false, hend]
        rw [hp budget hb]; rfl
  · intro hflag hdepth hend
    by_cases hnone : legal_list board self.piece = []
    · exact ⟨"", fun budget _ => hempty hnone budget, by simp [hgl, hnone],
        fun h => absurd rfl h⟩
    · refine ⟨"@0", fun budget hb => ?_, ?_, fun _ => ⟨rfl, to_string_none.symm⟩⟩
      · obtain ⟨k, rfl⟩ : ∃ k, budget = k + 1 := ⟨budget - 1, by omega⟩
        exact move_depth_one self hwf hm' hflag hdepth hend hnone k
      · rw [← to_string_none]
        exact hiff hnone _

theorem move_empty_iff_no_legal_position_witness :
    (∃ (N : Nat) (out : String),
      (∀ budget : Nat, N ≤ budget →
        Computer_player.move ⟨Piece.P1, 7, 11, false⟩ reset_board budget = Except.ok out) ∧
      (out = "" ↔ get_legal_positions reset_board Piece.P1 = Except.ok []) ∧
      (out ≠ "" → ∃ pos : Position, out = to_string pos ∧ out.length = 2 ∧
        pos.in_range ∧ (∃ n, count_move reset_board Piece.P1 pos = Except.ok n ∧ 0 < n) ∧
        Game_play_position out = some pos ∧ Game_play_silent_position out = some pos)) ∧
    (∃ out : String,
      (∀ budget : Nat, 1 ≤ budget →
        Computer_player.move ⟨Piece.P1, 1, 12, false⟩ reset_board budget = Except.ok out) ∧
      (out = "" ↔ get_legal_positions reset_board Piece.P1 = Except.ok []) ∧
      (out ≠ "" → out = "@0" ∧ out = to_string Position.none)) :=
  ⟨(move_empty_iff_no_legal_position ⟨Piece.P1, 7, 11, false⟩ reset_board (by decide)
      (by decide)).1 (Or.inl ⟨by decide, by decide⟩),
    (move_empty_iff_no_legal_position ⟨Piece.P1, 1, 12, false⟩ reset_board (by decide)
      (by decide)).2 rfl rfl (by decide)⟩


end Othello
